import Mathlib

/-! The tama Scheme interpreter: the bytecode compiler, the call protocol and the scanner.

A shallow embedding of the compiler (`compiler/compiler.go`), of the call
protocol and the upvalue chain of the interpreter state (`state.go`) and of the
scanner (`scanner/scanner.go`) of the tama Scheme interpreter.

* Go's `(*reg, error)` results, together with run-time panics (a nil pointer
  dereference, an index out of range), are the four-way `Outcome`.
* A `*funcState` that the Go code mutates in place is threaded explicitly:
  every operation returns the function state it leaves behind.
* The mutually recursive `compileObject`/`compilePair`/... are written with the
  recursive call to `compileObject` as a parameter `co`; `compileObjectFuel`
  ties the knot over a fuel counter and `compileObject` supplies enough fuel.
* The interpreter state is a record that every method of `state.go` takes and
  returns; a panic of a stack access is the result `none` (or `Run.crash`), and
  what the host functions do is a parameter of `precall`.
-/

namespace Tama

/-! ## Objects (`types/object.go`) -/

/-- The Go type `types.Number` is a `float64`; it is kept as its IEEE-754 binary64 bit
pattern (read modulo `2^64`), which is all that `==` looks at. -/
structure Number where
  bits : Nat
deriving DecidableEq, Repr

/-- A NaN: exponent field all ones and a non-zero fraction. -/
def Number.isNaN (n : Number) : Bool :=
  (n.bits / 2 ^ 52) % 2 ^ 11 == 2047 && n.bits % 2 ^ 52 != 0

/-- Plus or minus zero: every bit but the sign bit is clear. -/
def Number.isZero (n : Number) : Bool :=
  n.bits % 2 ^ 63 == 0

/-- Go's `==` on two `float64`: a NaN equals nothing (itself included), the two
zeros are equal, every other value is equal to its own bit pattern only. -/
def Number.eq (a b : Number) : Bool :=
  !a.isNaN && !b.isNaN &&
    (a.bits % 2 ^ 64 == b.bits % 2 ^ 64 || (a.isZero && b.isZero))

/-- The objects of `types`: `Number`, `String`, `*Nil`, `*Symbol`, `Boolean`,
`*Undefined` of `object.go` and the cons cell `*Pair`. -/
inductive Object where
  | number (n : Number)
  | string (s : String)
  | nil
  | symbol (name : String)
  | pair (car cdr : Object)
  | boolean (b : Bool)
  | undefined
deriving DecidableEq, Repr

/-- Number of constructors of an object; the measure that bounds the recursion of
the compiler. -/
def Object.size : Object → Nat
  | .pair a d => a.size + d.size + 1
  | _ => 1

/-! ## Pairs

`types/pair.go` is not among the sources; the compiler uses `Car`, `Cdr`, `Cdar`,
`Cddr`, `(*Pair).Len`, `(*Pair).Slice` and `types.List` from it. -/

/-- The errors that `Car`, `Cdr` and `Slice` of `types/pair.go` and the compiler's
`c.error(...)` calls return, one constructor per call site (the formatted
text is not modelled, the offending object is kept). -/
inductive CompileError where
  | pairRequired (obj : Object)
  | notAList (obj : Object)
  | invalidDefine
  | defineTargetNotSymbol
  | invalidLambda (form : Object)
  | invalidBegin (form : Object)
  | invalidSyntax (form : Object)
  | invalidProcName (obj : Object)
  | unknownObject (obj : Option Object)
deriving DecidableEq, Repr

/-- Modelled from the spec: `types.Car` of the missing `types/pair.go`; the car of a
cons cell, an error on any other object. -/
def Car : Object → Except CompileError Object
  | .pair a _ => .ok a
  | o => .error (.pairRequired o)

/-- Modelled from the spec: `types.Cdr` of the missing `types/pair.go`; the cdr of a
cons cell, an error on any other object. -/
def Cdr : Object → Except CompileError Object
  | .pair _ d => .ok d
  | o => .error (.pairRequired o)

/-- Modelled from the spec: `types.Cdar` of the missing `types/pair.go`, the car of
the cdr (the second element of a list; `compileDefine` reads the target symbol
of `(define a 1)` with it). -/
def Cdar (o : Object) : Except CompileError Object :=
  match Cdr o with
  | .ok d => Car d
  | .error e => .error e

/-- Modelled from the spec: `types.Cddr` of the missing `types/pair.go`, the cdr of
the cdr. -/
def Cddr (o : Object) : Except CompileError Object :=
  match Cdr o with
  | .ok d => Cdr d
  | .error e => .error e

/-- Modelled from the spec: `Slice` of the missing `types/pair.go` (and
`(*Nil).Slice` of `object.go`): the flattening of a cdr chain "into an ordered
sequence of Objects (fails if the chain is not list-shaped, i.e., terminates in
a non-nil, non-pair cdr)". -/
def Slice : Object → Except CompileError (List Object)
  | .nil => .ok []
  | .pair a d =>
    match Slice d with
    | .ok xs => .ok (a :: xs)
    | .error e => .error e
  | o => .error (.notAList o)

/-- Modelled from the spec: `(*Pair).Len` of the missing `types/pair.go`, applied to
the cell `(car . cdr)`: the number of cons cells of the cdr chain, which for a
list is its number of elements. -/
def Len : Object → Nat
  | .pair _ d => Len d + 1
  | _ => 0

/-- The Go interface `types.SlicableObject`: the objects that have a `Slice` method,
`*Nil` and `*Pair`. -/
def isSlicable : Object → Bool
  | .nil => true
  | .pair _ _ => true
  | _ => false

/-- Modelled from the spec: `types.List` of the missing `types/pair.go`, the
nil-terminated chain of cons cells holding the given objects. -/
def mkList : List Object → Object
  | [] => .nil
  | x :: xs => .pair x (mkList xs)

/-! ## Instructions and prototypes

`compiler/opcode.go` and `types/closure.go` are not among the sources. -/

/-- Modelled from the spec: the opcodes `OP_*` of the missing `compiler/opcode.go`
that `compiler.go` names. -/
inductive OpCode where
  | OP_LOADK
  | OP_GETGLOBAL
  | OP_SETGLOBAL
  | OP_MOVE
  | OP_CLOSURE
  | OP_CALL
  | OP_RETURN
deriving DecidableEq, Repr

/-- Modelled from the spec: an instruction word, in "one of two layouts: (a) opcode +
three small operand fields, (b) opcode + one small operand + one wide operand".
The bit layout of the missing `CreateABC`/`CreateABx` is not modelled: an
instruction is kept decoded. -/
inductive Inst where
  | ABC (op : OpCode) (a b c : Nat)
  | ABx (op : OpCode) (a bx : Nat)
deriving DecidableEq, Repr

/-- Modelled from the spec: `CreateABC` of the missing `compiler/opcode.go`. -/
def CreateABC (op : OpCode) (a b c : Nat) : Inst := .ABC op a b c

/-- Modelled from the spec: `CreateABx` of the missing `compiler/opcode.go`. -/
def CreateABx (op : OpCode) (a bx : Nat) : Inst := .ABx op a bx

/-- The values that the compiler interns in a constant pool: `constIndex` is called
with a `types.Number` (`compileNumber`) or a `types.String` (`compileSymbol`,
`compileDefine`) and with nothing else. -/
inductive Const where
  | number (n : Number)
  | string (s : String)
deriving DecidableEq, Repr

/-- Go's `==` on two interface values holding a `Number` or a `String`: equal
dynamic types and equal values. -/
def Const.goEq : Const → Const → Bool
  | .number a, .number b => a.eq b
  | .string a, .string b => decide (a = b)
  | _, _ => false

/-- Modelled from the spec: the argument-binding modes of the missing
`types/closure.go`, "Fixed, Vararg — exactly one formal collects all arguments
as a list, Rest — trailing formals collect remaining arguments as a list". -/
inductive ArgMode where
  | FixedArgMode
  | VArgMode
  | RestArgMode
deriving DecidableEq, Repr

/-- Modelled from the spec: `types.ClosureProto` of the missing `types/closure.go`,
with the fields that `compiler.go` reads and writes: "an ordered sequence of
encoded instructions, an ordered, deduplicated sequence of constants, an
ordered sequence of nested ClosureProtos, the formal parameter symbol list, and
an argument-binding mode". -/
inductive ClosureProto where
  | mk (Insts : List Inst) (Consts : List Const) (Protos : List ClosureProto)
      (Args : List String) (Mode : ArgMode)
deriving Repr

/-- Field `Insts`. -/
def ClosureProto.Insts : ClosureProto → List Inst
  | .mk i _ _ _ _ => i

/-- Field `Consts`. -/
def ClosureProto.Consts : ClosureProto → List Const
  | .mk _ c _ _ _ => c

/-- Field `Protos`. -/
def ClosureProto.Protos : ClosureProto → List ClosureProto
  | .mk _ _ p _ _ => p

/-- Field `Args` (the names of the parameter symbols). -/
def ClosureProto.Args : ClosureProto → List String
  | .mk _ _ _ a _ => a

/-- Field `Mode`. -/
def ClosureProto.Mode : ClosureProto → ArgMode
  | .mk _ _ _ _ m => m

/-- Modelled from the spec: `types.NewClosureProto` of the missing
`types/closure.go`, the empty prototype. -/
def NewClosureProto : ClosureProto := .mk [] [] [] [] .FixedArgMode

/-! ## Function states -/

/-- The Go enumeration `varType`. -/
inductive varType where
  | varGlobal
  | varUpValue
  | varLocVar
deriving DecidableEq, Repr

/-- The Go struct `reg`. -/
structure reg where
  N : Nat
deriving DecidableEq, Repr

/-- The Go struct `locVar`. -/
structure locVar where
  Name : String
  Index : Nat
deriving DecidableEq, Repr

/-- The Go struct `upValue`. -/
structure upValue where
  Name : String
  Index : Nat
deriving DecidableEq, Repr

/-- The Go struct `funcState`. The maps are functions from names; `prev` is the
enclosing function state as it stands while this one is being compiled (the
compiler never writes to an enclosing state during that time). `handed` is a
ghost field, absent from the Go struct and read by no operation: the registers
handed out so far by `newReg` and `bindLocVar`, oldest first. -/
inductive funcState where
  | mk (Proto : ClosureProto) (nreg : Nat) (prev : Option funcState)
      (locVars : String → Option locVar) (upVals : String → Option upValue)
      (handed : List Nat)

namespace funcState

/-- Field `Proto`. -/
def Proto : funcState → ClosureProto
  | .mk p _ _ _ _ _ => p

/-- Field `nreg`. -/
def nreg : funcState → Nat
  | .mk _ n _ _ _ _ => n

/-- Field `prev`. -/
def prev : funcState → Option funcState
  | .mk _ _ p _ _ _ => p

/-- Field `locVars`. -/
def locVars : funcState → String → Option locVar
  | .mk _ _ _ l _ _ => l

/-- Field `upVals`. -/
def upVals : funcState → String → Option upValue
  | .mk _ _ _ _ u _ => u

/-- Ghost field `handed`. -/
def handed : funcState → List Nat
  | .mk _ _ _ _ _ h => h

/-- The instructions emitted so far, `fs.Proto.Insts`. -/
def Insts (fs : funcState) : List Inst := fs.Proto.Insts

/-- The constant pool, `fs.Proto.Consts`. -/
def Consts (fs : funcState) : List Const := fs.Proto.Consts

end funcState

/-- The Go function `newFuncState`. -/
def newFuncState (prev : Option funcState) : funcState :=
  .mk NewClosureProto 0 prev (fun _ => none) (fun _ => none) []

/-- The Go method `funcState.newReg`. -/
def funcState.newReg : funcState → reg × funcState
  | .mk p n pv l u h => (⟨n⟩, .mk p (n + 1) pv l u (h ++ [n]))

/-- The Go method `funcState.add`. -/
def funcState.add (inst : Inst) : funcState → funcState
  | .mk (.mk i c ps a m) n pv l u h => .mk (.mk (i ++ [inst]) c ps a m) n pv l u h

/-- The Go method `funcState.addABx`. -/
def funcState.addABx (fs : funcState) (op : OpCode) (a bx : Nat) : funcState :=
  fs.add (CreateABx op a bx)

/-- The Go method `funcState.addABC`. -/
def funcState.addABC (fs : funcState) (op : OpCode) (a b c : Nat) : funcState :=
  fs.add (CreateABC op a b c)

/-- The loop of `constIndex`: the first index `i + k` such that entry `k` of the
list is `==` to `v`. -/
def findConst (v : Const) : List Const → Nat → Option Nat
  | [], _ => none
  | cs :: rest, i => if cs.goEq v then some i else findConst v rest (i + 1)

/-- The Go method `funcState.constIndex`. -/
def funcState.constIndex (fs : funcState) (v : Const) : Nat × funcState :=
  match findConst v fs.Consts 0 with
  | some i => (i, fs)
  | none =>
    match fs with
    | .mk (.mk i c ps a m) n pv l u h =>
      ((c ++ [v]).length - 1, .mk (.mk i (c ++ [v]) ps a m) n pv l u h)

/-- The Go method `funcState.bindLocVar` (the symbol is given by its name). -/
def funcState.bindLocVar (sym : String) : funcState → funcState
  | .mk p n pv l u h =>
    .mk p (n + 1) pv (fun k => if k = sym then some ⟨sym, n⟩ else l k) u (h ++ [n])

/-- The Go method `funcState.findLocVar`. -/
def funcState.findLocVar (fs : funcState) (sym : String) : Option locVar :=
  fs.locVars sym

/-- The loop of `getVarType`, from the non-nil loop variable `cur` on; `atFs` says
whether `cur` is the state `fs` the loop started from (the pointer test
`cur == fs`, true in the first iteration only). The lookup is
`fs.findLocVar`, as in the source. -/
def getVarTypeLoop (fs : funcState) (sym : String) : funcState → Bool → varType
  | .mk _ _ pv _ _ _, atFs =>
    match fs.findLocVar sym with
    | some _ => if atFs then .varLocVar else .varUpValue
    | none =>
      match pv with
      | some cur => getVarTypeLoop fs sym cur false
      | none => .varGlobal

/-- The Go method `funcState.getVarType`. -/
def funcState.getVarType (fs : funcState) (sym : String) : varType :=
  getVarTypeLoop fs sym fs true

/-! ## The compiler -/

/-- What a call of a Go function of the compiler comes to: it returns a value and a
nil error (`ret`), it returns a non-nil error next to a nil value (`fail`), it
panics at run time (`crash`), or the fuel of the embedding ran out
(`outOfFuel`, which `compileObject` never produces). -/
inductive Outcome (α : Type) where
  | ret (val : α)
  | fail (err : CompileError)
  | crash
  | outOfFuel
deriving DecidableEq, Repr

/-- The Go type of the recursive calls: `compileObject`, as a function of the
function state and the object, returning a `*reg` that may be nil. -/
abbrev CompileFn := funcState → Object → Outcome (Option reg) × funcState

/-- The Go method `Compiler.compileNumber`. -/
def compileNumber (fs : funcState) (num : Number) : reg × funcState :=
  let (r, fs1) := fs.newReg
  let (k, fs2) := fs1.constIndex (.number num)
  (r, fs2.addABx .OP_LOADK r.N k)

/-- The Go method `Compiler.compileSymbol` (the symbol is given by its name). -/
def compileSymbol (fs : funcState) (sym : String) : Outcome (Option reg) × funcState :=
  match fs.getVarType sym with
  | .varLocVar =>
    match fs.findLocVar sym with
    | some loc => (.ret (some ⟨loc.Index⟩), fs)
    | none => (.crash, fs) -- `loc.Index` on a nil `loc`
  | .varGlobal =>
    let (r1, fs1) := fs.newReg
    let (k, fs2) := fs1.constIndex (.string sym)
    (.ret (some r1), fs2.addABx .OP_GETGLOBAL r1.N k)
  | .varUpValue => (.ret none, fs)

/-- The Go method `Compiler.compileObjects`: the forms are compiled from left to
right and the loop stops at the first one that does not return a register. -/
def compileObjects (co : CompileFn) :
    funcState → List Object → Outcome (List (Option reg)) × funcState
  | fs, [] => (.ret [], fs)
  | fs, obj :: rest =>
    match co fs obj with
    | (.ret r, fs1) =>
      match compileObjects co fs1 rest with
      | (.ret rs, fs2) => (.ret (r :: rs), fs2)
      | other => other
    | (.fail e, fs1) => (.fail e, fs1)
    | (.crash, fs1) => (.crash, fs1)
    | (.outOfFuel, fs1) => (.outOfFuel, fs1)

/-- The Go method `Compiler.compileDefine`, on the pair `(car . cdr)`. -/
def compileDefine (co : CompileFn) (fs : funcState) (car cdr : Object) :
    Outcome (Option reg) × funcState :=
  match Cdar (.pair car cdr) with
  | .error _ => (.fail .invalidDefine, fs)
  | .ok cdar =>
    match Cddr (.pair car cdr) with
    | .error _ => (.fail .invalidDefine, fs)
    | .ok cddr =>
      match Car cddr with
      | .error _ => (.fail .invalidDefine, fs)
      | .ok rest =>
        match cdar with
        | .symbol name =>
          let (nameR, fs1) := fs.newReg
          let (k, fs2) := fs1.constIndex (.string name)
          let fs3 := fs2.addABx .OP_LOADK nameR.N k
          match co fs3 rest with
          | (.ret (some valueR), fs4) =>
            (.ret (some valueR), fs4.addABx .OP_SETGLOBAL valueR.N nameR.N)
          | (.ret none, fs4) => (.crash, fs4) -- `valueR.N` on a nil `valueR`
          | (.fail e, fs4) => (.fail e, fs4)
          | (.crash, fs4) => (.crash, fs4)
          | (.outOfFuel, fs4) => (.outOfFuel, fs4)
        | _ => (.fail .defineTargetNotSymbol, fs)

/-- The loop of `compileLambda` over the parameter list: the names of the
parameters when every one of them is a symbol. -/
def symbolNames : List Object → Option (List String)
  | [] => some []
  | .symbol name :: rest =>
    match symbolNames rest with
    | some names => some (name :: names)
    | none => none
  | _ :: _ => none

/-- The assignment `child.Proto.Args = argSyms`. -/
def funcState.setArgs (args : List String) : funcState → funcState
  | .mk (.mk i c ps _ m) n pv l u h => .mk (.mk i c ps args m) n pv l u h

/-- The statement `fs.Proto.Protos = append(fs.Proto.Protos, child.Proto)`. -/
def funcState.appendProto (child : ClosureProto) : funcState → funcState
  | .mk (.mk i c ps a m) n pv l u h => .mk (.mk i c (ps ++ [child]) a m) n pv l u h

/-- The child function state of a lambda, as it stands when the body is about to
be compiled: `newFuncState(fs)` with the parameters recorded in `Proto.Args` and
bound, in order, by `bindLocVar`. -/
def lambdaChild (fs : funcState) (argSyms : List String) : funcState :=
  argSyms.foldl (fun child arg => child.bindLocVar arg)
    ((newFuncState (some fs)).setArgs argSyms)

/-- The Go method `Compiler.compileLambda`, on the pair `(car . cdr)`. -/
def compileLambda (co : CompileFn) (fs : funcState) (car cdr : Object) :
    Outcome (Option reg) × funcState :=
  if Len (.pair car cdr) < 3 then (.fail (.invalidLambda (.pair car cdr)), fs)
  else
    match Cdar (.pair car cdr) with
    | .error _ => (.fail (.invalidLambda (.pair car cdr)), fs) -- a nil interface is not slicable
    | .ok cdar =>
      if !isSlicable cdar then (.fail (.invalidLambda (.pair car cdr)), fs)
      else
        match Slice cdar with
        | .error e => (.fail e, fs)
        | .ok argsArr =>
          match symbolNames argsArr with
          | none => (.fail (.invalidLambda (.pair car cdr)), fs)
          | some argSyms =>
            let child := lambdaChild fs argSyms
            let bodyR : Outcome (Option reg) × funcState :=
              match Cddr (.pair car cdr) with
              | .error _ => (.fail (.unknownObject none), child) -- `compileObject(child, nil)`
              | .ok cddr =>
                match Car cddr with
                | .error _ => (.fail (.unknownObject none), child)
                | .ok body => co child body
            match bodyR with
            | (.ret (some resultR), child1) =>
              let child2 := child1.addABC .OP_RETURN resultR.N 2 0
              let protoIndex := fs.Proto.Protos.length
              let fs1 := fs.appendProto child2.Proto
              let (r, fs2) := fs1.newReg
              (.ret (some r), fs2.addABx .OP_CLOSURE r.N protoIndex)
            | (.ret none, _) => (.crash, fs) -- `resultR.N` on a nil `resultR`
            | (.fail e, _) => (.fail e, fs)
            | (.crash, _) => (.crash, fs)
            | (.outOfFuel, _) => (.outOfFuel, fs)

/-- The Go method `Compiler.compileBegin`, on the pair `(car . cdr)`. -/
def compileBegin (co : CompileFn) (fs : funcState) (car cdr : Object) :
    Outcome (Option reg) × funcState :=
  if Len (.pair car cdr) < 2 then (.fail (.invalidBegin (.pair car cdr)), fs)
  else
    match cdr with
    | .pair _ _ =>
      match Slice cdr with
      | .error e => (.fail e, fs)
      | .ok exprs =>
        match compileObjects co fs exprs with
        | (.ret regs, fs1) =>
          match regs.getLast? with
          | some r => (.ret r, fs1)
          | none => (.crash, fs1) -- `regs[len(regs)-1]` on an empty slice
        | (.fail e, fs1) => (.fail e, fs1)
        | (.crash, fs1) => (.crash, fs1)
        | (.outOfFuel, fs1) => (.outOfFuel, fs1)
    | _ => (.crash, fs) -- the type assertion `cdr.(*types.Pair)`

/-- The loop of `compileCall` over the arguments, from argument number `i`
(counted from zero) on; `procR` is the register of the callee. -/
def compileArgs (co : CompileFn) (procR : Option reg) :
    funcState → List Object → Nat → Outcome Unit × funcState
  | fs, [], _ => (.ret (), fs)
  | fs, arg :: rest, i =>
    match co fs arg with
    | (.ret (some r), fs1) =>
      match procR with
      | some p =>
        let fs2 := if p.N + i + 1 ≠ r.N then fs1.addABC .OP_MOVE (p.N + i + 1) r.N 0 else fs1
        compileArgs co procR fs2 rest (i + 1)
      | none => (.crash, fs1) -- `procR.N` on a nil `procR`
    | (.ret none, fs1) => (.crash, fs1) -- `r.N` on a nil `r`
    | (.fail _, fs1) => (.crash, fs1) -- `r` is nil: `r.N` panics before `err` is looked at
    | (.crash, fs1) => (.crash, fs1)
    | (.outOfFuel, fs1) => (.outOfFuel, fs1)

/-- The Go method `Compiler.compileCall`. -/
def compileCall (co : CompileFn) (fs : funcState) (proc args : Object) :
    Outcome (Option reg) × funcState :=
  match co fs proc with
  | (.ret procR, fs1) =>
    match Slice args with
    | .error e => (.fail e, fs1)
    | .ok argsArr =>
      match compileArgs co procR fs1 argsArr 0 with
      | (.ret _, fs2) =>
        match procR with
        | some p => (.ret (some p), fs2.addABC .OP_CALL p.N (1 + argsArr.length) 2)
        | none => (.crash, fs2) -- `procR.N` on a nil `procR`
      | (.fail e, fs2) => (.fail e, fs2)
      | (.crash, fs2) => (.crash, fs2)
      | (.outOfFuel, fs2) => (.outOfFuel, fs2)
  | (.fail e, fs1) => (.fail e, fs1)
  | (.crash, fs1) => (.crash, fs1)
  | (.outOfFuel, fs1) => (.outOfFuel, fs1)

/-- The Go method `Compiler.compilePair`, on the pair `(car . cdr)`. -/
def compilePair (co : CompileFn) (fs : funcState) (car cdr : Object) :
    Outcome (Option reg) × funcState :=
  if Len (.pair car cdr) = 0 then (.fail (.invalidSyntax (.pair car cdr)), fs)
  else if !isSlicable cdr then (.fail (.invalidSyntax (.pair car cdr)), fs)
  else
    match car with
    | .symbol name =>
      if name = "define" then compileDefine co fs car cdr
      else if name = "lambda" then compileLambda co fs car cdr
      else if name = "begin" then compileBegin co fs car cdr
      else compileCall co fs car cdr
    | .pair _ _ => compileCall co fs car cdr
    | v => (.fail (.invalidProcName v), fs)

/-- The Go method `Compiler.compileObject`, with a bound on the depth of the
recursion. -/
def compileObjectFuel : Nat → CompileFn
  | 0, fs, _ => (.outOfFuel, fs)
  | fuel + 1, fs, obj =>
    match obj with
    | .number num =>
      let (r, fs1) := compileNumber fs num
      (.ret (some r), fs1)
    | .symbol name => compileSymbol fs name
    | .pair a d => compilePair (compileObjectFuel fuel) fs a d
    | o => (.fail (.unknownObject (some o)), fs)

/-- The Go method `Compiler.compileObject`: the recursion descends into strictly
smaller objects, so the size of the object is fuel enough. -/
def compileObject : CompileFn :=
  fun fs obj => compileObjectFuel obj.size fs obj

/-- Modelled from the spec: `types.Closure` of the missing `types/closure.go`, with
the fields that `state.go` reads: "either a native closure (name,
minimum/maximum arity, opaque host-callable function) or an interpreted
closure (owns a ClosureProto)". The host function `Fn` is kept as a number that
names it (`none` for a value that is not a `GoFunc`); what it does is a
parameter of `precall`. `Proto` is read for interpreted closures only. -/
structure Closure where
  IsGo : Bool
  Proto : ClosureProto
  Fn : Option Nat
  FnName : String
  MinArg : Int
  MaxArg : Int

/-- Modelled from the spec: `types.NewScmClosure` of the missing
`types/closure.go`, an interpreted closure without a prototype yet. -/
def NewScmClosure : Closure := ⟨false, NewClosureProto, none, "", 0, 0⟩

/-- Modelled from the spec: `types.NewGoClosure` of the missing `types/closure.go`, a
native closure with its name, its bounds and its host function. -/
def NewGoClosure (name : String) (minArg maxArg : Int) (fn : Nat) : Closure :=
  ⟨true, NewClosureProto, some fn, name, minArg, maxArg⟩

/-- The Go function `Compile`. -/
def Compile (objs : List Object) : Outcome Closure :=
  match compileObjects compileObject (newFuncState none) objs with
  | (.ret regs, fs) =>
    match regs.getLast? with
    | some (some lastR) =>
      .ret { NewScmClosure with Proto := (fs.addABC .OP_RETURN lastR.N 2 0).Proto }
    | some none => .crash -- `lastR.N` on a nil `lastR`
    | none => .crash -- `regs[len(regs)-1]` on an empty slice
  | (.fail e, _) => .fail e
  | (.crash, _) => .crash
  | (.outOfFuel, _) => .outOfFuel

/-! ## Sample data -/

/-- The float64 `1`. -/
def num1 : Number := ⟨0x3FF0000000000000⟩

/-- The float64 `2`. -/
def num2 : Number := ⟨0x4000000000000000⟩

/-- A float64 NaN (exponent all ones, top fraction bit set). -/
def numNaN : Number := ⟨0x7FF8000000000000⟩

/-- The function state in which the body of `(lambda (a) ...)` is compiled at top
level: `a` is the local in register 0. -/
def fsLambdaA : funcState := lambdaChild (newFuncState none) ["a"]

/-- The function state in which the body of the inner lambda of
`(lambda (a) (lambda (b) ...))` is compiled: `b` is its local in register 0 and
its enclosing state is `fsLambdaA`, where `a` is bound. -/
def fsLambdaAB : funcState := lambdaChild fsLambdaA ["b"]

/-- The form `(+ a 1)`. -/
def formPlusA1 : Object := mkList [.symbol "+", .symbol "a", .number num1]

/-- The form `(+ a 2)`. -/
def formPlusA2 : Object := mkList [.symbol "+", .symbol "a", .number num2]

/-- The form `(lambda (a) (+ a 1) (+ a 2))`, the operator of the form
`((lambda (a) (+ a 1) (+ a 2)) 1)` of `TestExecuteString`. -/
def formLambdaTwoBodies : Object :=
  mkList [.symbol "lambda", mkList [.symbol "a"], formPlusA1, formPlusA2]

/-- The form `(f #t)`: a call whose argument is a boolean. -/
def formCallWithBoolean : Object := mkList [.symbol "f", .boolean true]

/-! ## What an operation leaves of a function state -/

/-- The function state `fs2` is `fs1` after some compile operations on it: the
register counter has grown by some `k`, the registers handed out meanwhile are
`nreg, nreg + 1, ..., nreg + k - 1` in this order, instructions, constants and
nested prototypes have only been appended, and the bindings, the parameter
list and the enclosing state are the same. -/
structure Grows (fs1 fs2 : funcState) : Prop where
  regs : ∃ k, fs2.nreg = fs1.nreg + k ∧ fs2.handed = fs1.handed ++ List.range' fs1.nreg k
  insts : ∃ code, fs2.Insts = fs1.Insts ++ code
  consts : ∃ cs, fs2.Consts = fs1.Consts ++ cs
  protos : ∃ ps, fs2.Proto.Protos = fs1.Proto.Protos ++ ps
  args : fs2.Proto.Args = fs1.Proto.Args
  locVars : fs2.locVars = fs1.locVars
  prev : fs2.prev = fs1.prev

/-- Every call of the compile function `co` leaves a grown function state. -/
def GrowsFn (co : CompileFn) : Prop := ∀ fs obj, Grows fs (co fs obj).2

/-- The instructions that the call `co fs obj` appends to `fs`. -/
def emittedBy (co : CompileFn) (fs : funcState) (obj : Object) : List Inst :=
  (co fs obj).2.Insts.drop fs.Insts.length

/-- The instructions that compiling the forms `objs` one after the other, each in
the state its predecessor left, appends to `fs`: the code of the first form,
then the code of the second, and so on. -/
def codeOfForms (co : CompileFn) : funcState → List Object → List Inst
  | _, [] => []
  | fs, obj :: rest => emittedBy co fs obj ++ codeOfForms co (co fs obj).2 rest

/-- Every one of the forms `objs`, compiled one after the other from `fs` on,
returns a register. -/
def allCompile (co : CompileFn) : funcState → List Object → Prop
  | _, [] => True
  | fs, obj :: rest => (∃ r, (co fs obj).1 = .ret (some r)) ∧ allCompile co (co fs obj).2 rest

/-- The function state after the forms `objs` have been compiled one after the
other from `fs` on. -/
def stateAfter (co : CompileFn) : funcState → List Object → funcState
  | fs, [] => fs
  | fs, obj :: rest => stateAfter co (co fs obj).2 rest

/-- The result of compiling the last of the forms `objs`, each form compiled in the
state its predecessor left (`none` for no form). -/
def lastResult (co : CompileFn) : funcState → List Object → Option (Outcome (Option reg))
  | _, [] => none
  | fs, [obj] => some (co fs obj).1
  | fs, obj :: obj2 :: rest => lastResult co (co fs obj).2 (obj2 :: rest)

/-! ## Definitions used by the statements -/

/-- No two entries of a pool, at different indices, are `==`. -/
def noEqualEntries (cs : List Const) : Prop :=
  cs.Pairwise (fun a b => a.goEq b = false)

/-- C5 in the words of the specification, with "equal" read as Go's `==`: on a pool
without two equal entries, `constIndex(v)` returns an index `i` with
`Consts[i] == v`; if `v` was in the pool the state is unchanged, otherwise `v`
is appended at the end and its index is returned; afterwards the pool is still
without two equal entries; and a second `constIndex(v)` returns the same
index and changes nothing. -/
def constIndexClaim (fs : funcState) (v : Const) : Prop :=
  noEqualEntries fs.Consts →
    (∃ c, (fs.constIndex v).2.Consts[(fs.constIndex v).1]? = some c ∧ c.goEq v = true) ∧
    ((∃ c ∈ fs.Consts, c.goEq v = true) → (fs.constIndex v).2 = fs) ∧
    ((∀ c ∈ fs.Consts, c.goEq v = false) →
      (fs.constIndex v).2.Consts = fs.Consts ++ [v] ∧
        (fs.constIndex v).1 = fs.Consts.length) ∧
    noEqualEntries (fs.constIndex v).2.Consts ∧
    ((fs.constIndex v).2.constIndex v).1 = (fs.constIndex v).1 ∧
    ((fs.constIndex v).2.constIndex v).2 = (fs.constIndex v).2

/-- An operation on a function state that may hand out registers: `newReg`,
`bindLocVar` and the compile functions (the recursive ones with `compileObject`
as their recursive call). -/
inductive CompileOp where
  | newReg
  | bindLocVar (sym : String)
  | compileNumber (num : Number)
  | compileSymbol (sym : String)
  | compileObject (obj : Object)
  | compileObjects (objs : List Object)
  | compilePair (car cdr : Object)
  | compileDefine (car cdr : Object)
  | compileLambda (car cdr : Object)
  | compileBegin (car cdr : Object)
  | compileCall (proc args : Object)

/-- The function state that an operation leaves. -/
def CompileOp.run : CompileOp → funcState → funcState
  | .newReg, fs => fs.newReg.2
  | .bindLocVar sym, fs => fs.bindLocVar sym
  | .compileNumber num, fs => (Tama.compileNumber fs num).2
  | .compileSymbol sym, fs => (Tama.compileSymbol fs sym).2
  | .compileObject obj, fs => (Tama.compileObject fs obj).2
  | .compileObjects objs, fs => (Tama.compileObjects Tama.compileObject fs objs).2
  | .compilePair car cdr, fs => (Tama.compilePair Tama.compileObject fs car cdr).2
  | .compileDefine car cdr, fs => (Tama.compileDefine Tama.compileObject fs car cdr).2
  | .compileLambda car cdr, fs => (Tama.compileLambda Tama.compileObject fs car cdr).2
  | .compileBegin car cdr, fs => (Tama.compileBegin Tama.compileObject fs car cdr).2
  | .compileCall proc args, fs => (Tama.compileCall Tama.compileObject fs proc args).2

/-- The function state after a sequence of operations, run from left to right. -/
def runOps (ops : List CompileOp) (fs : funcState) : funcState :=
  ops.foldl (fun s op => op.run s) fs

/-- The compile functions `co1` and `co2` agree on every object of size below
`n`. -/
def AgreeBelow (n : Nat) (co1 co2 : CompileFn) : Prop :=
  ∀ fs o, o.size < n → co1 fs o = co2 fs o

/-- The outcome is one the Go function can have and is not "a nil register and a
nil error": a register, an error or a panic. -/
def Outcome.Proper (o : Outcome (Option reg)) : Prop :=
  o ≠ .outOfFuel ∧ o ≠ .ret none

/-- Every outcome of the compile function `co` is proper. -/
def ProperFn (co : CompileFn) : Prop := ∀ fs obj, (co fs obj).1.Proper

/-- The forms `(define a 1)` and `(+ a 1)`. -/
def formsDefineThenAdd : List Object :=
  [mkList [.symbol "define", .symbol "a", .number num1], formPlusA1]

/-- The sub-expressions `1`, `2` of `(begin 1 2)`. -/
def exprsOneTwo : List Object := [.number num1, .number num2]

/-! ## The interpreter state (`state.go`)

`types/stack.go`, `types/callinfo.go` and `types/upvalue.go` are not among the
sources. -/

/-- The Go struct `types.CallInfo`, as `precall` builds it. -/
structure CallInfo where
  Cl : Closure
  Base : Int
  FuncSp : Int

/-- A `types.Object` interface value as it is found at run time: the nil
interface, an object of the reader, a cons cell made at run time, a closure,
or a call-info. -/
inductive Value where
  | null
  | object (o : Object)
  | pair (car cdr : Value)
  | closure (cl : Closure)
  | callInfo (ci : CallInfo)

/-- Modelled from the spec: `types.List` of the missing `types/pair.go` on run-time
values, the nil-terminated chain of cons cells holding the given values. -/
def mkValueList : List Value → Value
  | [] => .object .nil
  | x :: xs => .pair x (mkValueList xs)

/-- Modelled from the spec: `types.Stack` of the missing `types/stack.go`, a
"fixed-capacity indexable array of Objects with a cursor". `sp` is the index
of the top element (`popArgs` reads the last argument at `Sp()`), `-1` for the
empty stack. -/
structure Stack where
  slots : List Value
  sp : Int

/-- Modelled from the spec: `types.NewStack`, all slots nil and nothing pushed
(`TestNewStack`: `Len()` is the size and `Top()` is nil). -/
def NewStack (size : Nat) : Stack := ⟨List.replicate size .null, -1⟩

/-- Modelled from the spec: `Stack.Len`, the capacity. -/
def Stack.Len (st : Stack) : Int := st.slots.length

/-- Modelled from the spec: `Stack.Sp`. -/
def Stack.Sp (st : Stack) : Int := st.sp

/-- Modelled from the spec: `Stack.SetSp`. -/
def Stack.SetSp (st : Stack) (sp : Int) : Stack := { st with sp := sp }

/-- Modelled from the spec: `Stack.Get`; `none` is the panic of an index outside
the array. -/
def Stack.Get (st : Stack) (idx : Int) : Option Value :=
  if 0 ≤ idx ∧ idx < st.Len then st.slots[idx.toNat]? else none

/-- Modelled from the spec: `Stack.Set`; `none` is the panic of an index outside
the array. -/
def Stack.Set (st : Stack) (idx : Int) (v : Value) : Option Stack :=
  if 0 ≤ idx ∧ idx < st.Len then some { st with slots := st.slots.set idx.toNat v } else none

/-- Modelled from the spec: `Stack.Push`, the cursor advanced by one and the value
stored there; `none` is the panic of a full stack. -/
def Stack.Push (st : Stack) (v : Value) : Option Stack :=
  (st.SetSp (st.sp + 1)).Set (st.sp + 1) v

/-- Modelled from the spec: `Stack.Top`, nil for the empty stack (`TestNewStack`). -/
def Stack.Top (st : Stack) : Option Value :=
  if st.sp < 0 then some .null else st.Get st.sp

/-- Modelled from the spec: `Stack.Pop`, the top value with the cursor moved back
by one, nil and no change for the empty stack (`TestStackPushAndPop`). -/
def Stack.Pop (st : Stack) : Option (Value × Stack) :=
  if st.sp < 0 then some (.null, st)
  else
    match st.Get st.sp with
    | some v => some (v, st.SetSp (st.sp - 1))
    | none => none

/-- Modelled from the spec: `types.UpValue` of the missing `types/upvalue.go`, one
captured stack slot, the `Next` pointers being the order of the list the state
keeps. `addr` is a ghost field: the address `&types.UpValue{...}` allocated,
which tells two entries with equal fields apart. -/
structure UpValue where
  addr : Nat
  Index : Int
  Closed : Bool
  Value : Value

/-- Modelled from the spec: `UpValue.Close`, "copy its current stack value into its own
storage and mark it closed"; `none` is the panic of a slot outside the stack. -/
def UpValue.Close (uv : UpValue) (stack : Stack) : Option UpValue :=
  match stack.Get uv.Index with
  | some v => some { uv with Closed := true, Value := v }
  | none => none

/-- The Go struct `State`. The list `uvhead` is the chain of open upvalues that
starts at the pointer `uvhead`. Ghost fields: `nextAddr`, the address of the
next upvalue to be allocated, and `closedLog`, the upvalues closed so far, in
the order of their closing. -/
structure State where
  CallStack : Stack
  CallInfos : Stack
  Global : String → Option Value
  uvhead : List UpValue
  Debug : Bool
  nextAddr : Nat
  closedLog : List UpValue

/-- The errors that `state.go` returns, one constructor per call site. -/
inductive RuntimeError where
  | functionNotLoaded
  | invalidFunction
  | tooFewArguments (name : String) (minArg nargs : Int)
  | tooManyArguments (name : String) (maxArg nargs : Int)
  | invalidNumberOfArguments
  | insufficientNumberOfArguments
  | procedureError (name : String) (msg : String)
  | hostError (msg : String)
  | minArgNegative
deriving DecidableEq, Repr

/-- The name of the procedure that the message of an arity error starts with. -/
def RuntimeError.procName : RuntimeError → Option String
  | .tooFewArguments name _ _ => some name
  | .tooManyArguments name _ _ => some name
  | _ => none

/-- What a call of a Go function of `state.go` comes to: a value and a nil error, a
non-nil error, or a panic. -/
inductive Run (α : Type) where
  | ret (val : α)
  | fail (err : RuntimeError)
  | crash

/-- What a host function returns: a value, a `*types.Error` with its message, or
another error. -/
inductive HostResult where
  | ok (retval : Value)
  | scmError (msg : String)
  | otherError (msg : String)

/-- The host functions: what the function named `fn` returns and the state it leaves
when called with a state and an argument slice (the Go type `GoFunc`). -/
abbrev Host := Nat → State → List Value → HostResult × State

/-- One call of a host function by `precall`: which function, with which
arguments. -/
abbrev HostCall := Nat × List Value

/-- The values `st.Get(start)`, `st.Get(start + 1)`, ..., `n` of them, as the loop
of `popArgs` reads them; `none` when one of the reads panics. -/
def Stack.getRange (st : Stack) (start : Int) : Nat → Option (List Value)
  | 0 => some []
  | n + 1 =>
    match st.Get start, st.getRange (start + 1) n with
    | some v, some vs => some (v :: vs)
    | _, _ => none

/-- The Go method `State.popArgs`; `none` is a panic (`make` with a negative length,
or a read outside the stack). -/
def State.popArgs (s : State) (nargs : Int) : Option (List Value × State) :=
  let topSp := s.CallStack.Sp
  if nargs < 0 then none
  else
    match s.CallStack.getRange (topSp - nargs + 0 + 1) nargs.toNat with
    | some args => some (args, { s with CallStack := s.CallStack.SetSp (topSp - nargs) })
    | none => none

/-- The Go method `State.checkArgNumber`; `none` is the nil error. -/
def checkArgNumber (name : String) (nargs minArg maxArg : Int) : Option RuntimeError :=
  if nargs < minArg then some (.tooFewArguments name minArg nargs)
  else if maxArg < 0 then none
  else if nargs > maxArg then some (.tooManyArguments name maxArg nargs)
  else none

/-- The Go method `State.postcall`; `none` is a panic. -/
def State.postcall (s : State) (resultSp : Int) : Option State :=
  match s.CallInfos.Pop with
  | some (.callInfo curCi, infos) =>
    match s.CallStack.Get resultSp with
    | some result =>
      match s.CallStack.Set curCi.FuncSp result with
      | some stack =>
        some { s with CallInfos := infos, CallStack := stack.SetSp curCi.FuncSp }
      | none => none
    | none => none
  | _ => none -- the type assertion `.(*types.CallInfo)`, or `Pop` itself

/-- The switch on `cl.Proto.Mode` in `precall`, for an interpreted closure `cl` called
with `nargs` arguments. -/
def State.bindArgs (s : State) (cl : Closure) (nargs : Int) : Run Unit × State :=
  match cl.Proto.Mode with
  | .FixedArgMode =>
    if nargs ≠ cl.Proto.Args.length then (.fail .invalidNumberOfArguments, s)
    else (.ret (), s)
  | .VArgMode =>
    match s.popArgs nargs with
    | none => (.crash, s)
    | some (args, s1) =>
      match s1.CallStack.Push (mkValueList args) with
      | none => (.crash, s1)
      | some stack => (.ret (), { s1 with CallStack := stack })
  | .RestArgMode =>
    if nargs < cl.Proto.Args.length then (.fail .insufficientNumberOfArguments, s)
    else
      let nrest := nargs - cl.Proto.Args.length + 1
      match s.popArgs nrest with
      | none => (.crash, s)
      | some (rest, s1) =>
        match s1.CallStack.Push (mkValueList rest) with
        | none => (.crash, s1)
        | some stack => (.ret (), { s1 with CallStack := stack })

/-- The Go method `State.precall`. Next to the result and the state it leaves, the
host calls that this `precall` made are returned (a ghost result). -/
def State.precall (host : Host) (s : State) (clIndex : Int) :
    Run CallInfo × State × List HostCall :=
  match s.CallStack.Get clIndex with
  | none => (.crash, s, [])
  | some (.closure cl) =>
    let nargs := s.CallStack.Sp - clIndex
    if cl.IsGo then
      let ci : CallInfo := ⟨cl, clIndex + 1, clIndex⟩
      match s.CallInfos.Push (.callInfo ci) with
      | none => (.crash, s, [])
      | some infos =>
        let s1 := { s with CallInfos := infos }
        match cl.Fn with
        | none => (.fail .invalidFunction, s1, [])
        | some fn =>
          match s1.popArgs nargs with
          | none => (.crash, s1, [])
          | some (args, s2) =>
            match checkArgNumber cl.FnName nargs cl.MinArg cl.MaxArg with
            | some err => (.fail err, s2, [])
            | none =>
              match host fn s2 args with
              | (.scmError msg, s3) => (.fail (.procedureError cl.FnName msg), s3, [(fn, args)])
              | (.otherError msg, s3) => (.fail (.hostError msg), s3, [(fn, args)])
              | (.ok retval, s3) =>
                match s3.CallStack.Push retval with
                | none => (.crash, s3, [(fn, args)])
                | some stack =>
                  let s4 := { s3 with CallStack := stack }
                  match s4.postcall s4.CallStack.Sp with
                  | none => (.crash, s4, [(fn, args)])
                  | some s5 => (.ret ci, s5, [(fn, args)])
    else
      match s.bindArgs cl nargs with
      | (.ret _, s1) =>
        let ci : CallInfo := ⟨cl, clIndex + 1, clIndex⟩
        match s1.CallInfos.Push (.callInfo ci) with
        | none => (.crash, s1, [])
        | some infos => (.ret ci, { s1 with CallInfos := infos }, [])
      | (.fail err, s1) => (.fail err, s1, [])
      | (.crash, s1) => (.crash, s1, [])
  | some _ => (.fail .functionNotLoaded, s, [])

/-- What the loop of `findUpValue` and the linking after it come to on the chain of
open upvalues: the entry with index `level` when the walk meets one (the chain
is then left as it is), else no entry and the chain with the new entry `uv`
linked in before the first entry with a greater index, or at the end. -/
def findUpValueLoop (level : Int) (uv : UpValue) :
    List UpValue → Option UpValue × List UpValue
  | [] => (none, [uv])
  | cur :: rest =>
    if cur.Index = level then (some cur, cur :: rest)
    else if cur.Index > level then (none, uv :: cur :: rest)
    else
      let (found, chain) := findUpValueLoop level uv rest
      (found, cur :: chain)

/-- The Go method `State.findUpValue`. A new entry is allocated, at the address
`nextAddr`, only when the walk does not return an old one. -/
def State.findUpValue (s : State) (level : Int) : UpValue × State :=
  match findUpValueLoop level ⟨s.nextAddr, level, false, .null⟩ s.uvhead with
  | (some cur, _) => (cur, s)
  | (none, chain) =>
    (⟨s.nextAddr, level, false, .null⟩,
      { s with uvhead := chain, nextAddr := s.nextAddr + 1 })

/-- The loop of `closeUpValues` from the entry `uv` on; `attached` says whether the
entries walked so far are still linked from `uvhead` (no cut yet). The result
is what stays linked from here on, and the entries closed, in order; `none`
is a panic in `Close`. -/
def closeUpValuesLoop (idx : Int) (stack : Stack) :
    List UpValue → Bool → Option (List UpValue × List UpValue)
  | [], _ => some ([], [])
  | uv :: rest, attached =>
    if uv.Index ≥ idx then
      match uv.Close stack, closeUpValuesLoop idx stack rest false with
      | some closedUv, some (_, closedRest) => some ([], closedUv :: closedRest)
      | _, _ => none
    else
      match closeUpValuesLoop idx stack rest attached with
      | some (kept, closedRest) => some (if attached then uv :: kept else [], closedRest)
      | none => none

/-- The Go method `State.closeUpValues`; `none` is a panic. -/
def State.closeUpValues (s : State) (idx : Int) : Option State :=
  match closeUpValuesLoop idx s.CallStack s.uvhead true with
  | some (kept, closed) => some { s with uvhead := kept, closedLog := s.closedLog ++ closed }
  | none => none

/-- The Go method `State.SetGlobal`. -/
def State.SetGlobal (s : State) (name : String) (obj : Value) : State :=
  { s with Global := fun k => if k = name then some obj else s.Global k }

/-- The Go method `State.GetGlobal`. -/
def State.GetGlobal (s : State) (name : String) : Option Value := s.Global name

/-- The Go method `State.RegisterFunc`. -/
def State.RegisterFunc (s : State) (name : String) (minArg maxArg : Int) (fn : Nat) :
    Except RuntimeError State :=
  if minArg < 0 then .error .minArgNegative
  else
    let maxArg := if maxArg < 0 then -1 else maxArg
    .ok (s.SetGlobal name (.closure (NewGoClosure name minArg maxArg fn)))

/-! ## The scanner (`scanner/scanner.go`)

`scanner/token.go` is not among the sources. -/

/-- Modelled from the spec: the token kinds of the missing `scanner/token.go`, by the
names that `scanner.go` (`INT`, `IDENT`, `EOF`, `LPAREN`, `RPAREN`) and
`TestScan` (`NUMBER`, `STRING`) use. -/
inductive Token where
  | EOF
  | IDENT
  | INT
  | LPAREN
  | RPAREN
  | NUMBER
  | STRING
deriving DecidableEq, Repr

/-- The Go struct `Scanner`; a byte is kept as the character with its code. -/
structure Scanner where
  src : List Char
  ch : Char
  forward : Nat
  offset : Nat
deriving DecidableEq, Repr

/-- The Go variable `eofCh`, the byte 255. -/
def eofCh : Char := Char.ofNat 255

/-- The Go method `Scanner.next`. -/
def Scanner.next (s : Scanner) : Scanner :=
  if s.forward < s.src.length then
    { s with offset := s.forward, ch := s.src.getD s.forward eofCh, forward := s.forward + 1 }
  else
    { s with offset := s.src.length, ch := eofCh }

/-- The Go method `Scanner.Init`. -/
def Scanner.Init (src : List Char) : Scanner :=
  Scanner.next ⟨src, ' ', 0, 0⟩

/-- The Go variable `specialInits`. -/
def specialInits : List Char :=
  ['!', '$', '%', '&', '*', '+', '-', '.', '/', ':', '<', '=', '>', '?', '@', '^', '_', '~']

/-- The Go variable `specialSubseqents`. -/
def specialSubseqents : List Char := ['+', '-', '.', '@']

/-- The Go function `isDigit`. -/
def isDigit (ch : Char) : Bool := decide ('0' ≤ ch) && decide (ch ≤ '9')

/-- The Go function `isInitial`. -/
def isInitial (ch : Char) : Bool :=
  (decide ('a' ≤ ch) && decide (ch ≤ 'z')) || specialInits.contains ch

/-- A loop `for p(s.ch) { s.next() }`, with a bound on the number of rounds: every
round but the last ones moves `forward` on, and at the end of the source `ch`
is `eofCh`, so `src.length + 1` rounds are enough when `p eofCh` is false. -/
def Scanner.nextWhile (p : Char → Bool) : Nat → Scanner → Scanner
  | 0, s => s
  | fuel + 1, s => if p s.ch then Scanner.nextWhile p fuel s.next else s

/-- The Go method `Scanner.skipSpaces`. -/
def Scanner.skipSpaces (s : Scanner) : Scanner :=
  Scanner.nextWhile (fun ch => ch == ' ' || ch == '\t' || ch == '\n' || ch == '\r')
    (s.src.length + 1) s

/-- The Go expression `string(s.src[off:s.offset])`. -/
def Scanner.slice (s : Scanner) (off : Nat) : String :=
  String.mk ((s.src.drop off).take (s.offset - off))

/-- The Go method `Scanner.scanNumber`. -/
def Scanner.scanNumber (s : Scanner) : (Token × String) × Scanner :=
  let s1 := Scanner.nextWhile (fun ch => decide ('0' ≤ ch) && decide (ch ≤ '9'))
    (s.src.length + 1) s
  ((.INT, s1.slice s.offset), s1)

/-- The Go method `Scanner.scanIdentifier`. -/
def Scanner.scanIdentifier (s : Scanner) : String × Scanner :=
  let s1 := Scanner.nextWhile
    (fun ch => isInitial ch || isDigit ch || specialSubseqents.contains ch)
    (s.src.length + 1) s
  (s1.slice s.offset, s1)

/-- The Go method `Scanner.Scan`; `none` is `log.Fatalf`, which ends the process. -/
def Scanner.Scan (s : Scanner) : Option (Token × String) × Scanner :=
  let s1 := s.skipSpaces
  let ch := s1.ch
  if isDigit ch then
    let (r, s2) := s1.scanNumber
    (some r, s2)
  else if isInitial ch then
    let (lit, s2) := s1.scanIdentifier
    (some (.IDENT, lit), s2)
  else
    let s2 := s1.next
    if ch = eofCh then (some (.EOF, ""), s2)
    else if ch = '(' then (some (.LPAREN, ""), s2)
    else if ch = ')' then (some (.RPAREN, ""), s2)
    else (none, s2)

/-- Successive calls of `Scan`, at most `n` of them, up to and with the first `EOF`;
the flag is false when `log.Fatalf` ended the process instead. -/
def scanAll : Nat → Scanner → List (Token × String) × Bool
  | 0, _ => ([], true)
  | n + 1, s =>
    match s.Scan with
    | (none, _) => ([], false)
    | (some (.EOF, lit), _) => ([(.EOF, lit)], true)
    | (some t, s1) =>
      let (ts, ok) := scanAll n s1
      (t :: ts, ok)

/-! ## Sample data for the interpreter and the scanner -/

/-- The form `(if 1 1 2)`. -/
def formIfNumbers : Object := mkList [.symbol "if", .number num1, .number num1, .number num2]

/-- The form `(if #f 1 2)` of `TestExecuteString`. -/
def formIfFalse : Object :=
  mkList [.symbol "if", .boolean false, .number num1, .number num2]

/-- An interpreted closure in Rest mode with `P` formal parameters. -/
def clRest (P : Nat) : Closure :=
  { NewScmClosure with Proto := .mk [] [] [] (List.replicate P "x") .RestArgMode }

/-- An interpreted closure in Vararg mode, with its one formal parameter. -/
def clVArg : Closure :=
  { NewScmClosure with Proto := .mk [] [] [] ["x"] .VArgMode }

/-- An interpreted closure in Fixed mode with two formal parameters. -/
def clFixed2 : Closure :=
  { NewScmClosure with Proto := .mk [] [] [] ["x", "y"] .FixedArgMode }

/-- The native closure of a procedure `f` with one or two arguments, whose host
function has the number 0. -/
def clNative : Closure := NewGoClosure "f" 1 2 0

/-- The state of a call about to be made: the closure in slot 0 of the value stack,
its arguments above it, two free slots above them, no frame on the call-info
stack of capacity 4. -/
def stateCall (cl : Closure) (args : List Value) : State :=
  ⟨⟨.closure cl :: (args ++ [.null, .null]), args.length⟩, NewStack 4, fun _ => none, [],
    false, 0, []⟩

/-- A host: every host function returns its first argument (nil without one) and
leaves the state as it is. -/
def hostFirst : Host := fun _ st args => (.ok (args.headD .null), st)

/-- The value of the number `1`. -/
def val1 : Value := .object (.number num1)

/-- The value of the number `2`. -/
def val2 : Value := .object (.number num2)

/-- A state in the middle of a call: the closure in slot 0, the values `1` and `2`
above it, and the frame of the call on the call-info stack. -/
def stateFrame : State :=
  ⟨⟨[.closure clFixed2, val1, val2, .null], 2⟩,
    ⟨[.callInfo ⟨clFixed2, 1, 0⟩, .null], 0⟩, fun _ => none, [], false, 0, []⟩

/-- A state with two open upvalues, for the slots 1 and 3 of a value stack of
capacity 4. -/
def stateUpValues : State :=
  ⟨⟨[.closure clFixed2, val1, val2, val1], 3⟩, NewStack 4, fun _ => none,
    [⟨0, 1, false, .null⟩, ⟨1, 3, false, .null⟩], false, 2, []⟩

/-- The source `(+ +1 -2 1.11 -1.11)` of `TestScan`. -/
def srcSignedNumbers : List Char := "(+ +1 -2 1.11 -1.11)".toList

/-- The source `"test"` of `TestScan`, a string literal. -/
def srcStringLiteral : List Char := "\"test\"".toList

/-! ## Lemmas on the fields -/

section fields

variable (fs : funcState)

@[simp] theorem newReg_fst : fs.newReg.1 = ⟨fs.nreg⟩ := by cases fs; rfl

@[simp] theorem newReg_nreg : fs.newReg.2.nreg = fs.nreg + 1 := by cases fs; rfl

@[simp] theorem newReg_handed : fs.newReg.2.handed = fs.handed ++ [fs.nreg] := by
  cases fs; rfl

@[simp] theorem newReg_Proto : fs.newReg.2.Proto = fs.Proto := by cases fs; rfl

@[simp] theorem newReg_locVars : fs.newReg.2.locVars = fs.locVars := by cases fs; rfl

@[simp] theorem newReg_prev : fs.newReg.2.prev = fs.prev := by cases fs; rfl

@[simp] theorem newReg_Insts : fs.newReg.2.Insts = fs.Insts := by cases fs; rfl

@[simp] theorem newReg_Consts : fs.newReg.2.Consts = fs.Consts := by cases fs; rfl

@[simp] theorem add_nreg (i : Inst) : (fs.add i).nreg = fs.nreg := by
  obtain ⟨⟨_, _, _, _, _⟩, _, _, _, _, _⟩ := fs; rfl

@[simp] theorem add_handed (i : Inst) : (fs.add i).handed = fs.handed := by
  obtain ⟨⟨_, _, _, _, _⟩, _, _, _, _, _⟩ := fs; rfl

@[simp] theorem add_locVars (i : Inst) : (fs.add i).locVars = fs.locVars := by
  obtain ⟨⟨_, _, _, _, _⟩, _, _, _, _, _⟩ := fs; rfl

@[simp] theorem add_prev (i : Inst) : (fs.add i).prev = fs.prev := by
  obtain ⟨⟨_, _, _, _, _⟩, _, _, _, _, _⟩ := fs; rfl

@[simp] theorem add_Insts (i : Inst) : (fs.add i).Insts = fs.Insts ++ [i] := by
  obtain ⟨⟨_, _, _, _, _⟩, _, _, _, _, _⟩ := fs; rfl

@[simp] theorem add_Consts (i : Inst) : (fs.add i).Consts = fs.Consts := by
  obtain ⟨⟨_, _, _, _, _⟩, _, _, _, _, _⟩ := fs; rfl

@[simp] theorem add_Protos (i : Inst) : (fs.add i).Proto.Protos = fs.Proto.Protos := by
  obtain ⟨⟨_, _, _, _, _⟩, _, _, _, _, _⟩ := fs; rfl

@[simp] theorem add_Args (i : Inst) : (fs.add i).Proto.Args = fs.Proto.Args := by
  obtain ⟨⟨_, _, _, _, _⟩, _, _, _, _, _⟩ := fs; rfl

@[simp] theorem add_Proto_Insts (i : Inst) : (fs.add i).Proto.Insts = fs.Insts ++ [i] := by
  obtain ⟨⟨_, _, _, _, _⟩, _, _, _, _, _⟩ := fs; rfl

@[simp] theorem appendProto_nreg (c : ClosureProto) : (fs.appendProto c).nreg = fs.nreg := by
  obtain ⟨⟨_, _, _, _, _⟩, _, _, _, _, _⟩ := fs; rfl

@[simp] theorem appendProto_handed (c : ClosureProto) :
    (fs.appendProto c).handed = fs.handed := by
  obtain ⟨⟨_, _, _, _, _⟩, _, _, _, _, _⟩ := fs; rfl

@[simp] theorem appendProto_locVars (c : ClosureProto) :
    (fs.appendProto c).locVars = fs.locVars := by
  obtain ⟨⟨_, _, _, _, _⟩, _, _, _, _, _⟩ := fs; rfl

@[simp] theorem appendProto_prev (c : ClosureProto) : (fs.appendProto c).prev = fs.prev := by
  obtain ⟨⟨_, _, _, _, _⟩, _, _, _, _, _⟩ := fs; rfl

@[simp] theorem appendProto_Insts (c : ClosureProto) : (fs.appendProto c).Insts = fs.Insts := by
  obtain ⟨⟨_, _, _, _, _⟩, _, _, _, _, _⟩ := fs; rfl

@[simp] theorem appendProto_Consts (c : ClosureProto) :
    (fs.appendProto c).Consts = fs.Consts := by
  obtain ⟨⟨_, _, _, _, _⟩, _, _, _, _, _⟩ := fs; rfl

@[simp] theorem appendProto_Protos (c : ClosureProto) :
    (fs.appendProto c).Proto.Protos = fs.Proto.Protos ++ [c] := by
  obtain ⟨⟨_, _, _, _, _⟩, _, _, _, _, _⟩ := fs; rfl

@[simp] theorem appendProto_Args (c : ClosureProto) :
    (fs.appendProto c).Proto.Args = fs.Proto.Args := by
  obtain ⟨⟨_, _, _, _, _⟩, _, _, _, _, _⟩ := fs; rfl

/-- What `constIndex` does to the pool, in terms of the search `findConst`. -/
theorem constIndex_Consts (v : Const) :
    (fs.constIndex v).2.Consts =
      match findConst v fs.Consts 0 with
      | some _ => fs.Consts
      | none => fs.Consts ++ [v] := by
  unfold funcState.constIndex
  cases h : findConst v fs.Consts 0 with
  | some i => rfl
  | none => obtain ⟨⟨_, _, _, _, _⟩, _, _, _, _, _⟩ := fs; rfl

/-- The index that `constIndex` returns, in terms of the search `findConst`. -/
theorem constIndex_fst (v : Const) :
    (fs.constIndex v).1 =
      match findConst v fs.Consts 0 with
      | some i => i
      | none => fs.Consts.length := by
  unfold funcState.constIndex
  cases h : findConst v fs.Consts 0 with
  | some i => rfl
  | none =>
    obtain ⟨⟨_, c, _, _, _⟩, _, _, _, _, _⟩ := fs
    simp [funcState.Consts, funcState.Proto, ClosureProto.Consts]

@[simp] theorem constIndex_nreg (v : Const) : (fs.constIndex v).2.nreg = fs.nreg := by
  unfold funcState.constIndex
  cases h : findConst v fs.Consts 0 with
  | some i => rfl
  | none => obtain ⟨⟨_, _, _, _, _⟩, _, _, _, _, _⟩ := fs; rfl

@[simp] theorem constIndex_handed (v : Const) : (fs.constIndex v).2.handed = fs.handed := by
  unfold funcState.constIndex
  cases h : findConst v fs.Consts 0 with
  | some i => rfl
  | none => obtain ⟨⟨_, _, _, _, _⟩, _, _, _, _, _⟩ := fs; rfl

@[simp] theorem constIndex_locVars (v : Const) :
    (fs.constIndex v).2.locVars = fs.locVars := by
  unfold funcState.constIndex
  cases h : findConst v fs.Consts 0 with
  | some i => rfl
  | none => obtain ⟨⟨_, _, _, _, _⟩, _, _, _, _, _⟩ := fs; rfl

@[simp] theorem constIndex_prev (v : Const) : (fs.constIndex v).2.prev = fs.prev := by
  unfold funcState.constIndex
  cases h : findConst v fs.Consts 0 with
  | some i => rfl
  | none => obtain ⟨⟨_, _, _, _, _⟩, _, _, _, _, _⟩ := fs; rfl

@[simp] theorem constIndex_Insts (v : Const) : (fs.constIndex v).2.Insts = fs.Insts := by
  unfold funcState.constIndex
  cases h : findConst v fs.Consts 0 with
  | some i => rfl
  | none => obtain ⟨⟨_, _, _, _, _⟩, _, _, _, _, _⟩ := fs; rfl

@[simp] theorem constIndex_Protos (v : Const) :
    (fs.constIndex v).2.Proto.Protos = fs.Proto.Protos := by
  unfold funcState.constIndex
  cases h : findConst v fs.Consts 0 with
  | some i => rfl
  | none => obtain ⟨⟨_, _, _, _, _⟩, _, _, _, _, _⟩ := fs; rfl

@[simp] theorem constIndex_Args (v : Const) :
    (fs.constIndex v).2.Proto.Args = fs.Proto.Args := by
  unfold funcState.constIndex
  cases h : findConst v fs.Consts 0 with
  | some i => rfl
  | none => obtain ⟨⟨_, _, _, _, _⟩, _, _, _, _, _⟩ := fs; rfl

end fields

/-! ## Growth -/

theorem Grows.refl (fs : funcState) : Grows fs fs :=
  ⟨⟨0, by simp⟩, ⟨[], by simp⟩, ⟨[], by simp⟩, ⟨[], by simp⟩, rfl, rfl, rfl⟩

theorem Grows.trans {a b c : funcState} (h1 : Grows a b) (h2 : Grows b c) : Grows a c := by
  obtain ⟨⟨k1, hn1, hh1⟩, ⟨i1, hi1⟩, ⟨c1, hc1⟩, ⟨p1, hp1⟩, ha1, hl1, hv1⟩ := h1
  obtain ⟨⟨k2, hn2, hh2⟩, ⟨i2, hi2⟩, ⟨c2, hc2⟩, ⟨p2, hp2⟩, ha2, hl2, hv2⟩ := h2
  refine ⟨⟨k1 + k2, by omega, ?_⟩, ⟨i1 ++ i2, by simp [hi2, hi1]⟩, ⟨c1 ++ c2, by simp [hc2, hc1]⟩,
    ⟨p1 ++ p2, by simp [hp2, hp1]⟩, ha2.trans ha1, hl2.trans hl1, hv2.trans hv1⟩
  rw [hh2, hh1, hn1, List.append_assoc, List.range'_append_1, Nat.add_comm k2 k1]

theorem grows_newReg (fs : funcState) : Grows fs fs.newReg.2 :=
  ⟨⟨1, by simp⟩, ⟨[], by simp⟩, ⟨[], by simp⟩, ⟨[], by simp⟩, by simp, by simp, by simp⟩

theorem grows_add (fs : funcState) (i : Inst) : Grows fs (fs.add i) :=
  ⟨⟨0, by simp⟩, ⟨[i], by simp⟩, ⟨[], by simp⟩, ⟨[], by simp⟩, by simp, by simp, by simp⟩

theorem grows_addABx (fs : funcState) (op : OpCode) (a bx : Nat) :
    Grows fs (fs.addABx op a bx) := grows_add fs _

theorem grows_addABC (fs : funcState) (op : OpCode) (a b c : Nat) :
    Grows fs (fs.addABC op a b c) := grows_add fs _

theorem grows_appendProto (fs : funcState) (c : ClosureProto) : Grows fs (fs.appendProto c) :=
  ⟨⟨0, by simp⟩, ⟨[], by simp⟩, ⟨[], by simp⟩, ⟨[c], by simp⟩, by simp, by simp, by simp⟩

theorem grows_constIndex (fs : funcState) (v : Const) : Grows fs (fs.constIndex v).2 := by
  refine ⟨⟨0, by simp⟩, ⟨[], by simp⟩, ?_, ⟨[], by simp⟩, by simp, by simp, by simp⟩
  rw [constIndex_Consts]
  cases findConst v fs.Consts 0 with
  | some i => exact ⟨[], by simp⟩
  | none => exact ⟨[v], rfl⟩

/-! ## Classification of variables -/

/-- When the symbol is not bound in `fs`, the loop of `getVarType` runs off the end
of the chain, whatever the enclosing states bind. -/
theorem getVarTypeLoop_of_not_bound (fs : funcState) (sym : String)
    (h : fs.findLocVar sym = none) :
    ∀ (cur : funcState) (atFs : Bool), getVarTypeLoop fs sym cur atFs = .varGlobal
  | .mk _ _ none _ _ _, _ => by simp [getVarTypeLoop, h]
  | .mk _ _ (some c) _ _ _, _ => by
    simp only [getVarTypeLoop, h]
    exact getVarTypeLoop_of_not_bound fs sym h c false

/-- What `getVarType` computes: a local when `fs` itself binds the symbol, a global
in every other case. -/
theorem getVarType_eq (fs : funcState) (sym : String) :
    fs.getVarType sym =
      match fs.findLocVar sym with
      | some _ => .varLocVar
      | none => .varGlobal := by
  cases h : fs.findLocVar sym with
  | none => exact getVarTypeLoop_of_not_bound fs sym h fs true
  | some loc =>
    unfold funcState.getVarType
    obtain ⟨_, _, pv, _, _, _⟩ := fs
    cases pv <;> simp [getVarTypeLoop, h]

/-! ## Numbers and symbols -/

theorem grows_compileNumber (fs : funcState) (num : Number) :
    Grows fs (compileNumber fs num).2 := by
  unfold compileNumber
  exact ((grows_newReg fs).trans (grows_constIndex _ _)).trans (grows_addABx _ _ _ _)

theorem grows_compileSymbol (fs : funcState) (sym : String) :
    Grows fs (compileSymbol fs sym).2 := by
  unfold compileSymbol
  rw [getVarType_eq]
  cases h : fs.findLocVar sym with
  | some loc => exact Grows.refl fs
  | none => exact ((grows_newReg fs).trans (grows_constIndex _ _)).trans (grows_addABx _ _ _ _)

/-- The function `compileSymbol` returns a register: never a nil `*reg`, an error
or a panic. -/
theorem compileSymbol_ret (fs : funcState) (sym : String) :
    ∃ r, (compileSymbol fs sym).1 = .ret (some r) := by
  unfold compileSymbol
  rw [getVarType_eq]
  cases h : fs.findLocVar sym with
  | some loc => exact ⟨_, rfl⟩
  | none => exact ⟨_, rfl⟩

/-! ## Growth through the recursive functions -/

theorem grows_compileObjects {co : CompileFn} (hco : GrowsFn co) :
    ∀ (objs : List Object) (fs : funcState), Grows fs (compileObjects co fs objs).2
  | [], fs => Grows.refl fs
  | obj :: rest, fs => by
    have h1 := hco fs obj
    unfold compileObjects
    rcases h : co fs obj with ⟨o, fs1⟩
    rw [h] at h1
    cases o with
    | ret r =>
      have h2 := grows_compileObjects hco rest fs1
      simp only
      rcases h' : compileObjects co fs1 rest with ⟨o2, fs2⟩
      rw [h'] at h2
      cases o2 <;> exact h1.trans h2
    | fail e => exact h1
    | crash => exact h1
    | outOfFuel => exact h1

theorem grows_compileArgs {co : CompileFn} (hco : GrowsFn co) (procR : Option reg) :
    ∀ (args : List Object) (fs : funcState) (i : Nat),
      Grows fs (compileArgs co procR fs args i).2
  | [], fs, _ => Grows.refl fs
  | arg :: rest, fs, i => by
    have h1 := hco fs arg
    unfold compileArgs
    rcases h : co fs arg with ⟨o, fs1⟩
    rw [h] at h1
    cases o with
    | ret r =>
      cases r with
      | none => exact h1
      | some r =>
        cases procR with
        | none => exact h1
        | some p =>
          simp only
          refine h1.trans (Grows.trans ?_ (grows_compileArgs hco (some p) rest _ (i + 1)))
          split
          · exact grows_addABC _ _ _ _ _
          · exact Grows.refl _
    | fail e => exact h1
    | crash => exact h1
    | outOfFuel => exact h1

/-- The function `compileDefine` on a form with a symbol target and a value:
what follows the value is never looked at. -/
theorem compileDefine_symbol (co : CompileFn) (fs : funcState) (car : Object)
    (name : String) (value more : Object) :
    compileDefine co fs car (.pair (.symbol name) (.pair value more)) =
      match co ((fs.newReg.2.constIndex (.string name)).2.addABx .OP_LOADK fs.nreg
          (fs.newReg.2.constIndex (.string name)).1) value with
      | (.ret (some valueR), fs4) =>
        (.ret (some valueR), fs4.addABx .OP_SETGLOBAL valueR.N fs.nreg)
      | (.ret none, fs4) => (.crash, fs4)
      | (.fail e, fs4) => (.fail e, fs4)
      | (.crash, fs4) => (.crash, fs4)
      | (.outOfFuel, fs4) => (.outOfFuel, fs4) := by
  simp [compileDefine, Cdar, Cddr, Cdr, Car]

/-- The function `compileDefine` on a form whose target is not a symbol. -/
theorem compileDefine_not_symbol (co : CompileFn) (fs : funcState) (car : Object)
    (target value more : Object) (h : ∀ name, target ≠ .symbol name) :
    compileDefine co fs car (.pair target (.pair value more)) =
      (.fail .defineTargetNotSymbol, fs) := by
  cases target <;> simp [compileDefine, Cdar, Cddr, Cdr, Car] at h ⊢

/-- The function `compileDefine` on a form with fewer than two operands. -/
theorem compileDefine_short (co : CompileFn) (fs : funcState) (car cdr : Object)
    (h : ∀ target value more, cdr ≠ .pair target (.pair value more)) :
    compileDefine co fs car cdr = (.fail .invalidDefine, fs) := by
  cases cdr with
  | pair t d =>
    cases d with
    | pair v m => exact absurd rfl (h t v m)
    | _ => simp [compileDefine, Cdar, Cddr, Cdr, Car]
  | _ => simp [compileDefine, Cdar, Cddr, Cdr, Car]

theorem grows_compileDefine {co : CompileFn} (hco : GrowsFn co) (fs : funcState)
    (car cdr : Object) : Grows fs (compileDefine co fs car cdr).2 := by
  by_cases hs : ∀ target value more, cdr ≠ .pair target (.pair value more)
  · rw [compileDefine_short co fs car cdr hs]
    exact Grows.refl fs
  · push_neg at hs
    obtain ⟨target, value, more, rfl⟩ := hs
    by_cases ht : ∀ name, target ≠ .symbol name
    · rw [compileDefine_not_symbol co fs car target value more ht]
      exact Grows.refl fs
    · push_neg at ht
      obtain ⟨name, rfl⟩ := ht
      rw [compileDefine_symbol]
      have h0 : Grows fs ((fs.newReg.2.constIndex (.string name)).2.addABx .OP_LOADK
          fs.nreg (fs.newReg.2.constIndex (.string name)).1) :=
        ((grows_newReg fs).trans (grows_constIndex _ _)).trans (grows_addABx _ _ _ _)
      have h1 := hco ((fs.newReg.2.constIndex (.string name)).2.addABx .OP_LOADK
          fs.nreg (fs.newReg.2.constIndex (.string name)).1) value
      rcases hc : co ((fs.newReg.2.constIndex (.string name)).2.addABx .OP_LOADK
          fs.nreg (fs.newReg.2.constIndex (.string name)).1) value with ⟨o, fs4⟩
      rw [hc] at h1
      cases o with
      | ret r =>
        cases r with
        | none => exact h0.trans h1
        | some r => exact (h0.trans h1).trans (grows_addABx _ _ _ _)
      | fail e => exact h0.trans h1
      | crash => exact h0.trans h1
      | outOfFuel => exact h0.trans h1

theorem grows_compileLambda (co : CompileFn) (fs : funcState) (car cdr : Object) :
    Grows fs (compileLambda co fs car cdr).2 := by
  unfold compileLambda
  split
  · exact Grows.refl fs
  · split
    · exact Grows.refl fs
    · split
      · exact Grows.refl fs
      · split
        · exact Grows.refl fs
        · split
          · exact Grows.refl fs
          · simp only
            split
            · exact ((grows_appendProto fs _).trans (grows_newReg _)).trans (grows_addABx _ _ _ _)
            all_goals exact Grows.refl fs

theorem grows_compileBegin {co : CompileFn} (hco : GrowsFn co) (fs : funcState)
    (car cdr : Object) : Grows fs (compileBegin co fs car cdr).2 := by
  unfold compileBegin
  split
  · exact Grows.refl fs
  · split
    · split
      · exact Grows.refl fs
      · rename_i exprs _
        have h1 := grows_compileObjects hco exprs fs
        split
        · rename_i heq
          rw [heq] at h1
          split <;> exact h1
        all_goals
          rename_i heq
          rw [heq] at h1
          exact h1
    · exact Grows.refl fs

theorem grows_compileCall {co : CompileFn} (hco : GrowsFn co) (fs : funcState)
    (proc args : Object) : Grows fs (compileCall co fs proc args).2 := by
  have h1 := hco fs proc
  unfold compileCall
  split
  · rename_i procR fs1 heq
    rw [heq] at h1
    split
    · exact h1
    · rename_i argsArr _
      have h2 := grows_compileArgs hco procR argsArr fs1 0
      split
      · rename_i heq2
        rw [heq2] at h2
        split
        · exact (h1.trans h2).trans (grows_addABC _ _ _ _ _)
        · exact h1.trans h2
      all_goals
        rename_i heq2
        rw [heq2] at h2
        exact h1.trans h2
  all_goals
    rename_i heq
    rw [heq] at h1
    exact h1

theorem grows_compilePair {co : CompileFn} (hco : GrowsFn co) (fs : funcState)
    (car cdr : Object) : Grows fs (compilePair co fs car cdr).2 := by
  unfold compilePair
  split
  · exact Grows.refl fs
  · split
    · exact Grows.refl fs
    · split
      · split
        · exact grows_compileDefine hco fs _ _
        · split
          · exact grows_compileLambda co fs _ _
          · split
            · exact grows_compileBegin hco fs _ _
            · exact grows_compileCall hco fs _ _
      · exact grows_compileCall hco fs _ _
      · exact Grows.refl fs

theorem growsFn_compileObjectFuel : ∀ fuel : Nat, GrowsFn (compileObjectFuel fuel)
  | 0 => fun fs _ => Grows.refl fs
  | fuel + 1 => fun fs obj => by
    cases obj with
    | number n => exact grows_compileNumber fs n
    | symbol name => exact grows_compileSymbol fs name
    | pair a d => exact grows_compilePair (growsFn_compileObjectFuel fuel) fs a d
    | string s => exact Grows.refl fs
    | nil => exact Grows.refl fs
    | boolean b => exact Grows.refl fs
    | undefined => exact Grows.refl fs

theorem growsFn_compileObject : GrowsFn compileObject :=
  fun fs obj => growsFn_compileObjectFuel obj.size fs obj

/-! ## The constant pool -/

theorem Number.eq_comm (a b : Number) : a.eq b = b.eq a := by
  simp only [Number.eq]
  rw [Bool.and_comm (!a.isNaN) (!b.isNaN), Bool.and_comm a.isZero b.isZero]
  congr 2
  exact Bool.eq_iff_iff.mpr (by simp only [beq_iff_eq]; exact ⟨Eq.symm, Eq.symm⟩)

theorem Number.eq_trans {a b c : Number} (h1 : a.eq b = true) (h2 : b.eq c = true) :
    a.eq c = true := by
  simp only [Number.eq, Number.isZero, Bool.and_eq_true, Bool.not_eq_true',
    Bool.or_eq_true, beq_iff_eq] at h1 h2 ⊢
  refine ⟨⟨h1.1.1, h2.1.2⟩, ?_⟩
  rcases h1.2 with e1 | ⟨z1, z1'⟩ <;> rcases h2.2 with e2 | ⟨z2, z2'⟩
  · exact Or.inl (e1.trans e2)
  · right
    refine ⟨?_, z2'⟩
    norm_num at e1 z2 ⊢
    omega
  · right
    refine ⟨z1, ?_⟩
    norm_num at e2 z1' ⊢
    omega
  · exact Or.inr ⟨z1, z2'⟩

theorem Const.goEq_comm (a b : Const) : a.goEq b = b.goEq a := by
  cases a <;> cases b <;> simp [Const.goEq, Number.eq_comm, eq_comm]

theorem Const.goEq_trans {a b c : Const} (h1 : a.goEq b = true) (h2 : b.goEq c = true) :
    a.goEq c = true := by
  cases a <;> cases b <;> cases c <;> simp [Const.goEq] at h1 h2 ⊢
  · exact Number.eq_trans h1 h2
  · exact h1.trans h2

/-- A string constant is `==` to itself and to nothing else. -/
theorem Const.goEq_string (c : Const) (s : String) :
    c.goEq (.string s) = true ↔ c = .string s := by
  cases c <;> simp [Const.goEq]

theorem findConst_eq_none (v : Const) :
    ∀ (cs : List Const) (i : Nat), findConst v cs i = none ↔ ∀ c ∈ cs, c.goEq v = false
  | [], i => by simp [findConst]
  | c :: cs, i => by
    unfold findConst
    cases h : c.goEq v <;> simp [h, findConst_eq_none v cs (i + 1)]

/-- The search returns the first index whose entry is `==` to `v`. -/
theorem findConst_eq_some (v : Const) :
    ∀ (cs : List Const) (i j : Nat), findConst v cs i = some j →
      i ≤ j ∧ (∃ c, cs[j - i]? = some c ∧ c.goEq v = true) ∧
        ∀ c ∈ cs.take (j - i), c.goEq v = false
  | [], i, j, h => by simp [findConst] at h
  | c :: cs, i, j, h => by
    unfold findConst at h
    cases hc : c.goEq v with
    | true =>
      simp only [hc, if_true, Option.some.injEq] at h
      subst h
      simp [hc]
    | false =>
      simp only [hc, Bool.false_eq_true, if_false] at h
      obtain ⟨h1, ⟨c', h2, h3⟩, h4⟩ := findConst_eq_some v cs (i + 1) j h
      have e : j - i = (j - (i + 1)) + 1 := by omega
      refine ⟨by omega, ⟨c', ?_, h3⟩, ?_⟩
      · rw [e, List.getElem?_cons_succ]
        exact h2
      · rw [e, List.take_succ_cons]
        intro x hx
        rcases List.mem_cons.mp hx with rfl | hx
        · exact hc
        · exact h4 x hx

theorem findConst_append (v : Const) :
    ∀ (cs ds : List Const) (i : Nat), findConst v (cs ++ ds) i =
      match findConst v cs i with
      | some j => some j
      | none => findConst v ds (i + cs.length)
  | [], ds, i => by simp [findConst]
  | c :: cs, ds, i => by
    simp only [List.cons_append, findConst]
    cases hc : c.goEq v with
    | true => simp
    | false =>
      have e : i + 1 + cs.length = i + (cs.length + 1) := by omega
      simp only [Bool.false_eq_true, if_false, List.length_cons]
      rw [← e]
      exact findConst_append v cs ds (i + 1)

/-- The index that `constIndex` returns for a string names an entry that is this
string. -/
theorem constIndex_string (fs : funcState) (s : String) :
    (fs.constIndex (.string s)).2.Consts[(fs.constIndex (.string s)).1]? =
      some (.string s) := by
  rw [constIndex_Consts, constIndex_fst]
  cases h : findConst (.string s) fs.Consts 0 with
  | some j =>
    obtain ⟨_, ⟨c, h2, h3⟩, _⟩ := findConst_eq_some _ _ _ _ h
    rw [(Const.goEq_string c s).mp h3] at h2
    simpa using h2
  | none => simp

/-- A state is left as it is by `constIndex` when the search finds an entry. -/
theorem constIndex_found (fs : funcState) (v : Const) (j : Nat)
    (h : findConst v fs.Consts 0 = some j) : fs.constIndex v = (j, fs) := by
  unfold funcState.constIndex
  rw [h]

/-- C5 (as amended): for every function state whose constant pool holds no two
entries that are `==`, and every constant `v` that is `==` to itself (every
string and every number but a NaN), `constIndex(v)` returns an index `i` with
`Consts[i] == v`; if `v` was in the pool the state is unchanged, otherwise `v`
is appended at the end; the pool still holds no two `==` entries; a second
`constIndex(v)` returns the same index and changes nothing. -/
theorem constIndex_spec (fs : funcState) (v : Const) (hv : v.goEq v = true) :
    constIndexClaim fs v := by
  intro hnd
  cases h : findConst v fs.Consts 0 with
  | some j =>
    obtain ⟨_, ⟨c, h2, h3⟩, _⟩ := findConst_eq_some _ _ _ _ h
    have e := constIndex_found fs v j h
    have e1 : (fs.constIndex v).1 = j := by rw [e]
    have e2 : (fs.constIndex v).2 = fs := by rw [e]
    refine ⟨⟨c, ?_, h3⟩, fun _ => e2, ?_, ?_, ?_, ?_⟩
    · rw [e1, e2]
      simpa using h2
    · intro hall
      have := (findConst_eq_none v fs.Consts 0).mpr hall
      rw [h] at this
      cases this
    · rw [e2]
      exact hnd
    · rw [e2]
    · rw [e2]
      exact e2
  | none =>
    have hall := (findConst_eq_none v fs.Consts 0).mp h
    have hC : (fs.constIndex v).2.Consts = fs.Consts ++ [v] := by
      rw [constIndex_Consts, h]
    have hI : (fs.constIndex v).1 = fs.Consts.length := by
      rw [constIndex_fst, h]
    have h2 : findConst v (fs.constIndex v).2.Consts 0 = some fs.Consts.length := by
      rw [hC, findConst_append, h]
      simp [findConst, hv]
    have e2 := constIndex_found _ v _ h2
    refine ⟨⟨v, ?_, hv⟩, ?_, fun _ => ⟨hC, hI⟩, ?_, ?_, ?_⟩
    · rw [hC, hI]
      simp
    · rintro ⟨c, hc, hcv⟩
      rw [hall c hc] at hcv
      cases hcv
    · rw [hC]
      unfold noEqualEntries
      rw [List.pairwise_append]
      refine ⟨hnd, List.pairwise_singleton _ _, ?_⟩
      intro a ha b hb
      rw [List.mem_singleton.mp hb]
      exact hall a ha
    · rw [e2, hI]
    · rw [e2]

/-- Witness for C5 (as amended): the number `1` interned in the pool that holds the
string `+`. -/
theorem constIndex_spec_witness :
    (Const.number num1).goEq (.number num1) = true ∧
      constIndexClaim ((newFuncState none).constIndex (.string "+")).2 (.number num1) :=
  ⟨by decide, constIndex_spec _ _ (by decide)⟩

/-- C5 (counterexample): in the empty pool, which holds no two equal entries, a NaN
is interned at index 0 by a first `constIndex` and again, at index 1, by a
second one: the second call neither returns the same index nor leaves the pool
as it is. -/
theorem constIndex_nan_counterexample :
    ¬ constIndexClaim (newFuncState none) (.number numNaN) := by
  intro h
  have h5 := (h List.Pairwise.nil).2.2.2.2.1
  revert h5
  decide

/-! ## Variables -/

/-- C3 (the code at the failing input, and in general): `getVarType` looks the
symbol up in the table of `fs` at every step of its walk along the chain, so
it never answers "upvalue". In the body of the inner lambda of
`(lambda (a) (lambda (b) ...))` the symbol `a`, which is not bound there and is
bound in the enclosing function, is classified as a global. -/
theorem getVarType_enclosing_is_global :
    (∀ (fs : funcState) (sym : String), fs.getVarType sym ≠ .varUpValue) ∧
    fsLambdaAB.findLocVar "a" = none ∧
    (∃ outer, fsLambdaAB.prev = some outer ∧ outer.findLocVar "a" = some ⟨"a", 0⟩) ∧
    fsLambdaAB.getVarType "a" = .varGlobal := by
  refine ⟨?_, by decide, ⟨fsLambdaA, rfl, by decide⟩, by decide⟩
  intro fs sym
  rw [getVarType_eq]
  cases fs.findLocVar sym <;> simp

/-- C4: when the symbol is bound as a local of `fs`, `compileSymbol` returns that
local's register and leaves `fs` as it is (no instruction, no register);
otherwise it hands out exactly one register, the next one, and appends exactly
one get-global instruction into it, whose wide operand is the index at which
the pool holds the symbol's name. In both cases a register is returned. -/
theorem compileSymbol_spec (fs : funcState) (sym : String) :
    (∀ loc, fs.findLocVar sym = some loc →
      compileSymbol fs sym = (.ret (some ⟨loc.Index⟩), fs)) ∧
    (fs.findLocVar sym = none →
      ∃ k, (compileSymbol fs sym).1 = .ret (some ⟨fs.nreg⟩) ∧
        (compileSymbol fs sym).2.nreg = fs.nreg + 1 ∧
        (compileSymbol fs sym).2.handed = fs.handed ++ [fs.nreg] ∧
        (compileSymbol fs sym).2.Insts = fs.Insts ++ [.ABx .OP_GETGLOBAL fs.nreg k] ∧
        k = (fs.newReg.2.constIndex (.string sym)).1 ∧
        (compileSymbol fs sym).2.Consts[k]? = some (.string sym)) ∧
    (∃ r, (compileSymbol fs sym).1 = .ret (some r)) := by
  refine ⟨?_, ?_, compileSymbol_ret fs sym⟩
  · intro loc h
    unfold compileSymbol
    rw [getVarType_eq, h]
  · intro h
    refine ⟨(fs.newReg.2.constIndex (.string sym)).1, ?_⟩
    unfold compileSymbol
    rw [getVarType_eq, h]
    simp only [funcState.addABx, CreateABx, newReg_fst, add_nreg, constIndex_nreg, newReg_nreg,
      add_handed, constIndex_handed, newReg_handed, add_Insts, constIndex_Insts, newReg_Insts,
      add_Consts, true_and]
    exact constIndex_string _ _

/-- Witness for C4: the local `a` and the global `+` in the body of
`(lambda (a) ...)`. -/
theorem compileSymbol_spec_witness :
    compileSymbol fsLambdaA "a" = (.ret (some ⟨0⟩), fsLambdaA) ∧
    (∃ k, (compileSymbol fsLambdaA "+").1 = .ret (some ⟨fsLambdaA.nreg⟩) ∧
        (compileSymbol fsLambdaA "+").2.nreg = fsLambdaA.nreg + 1 ∧
        (compileSymbol fsLambdaA "+").2.handed = fsLambdaA.handed ++ [fsLambdaA.nreg] ∧
        (compileSymbol fsLambdaA "+").2.Insts =
          fsLambdaA.Insts ++ [.ABx .OP_GETGLOBAL fsLambdaA.nreg k] ∧
        k = (fsLambdaA.newReg.2.constIndex (.string "+")).1 ∧
        (compileSymbol fsLambdaA "+").2.Consts[k]? = some (.string "+")) :=
  ⟨(compileSymbol_spec fsLambdaA "a").1 ⟨"a", 0⟩ (by decide),
    (compileSymbol_spec fsLambdaA "+").2.1 (by decide)⟩

/-! ## Registers -/

section bindLocVar

variable (fs : funcState) (sym : String)

@[simp] theorem bindLocVar_nreg : (fs.bindLocVar sym).nreg = fs.nreg + 1 := by
  cases fs; rfl

@[simp] theorem bindLocVar_handed : (fs.bindLocVar sym).handed = fs.handed ++ [fs.nreg] := by
  cases fs; rfl

theorem bindLocVar_findLocVar :
    (fs.bindLocVar sym).findLocVar sym = some ⟨sym, fs.nreg⟩ := by
  cases fs; simp [funcState.bindLocVar, funcState.findLocVar, funcState.locVars, funcState.nreg]

end bindLocVar

theorem CompileOp.run_regs (op : CompileOp) (fs : funcState) :
    ∃ k, (op.run fs).nreg = fs.nreg + k ∧
      (op.run fs).handed = fs.handed ++ List.range' fs.nreg k := by
  cases op with
  | newReg => exact ⟨1, by simp [CompileOp.run]⟩
  | bindLocVar sym => exact ⟨1, by simp [CompileOp.run]⟩
  | compileNumber num => exact (grows_compileNumber fs num).regs
  | compileSymbol sym => exact (grows_compileSymbol fs sym).regs
  | compileObject obj => exact (growsFn_compileObject fs obj).regs
  | compileObjects objs => exact (grows_compileObjects growsFn_compileObject objs fs).regs
  | compilePair car cdr => exact (grows_compilePair growsFn_compileObject fs car cdr).regs
  | compileDefine car cdr => exact (grows_compileDefine growsFn_compileObject fs car cdr).regs
  | compileLambda car cdr => exact (grows_compileLambda Tama.compileObject fs car cdr).regs
  | compileBegin car cdr => exact (grows_compileBegin growsFn_compileObject fs car cdr).regs
  | compileCall proc args => exact (grows_compileCall growsFn_compileObject fs proc args).regs

theorem runOps_regs : ∀ (ops : List CompileOp) (fs : funcState),
    ∃ k, (runOps ops fs).nreg = fs.nreg + k ∧
      (runOps ops fs).handed = fs.handed ++ List.range' fs.nreg k
  | [], fs => ⟨0, by simp [runOps]⟩
  | op :: ops, fs => by
    obtain ⟨k1, hn1, hh1⟩ := op.run_regs fs
    obtain ⟨k2, hn2, hh2⟩ := runOps_regs ops (op.run fs)
    refine ⟨k1 + k2, ?_, ?_⟩
    · simp only [runOps, List.foldl_cons] at hn2 ⊢
      omega
    · simp only [runOps, List.foldl_cons] at hh2 ⊢
      rw [hh2, hh1, hn1, List.append_assoc, List.range'_append_1, Nat.add_comm k2 k1]

/-- C6: `newReg` hands out the register equal to the counter and advances the
counter by one, and so does `bindLocVar`; over any sequence of compile
operations on a function state (`newReg`, `bindLocVar`, `compileObject` and
every compile function it calls) the counter never decreases, and the registers handed out meanwhile are, in the
order of their handing out, the consecutive numbers from the old counter up
to the new one: strictly increasing and pairwise distinct. From a new
function state on, all registers ever handed out are `0, 1, ..., nreg - 1`. -/
theorem registers_strictly_increasing :
    (∀ fs : funcState, fs.newReg.1.N = fs.nreg ∧ fs.newReg.2.nreg = fs.nreg + 1 ∧
      fs.newReg.2.handed = fs.handed ++ [fs.nreg]) ∧
    (∀ (fs : funcState) (sym : String),
      (fs.bindLocVar sym).findLocVar sym = some ⟨sym, fs.nreg⟩ ∧
      (fs.bindLocVar sym).nreg = fs.nreg + 1 ∧
      (fs.bindLocVar sym).handed = fs.handed ++ [fs.nreg]) ∧
    (∀ (ops : List CompileOp) (fs : funcState),
      fs.nreg ≤ (runOps ops fs).nreg ∧
      ∃ new, (runOps ops fs).handed = fs.handed ++ new ∧
        new = List.range' fs.nreg ((runOps ops fs).nreg - fs.nreg) ∧
        new.Pairwise (· < ·) ∧ new.Nodup) ∧
    (∀ (ops : List CompileOp) (prev : Option funcState),
      (runOps ops (newFuncState prev)).handed =
        List.range (runOps ops (newFuncState prev)).nreg) := by
  refine ⟨fun fs => ⟨by simp, by simp, by simp⟩,
    fun fs sym => ⟨bindLocVar_findLocVar fs sym, by simp, by simp⟩, ?_, ?_⟩
  · intro ops fs
    obtain ⟨k, hn, hh⟩ := runOps_regs ops fs
    refine ⟨by omega, List.range' fs.nreg k, hh, ?_, List.pairwise_lt_range' _ _,
      List.nodup_range' _ _⟩
    congr 1
    omega
  · intro ops prev
    obtain ⟨k, hn, hh⟩ := runOps_regs ops (newFuncState prev)
    rw [hh, hn, List.range_eq_range']
    simp [newFuncState, funcState.nreg, funcState.handed]

/-! ## The recursion of `compileObject`

The functions that take the recursive call as the parameter `co` apply it to
strictly smaller objects only, so `compileObject` satisfies the recursive
equations of the Go source. -/

theorem Object.size_pos (o : Object) : 0 < o.size := by
  cases o <;> simp [Object.size]

theorem Slice_size : ∀ (d : Object) (xs : List Object), Slice d = .ok xs →
    ∀ x ∈ xs, x.size < d.size
  | .nil, xs, h => by
    simp only [Slice, Except.ok.injEq] at h
    subst h
    simp
  | .pair a d, xs, h => by
    simp only [Slice] at h
    cases h' : Slice d with
    | error e => simp [h'] at h
    | ok ys =>
      simp only [h', Except.ok.injEq] at h
      subst h
      intro x hx
      rcases List.mem_cons.mp hx with rfl | hx
      · simp only [Object.size]
        omega
      · have := Slice_size d ys h' x hx
        simp only [Object.size]
        omega
  | .number _, xs, h => by simp [Slice] at h
  | .string _, xs, h => by simp [Slice] at h
  | .symbol _, xs, h => by simp [Slice] at h
  | .boolean _, xs, h => by simp [Slice] at h
  | .undefined, xs, h => by simp [Slice] at h

theorem compileObjects_congr {n : Nat} {co1 co2 : CompileFn} (h : AgreeBelow n co1 co2) :
    ∀ (objs : List Object) (fs : funcState), (∀ o ∈ objs, o.size < n) →
      compileObjects co1 fs objs = compileObjects co2 fs objs
  | [], fs, _ => rfl
  | obj :: rest, fs, hs => by
    unfold compileObjects
    rw [h fs obj (hs obj (List.mem_cons_self _ _))]
    rcases co2 fs obj with ⟨o, fs1⟩
    cases o with
    | ret r =>
      simp only
      rw [compileObjects_congr h rest fs1 (fun o ho => hs o (List.mem_cons_of_mem _ ho))]
    | fail e => rfl
    | crash => rfl
    | outOfFuel => rfl

theorem compileArgs_congr {n : Nat} {co1 co2 : CompileFn} (h : AgreeBelow n co1 co2)
    (procR : Option reg) :
    ∀ (args : List Object) (fs : funcState) (i : Nat), (∀ o ∈ args, o.size < n) →
      compileArgs co1 procR fs args i = compileArgs co2 procR fs args i
  | [], fs, i, _ => rfl
  | arg :: rest, fs, i, hs => by
    unfold compileArgs
    rw [h fs arg (hs arg (List.mem_cons_self _ _))]
    rcases co2 fs arg with ⟨o, fs1⟩
    cases o with
    | ret r =>
      cases r with
      | none => rfl
      | some r =>
        cases procR with
        | none => rfl
        | some p =>
          simp only
          rw [compileArgs_congr h (some p) rest _ (i + 1)
            (fun o ho => hs o (List.mem_cons_of_mem _ ho))]
    | fail e => rfl
    | crash => rfl
    | outOfFuel => rfl

theorem compileDefine_congr {co1 co2 : CompileFn} (car cdr : Object)
    (h : AgreeBelow (Object.pair car cdr).size co1 co2) (fs : funcState) :
    compileDefine co1 fs car cdr = compileDefine co2 fs car cdr := by
  by_cases hs : ∀ target value more, cdr ≠ .pair target (.pair value more)
  · rw [compileDefine_short co1 fs car cdr hs, compileDefine_short co2 fs car cdr hs]
  · push_neg at hs
    obtain ⟨target, value, more, rfl⟩ := hs
    by_cases ht : ∀ name, target ≠ .symbol name
    · rw [compileDefine_not_symbol co1 fs car target value more ht,
        compileDefine_not_symbol co2 fs car target value more ht]
    · push_neg at ht
      obtain ⟨name, rfl⟩ := ht
      rw [compileDefine_symbol, compileDefine_symbol, h]
      simp only [Object.size]
      omega

theorem compileLambda_congr {co1 co2 : CompileFn} (car cdr : Object)
    (h : AgreeBelow (Object.pair car cdr).size co1 co2) (fs : funcState) :
    compileLambda co1 fs car cdr = compileLambda co2 fs car cdr := by
  cases cdr with
  | pair params d =>
    cases d with
    | pair body more =>
      have hb : ∀ child, co1 child body = co2 child body := fun child =>
        h child body (by simp only [Object.size]; omega)
      simp only [compileLambda, Cddr, Cdr, Car, hb]
    | _ => simp [compileLambda, Len]
  | _ => simp [compileLambda, Len]

theorem compileBegin_congr {co1 co2 : CompileFn} (car cdr : Object)
    (h : AgreeBelow (Object.pair car cdr).size co1 co2) (fs : funcState) :
    compileBegin co1 fs car cdr = compileBegin co2 fs car cdr := by
  unfold compileBegin
  cases hS : Slice cdr with
  | error e => simp only
  | ok exprs =>
    have hc := compileObjects_congr h exprs fs (fun o ho => by
      have := Slice_size cdr exprs hS o ho
      simp only [Object.size]
      omega)
    simp only [hc]

theorem compileCall_congr {co1 co2 : CompileFn} (car cdr : Object)
    (h : AgreeBelow (Object.pair car cdr).size co1 co2) (fs : funcState) :
    compileCall co1 fs car cdr = compileCall co2 fs car cdr := by
  unfold compileCall
  rw [h fs car (by simp only [Object.size]; omega)]
  cases hS : Slice cdr with
  | error e => simp only
  | ok argsArr =>
    have hc : ∀ procR fs1, compileArgs co1 procR fs1 argsArr 0 =
        compileArgs co2 procR fs1 argsArr 0 := fun procR fs1 =>
      compileArgs_congr h procR argsArr fs1 0 (fun o ho => by
        have := Slice_size cdr argsArr hS o ho
        simp only [Object.size]
        omega)
    simp only [hc]

theorem compilePair_congr {co1 co2 : CompileFn} (car cdr : Object)
    (h : AgreeBelow (Object.pair car cdr).size co1 co2) (fs : funcState) :
    compilePair co1 fs car cdr = compilePair co2 fs car cdr := by
  unfold compilePair
  rw [compileDefine_congr car cdr h, compileLambda_congr car cdr h,
    compileBegin_congr car cdr h, compileCall_congr car cdr h]

/-- Fuel beyond the size of the object changes nothing. -/
theorem compileObjectFuel_irrelevant : ∀ (n m : Nat) (fs : funcState) (obj : Object),
    obj.size ≤ n → obj.size ≤ m → compileObjectFuel n fs obj = compileObjectFuel m fs obj
  | 0, _, _, obj, hn, _ => absurd hn (by have := obj.size_pos; omega)
  | _ + 1, 0, _, obj, _, hm => absurd hm (by have := obj.size_pos; omega)
  | n + 1, m + 1, fs, obj, hn, hm => by
    cases obj with
    | pair a d =>
      simp only [compileObjectFuel]
      apply compilePair_congr
      intro fs' o ho
      exact compileObjectFuel_irrelevant n m fs' o (by omega) (by omega)
    | _ => rfl

/-- The recursive equation of `compileObject` at a pair: the case `*types.Pair` of
the Go type switch. -/
theorem compileObject_pair (fs : funcState) (a d : Object) :
    compileObject fs (.pair a d) = compilePair compileObject fs a d := by
  show compileObjectFuel (a.size + d.size + 1) fs (.pair a d) = _
  simp only [compileObjectFuel]
  apply compilePair_congr
  intro fs' o ho
  exact compileObjectFuel_irrelevant _ _ fs' o (by simp only [Object.size] at ho; omega)
    (Nat.le_refl _)

/-- The case `types.Number` of the Go type switch. -/
theorem compileObject_number (fs : funcState) (num : Number) :
    compileObject fs (.number num) =
      (.ret (some (compileNumber fs num).1), (compileNumber fs num).2) := rfl

/-- The case `*types.Symbol` of the Go type switch. -/
theorem compileObject_symbol (fs : funcState) (name : String) :
    compileObject fs (.symbol name) = compileSymbol fs name := rfl

/-! ## `compileObject` always comes to an end, and never with a nil register -/

theorem proper_compileObjects {co : CompileFn} (hco : ProperFn co) :
    ∀ (objs : List Object) (fs : funcState),
      (compileObjects co fs objs).1 ≠ .outOfFuel ∧
        ∀ regs, (compileObjects co fs objs).1 = .ret regs → ∀ r ∈ regs, r ≠ none
  | [], fs => by simp [compileObjects]
  | obj :: rest, fs => by
    have h1 := hco fs obj
    unfold compileObjects
    rcases h : co fs obj with ⟨o, fs1⟩
    rw [h] at h1
    cases o with
    | ret r =>
      have h2 := proper_compileObjects hco rest fs1
      simp only
      rcases h' : compileObjects co fs1 rest with ⟨o2, fs2⟩
      rw [h'] at h2
      cases o2 with
      | ret rs =>
        refine ⟨by simp, ?_⟩
        intro regs hregs r' hr'
        simp only [Outcome.ret.injEq] at hregs
        subst hregs
        rcases List.mem_cons.mp hr' with rfl | hr'
        · intro hn
          exact h1.2 (by rw [hn])
        · exact h2.2 rs rfl r' hr'
      | fail e => simp
      | crash => simp
      | outOfFuel => exact absurd rfl h2.1
    | fail e => simp
    | crash => simp
    | outOfFuel => exact absurd rfl h1.1

theorem proper_compileArgs {co : CompileFn} (hco : ProperFn co) (procR : Option reg) :
    ∀ (args : List Object) (fs : funcState) (i : Nat),
      (compileArgs co procR fs args i).1 ≠ .outOfFuel
  | [], fs, _ => by simp [compileArgs]
  | arg :: rest, fs, i => by
    have h1 := hco fs arg
    unfold compileArgs
    rcases h : co fs arg with ⟨o, fs1⟩
    rw [h] at h1
    cases o with
    | ret r =>
      cases r with
      | none => simp
      | some r =>
        cases procR with
        | none => simp
        | some p => exact proper_compileArgs hco (some p) rest _ (i + 1)
    | fail e => simp
    | crash => simp
    | outOfFuel => exact absurd rfl h1.1

theorem proper_compileDefine {co : CompileFn} (hco : ProperFn co) (fs : funcState)
    (car cdr : Object) : (compileDefine co fs car cdr).1.Proper := by
  by_cases hs : ∀ target value more, cdr ≠ .pair target (.pair value more)
  · rw [compileDefine_short co fs car cdr hs]
    simp [Outcome.Proper]
  · push_neg at hs
    obtain ⟨target, value, more, rfl⟩ := hs
    by_cases ht : ∀ name, target ≠ .symbol name
    · rw [compileDefine_not_symbol co fs car target value more ht]
      simp [Outcome.Proper]
    · push_neg at ht
      obtain ⟨name, rfl⟩ := ht
      rw [compileDefine_symbol]
      have h1 := hco ((fs.newReg.2.constIndex (.string name)).2.addABx .OP_LOADK
          fs.nreg (fs.newReg.2.constIndex (.string name)).1) value
      rcases hc : co ((fs.newReg.2.constIndex (.string name)).2.addABx .OP_LOADK
          fs.nreg (fs.newReg.2.constIndex (.string name)).1) value with ⟨o, fs4⟩
      rw [hc] at h1
      cases o with
      | ret r =>
        cases r with
        | none => exact absurd rfl h1.2
        | some r => simp [Outcome.Proper]
      | fail e => simp [Outcome.Proper]
      | crash => simp [Outcome.Proper]
      | outOfFuel => exact absurd rfl h1.1

theorem proper_compileLambda {co : CompileFn} (hco : ProperFn co) (fs : funcState)
    (car cdr : Object) : (compileLambda co fs car cdr).1.Proper := by
  unfold compileLambda
  split
  · simp [Outcome.Proper]
  · split
    · simp [Outcome.Proper]
    · split
      · simp [Outcome.Proper]
      · split
        · simp [Outcome.Proper]
        · split
          · simp [Outcome.Proper]
          · rename_i argSyms _
            simp only
            split
            · simp [Outcome.Proper]
            · simp [Outcome.Proper]
            · simp [Outcome.Proper]
            · simp [Outcome.Proper]
            · rename_i heq
              exfalso
              revert heq
              split
              · simp
              · split
                · simp
                · rename_i body _
                  intro heq
                  have := (hco (lambdaChild fs argSyms) body).1
                  rw [heq] at this
                  exact this rfl

theorem proper_compileBegin {co : CompileFn} (hco : ProperFn co) (fs : funcState)
    (car cdr : Object) : (compileBegin co fs car cdr).1.Proper := by
  unfold compileBegin
  split
  · simp [Outcome.Proper]
  · split
    · split
      · simp [Outcome.Proper]
      · rename_i exprs _
        have h1 := proper_compileObjects hco exprs fs
        split
        · rename_i regs fs1 heq
          rw [heq] at h1
          split
          · rename_i r hr
            refine ⟨by simp, ?_⟩
            intro hn
            simp only [Outcome.ret.injEq] at hn
            subst hn
            exact h1.2 regs rfl none (List.mem_of_getLast?_eq_some hr) rfl
          · simp [Outcome.Proper]
        · simp [Outcome.Proper]
        · simp [Outcome.Proper]
        · rename_i heq
          rw [heq] at h1
          exact absurd rfl h1.1
    · simp [Outcome.Proper]

theorem proper_compileCall {co : CompileFn} (hco : ProperFn co) (fs : funcState)
    (proc args : Object) : (compileCall co fs proc args).1.Proper := by
  have h1 := hco fs proc
  unfold compileCall
  split
  · rename_i procR fs1 heq
    split
    · simp [Outcome.Proper]
    · rename_i argsArr _
      have h2 := proper_compileArgs hco procR argsArr fs1 0
      split
      · split
        · simp [Outcome.Proper]
        · simp [Outcome.Proper]
      · simp [Outcome.Proper]
      · simp [Outcome.Proper]
      · rename_i heq2
        rw [heq2] at h2
        exact absurd rfl h2
  · simp [Outcome.Proper]
  · simp [Outcome.Proper]
  · rename_i heq
    rw [heq] at h1
    exact absurd rfl h1.1

theorem proper_compilePair {co : CompileFn} (hco : ProperFn co) (fs : funcState)
    (car cdr : Object) : (compilePair co fs car cdr).1.Proper := by
  unfold compilePair
  split
  · simp [Outcome.Proper]
  · split
    · simp [Outcome.Proper]
    · split
      · split
        · exact proper_compileDefine hco fs _ _
        · split
          · exact proper_compileLambda hco fs _ _
          · split
            · exact proper_compileBegin hco fs _ _
            · exact proper_compileCall hco fs _ _
      · exact proper_compileCall hco fs _ _
      · simp [Outcome.Proper]

theorem proper_compileSymbol (fs : funcState) (sym : String) :
    (compileSymbol fs sym).1.Proper := by
  obtain ⟨r, hr⟩ := compileSymbol_ret fs sym
  rw [hr]
  simp [Outcome.Proper]

theorem proper_compileObject_below : ∀ (n : Nat) (fs : funcState) (obj : Object),
    obj.size < n → (compileObject fs obj).1.Proper
  | 0, _, _, h => absurd h (Nat.not_lt_zero _)
  | n + 1, fs, obj, h => by
    cases obj with
    | pair a d =>
      rw [compileObject_pair]
      have hc : AgreeBelow (Object.pair a d).size compileObject
          (fun fs o => if o.size < (Object.pair a d).size then compileObject fs o
            else (.crash, fs)) := by
        intro fs' o ho
        simp only [ho, if_true]
      rw [compilePair_congr a d hc]
      apply proper_compilePair
      intro fs' o
      by_cases ho : o.size < (Object.pair a d).size
      · simp only [ho, if_true]
        exact proper_compileObject_below n fs' o (by omega)
      · simp only [ho, if_false]
        simp [Outcome.Proper]
    | number num => simp [compileObject_number, Outcome.Proper]
    | symbol name => exact proper_compileSymbol fs name
    | string s => simp [compileObject, compileObjectFuel, Object.size, Outcome.Proper]
    | nil => simp [compileObject, compileObjectFuel, Object.size, Outcome.Proper]
    | boolean b => simp [compileObject, compileObjectFuel, Object.size, Outcome.Proper]
    | undefined => simp [compileObject, compileObjectFuel, Object.size, Outcome.Proper]

/-- The function `compileObject` always returns a register or an error, or panics:
the fuel of the embedding never runs out, and a nil register never comes with a
nil error. -/
theorem properFn_compileObject : ProperFn compileObject :=
  fun fs obj => proper_compileObject_below (obj.size + 1) fs obj (Nat.lt_succ_self _)

/-! ## Sequences of forms -/

/-- What a call appends is what `emittedBy` reads off. -/
theorem insts_eq_append_emittedBy {co : CompileFn} (hco : GrowsFn co) (fs : funcState)
    (obj : Object) : (co fs obj).2.Insts = fs.Insts ++ emittedBy co fs obj := by
  obtain ⟨code, h⟩ := (hco fs obj).insts
  simp [emittedBy, h]

theorem stateAfter_Insts {co : CompileFn} (hco : GrowsFn co) :
    ∀ (objs : List Object) (fs : funcState),
      (stateAfter co fs objs).Insts = fs.Insts ++ codeOfForms co fs objs
  | [], fs => by simp [stateAfter, codeOfForms]
  | obj :: rest, fs => by
    simp only [stateAfter, codeOfForms]
    rw [stateAfter_Insts hco rest, insts_eq_append_emittedBy hco, List.append_assoc]

/-- When every form returns a register, `compileObjects` returns the registers of
all the forms, the last of them being the result of the last form, and leaves
the state that the forms leave one after the other. -/
theorem compileObjects_of_allCompile (co : CompileFn) :
    ∀ (objs : List Object) (fs : funcState), allCompile co fs objs →
      ∃ regs, compileObjects co fs objs = (.ret regs, stateAfter co fs objs) ∧
        regs.length = objs.length ∧
        regs.getLast?.map Outcome.ret = lastResult co fs objs
  | [], fs, _ => ⟨[], rfl, rfl, rfl⟩
  | obj :: rest, fs, h => by
    obtain ⟨⟨r, hr⟩, hrest⟩ := h
    obtain ⟨regs, h1, h2, h3⟩ := compileObjects_of_allCompile co rest _ hrest
    have e : co fs obj = (.ret (some r), (co fs obj).2) := Prod.ext hr rfl
    refine ⟨some r :: regs, ?_, by simp [h2], ?_⟩
    · rw [compileObjects, e]
      simp only
      rw [h1]
      rfl
    · cases rest with
      | nil =>
        cases regs with
        | nil => simp [lastResult, hr]
        | cons _ _ => simp at h2
      | cons obj2 rest2 =>
        cases regs with
        | nil => simp at h2
        | cons r2 regs2 =>
          rw [List.getLast?_cons_cons]
          simpa [lastResult] using h3

/-- When the forms before `obj` return registers and `obj` returns an error,
`compileObjects` returns this error. -/
theorem compileObjects_of_fail (co : CompileFn) (obj : Object) (post : List Object)
    (e : CompileError) :
    ∀ (pre : List Object) (fs : funcState), allCompile co fs pre →
      (co (stateAfter co fs pre) obj).1 = .fail e →
      (compileObjects co fs (pre ++ obj :: post)).1 = .fail e
  | [], fs, _, hf => by
    simp only [stateAfter] at hf
    have e' : co fs obj = (.fail e, (co fs obj).2) := Prod.ext hf rfl
    rw [List.nil_append, compileObjects, e']
  | p :: pre, fs, h, hf => by
    obtain ⟨⟨r, hr⟩, hrest⟩ := h
    have e' : co fs p = (.ret (some r), (co fs p).2) := Prod.ext hr rfl
    have ih := compileObjects_of_fail co obj post e pre _ hrest hf
    rw [List.cons_append, compileObjects, e']
    simp only
    rcases hc : compileObjects co (co fs p).2 (pre ++ obj :: post) with ⟨o, fs2⟩
    rw [hc] at ih
    simp only at ih
    subst ih
    rfl

theorem lastResult_isSome (co : CompileFn) :
    ∀ (objs : List Object) (fs : funcState), objs ≠ [] → allCompile co fs objs →
      ∃ r, lastResult co fs objs = some (.ret (some r))
  | [], _, h, _ => absurd rfl h
  | [obj], fs, _, h => by
    obtain ⟨⟨r, hr⟩, _⟩ := h
    exact ⟨r, by simp [lastResult, hr]⟩
  | obj :: obj2 :: rest, fs, _, h => by
    obtain ⟨_, hrest⟩ := h
    exact lastResult_isSome co (obj2 :: rest) _ (by simp) hrest

/-- What `Compile` does when no form makes the compiler panic: for every non-empty
list of top-level forms that all compile (each one, in the state its
predecessors leave, returns a register), `Compile` returns a closure whose
prototype holds the code of the forms in order followed by one return
instruction that names the register of the last form; and when the forms before
some form compile and `compileObject` returns an error for that form, `Compile`
returns this error and no closure. The code of a form is what compiling it
appends to the instructions. A form on which `compileObject` panics is not
covered here. -/
theorem Compile_spec (objs : List Object) (hne : objs ≠ []) :
    (allCompile compileObject (newFuncState none) objs →
      ∃ cl lastR, Compile objs = .ret cl ∧
        lastResult compileObject (newFuncState none) objs = some (.ret (some lastR)) ∧
        cl.Proto.Insts = codeOfForms compileObject (newFuncState none) objs ++
          [.ABC .OP_RETURN lastR.N 2 0]) ∧
    (∀ pre obj post e, objs = pre ++ obj :: post →
      allCompile compileObject (newFuncState none) pre →
      (compileObject (stateAfter compileObject (newFuncState none) pre) obj).1 = .fail e →
      Compile objs = .fail e) ∧
    (∀ fs obj, (compileObject fs obj).2.Insts = fs.Insts ++ emittedBy compileObject fs obj) := by
  refine ⟨?_, ?_, insts_eq_append_emittedBy growsFn_compileObject⟩
  · intro hall
    obtain ⟨regs, h1, _, h3⟩ := compileObjects_of_allCompile compileObject objs _ hall
    obtain ⟨lastR, hl⟩ := lastResult_isSome compileObject objs _ hne hall
    rw [hl] at h3
    have hlast : regs.getLast? = some (some lastR) := by
      cases hg : regs.getLast? with
      | none => simp [hg] at h3
      | some r =>
        simp only [hg, Option.map_some', Option.some.injEq, Outcome.ret.injEq] at h3
        rw [h3]
    refine ⟨{ NewScmClosure with Proto := ((stateAfter compileObject (newFuncState none)
      objs).addABC .OP_RETURN lastR.N 2 0).Proto }, lastR, ?_, hl, ?_⟩
    · unfold Compile
      rw [h1]
      simp only [hlast]
    · have := stateAfter_Insts growsFn_compileObject objs (newFuncState none)
      simp only [funcState.addABC, CreateABC, add_Proto_Insts, this]
      simp [newFuncState, funcState.Insts, funcState.Proto, NewClosureProto, ClosureProto.Insts]
  · intro pre obj post e hobjs hpre hfail
    have := compileObjects_of_fail compileObject obj post e pre _ hpre hfail
    rw [← hobjs] at this
    unfold Compile
    rcases hc : compileObjects compileObject (newFuncState none) objs with ⟨o, fs2⟩
    rw [hc] at this
    simp only at this
    subst this
    rfl

/-- The forms `(define a 1) (+ a 1)` compile to a closure, and the forms
`(define a 1) "s"` to the error of the second form. -/
theorem Compile_spec_witness :
    (∃ cl lastR, Compile formsDefineThenAdd = .ret cl ∧
      lastResult compileObject (newFuncState none) formsDefineThenAdd =
        some (.ret (some lastR)) ∧
      cl.Proto.Insts = codeOfForms compileObject (newFuncState none) formsDefineThenAdd ++
        [.ABC .OP_RETURN lastR.N 2 0]) ∧
    Compile ([mkList [.symbol "define", .symbol "a", .number num1]] ++
        Object.string "s" :: []) = .fail (.unknownObject (some (.string "s"))) :=
  ⟨(Compile_spec formsDefineThenAdd (by simp [formsDefineThenAdd])).1
      ⟨⟨⟨1⟩, by decide⟩, ⟨⟨2⟩, by decide⟩, trivial⟩,
    (Compile_spec _ (by simp)).2.1 [mkList [.symbol "define", .symbol "a", .number num1]]
      (.string "s") [] _ rfl ⟨⟨⟨1⟩, by decide⟩, trivial⟩ (by decide)⟩

/-! ## Special forms -/

theorem Len_mkList : ∀ xs : List Object, Len (mkList xs) = xs.length
  | [] => rfl
  | _ :: xs => by simp [mkList, Len, Len_mkList xs]

theorem Slice_mkList : ∀ xs : List Object, Slice (mkList xs) = .ok xs
  | [] => rfl
  | x :: xs => by simp [mkList, Slice, Slice_mkList xs]

/-- The form `(begin e1 ... ek)` is compiled by `compileBegin`. -/
theorem compileObject_begin (fs : funcState) (exprs : List Object) :
    compileObject fs (mkList (.symbol "begin" :: exprs)) =
      compileBegin compileObject fs (.symbol "begin") (mkList exprs) := by
  rw [mkList, compileObject_pair, compilePair]
  have h1 : ¬ Len (Object.pair (.symbol "begin") (mkList exprs)) = 0 := by simp [Len]
  have h2 : isSlicable (mkList exprs) = true := by cases exprs <;> rfl
  simp [h1, h2]

/-- C10: on `(begin)` `compileBegin` returns an error and leaves the function state
as it is (nothing is emitted); on `(begin e1 ... ek)`, `k >= 1`, whose
sub-expressions all compile (each one, in the state its predecessors leave,
returns a register), it returns the register of `ek` and what it appends to the
instructions is the code of `e1`, ..., `ek` in this order. `compileBegin` is
what `compileObject` runs on a begin form. -/
theorem compileBegin_spec (fs : funcState) (exprs : List Object) :
    compileObject fs (mkList (.symbol "begin" :: exprs)) =
      compileBegin compileObject fs (.symbol "begin") (mkList exprs) ∧
    (exprs = [] →
      compileBegin compileObject fs (.symbol "begin") (mkList exprs) =
        (.fail (.invalidBegin (mkList [.symbol "begin"])), fs)) ∧
    (exprs ≠ [] → allCompile compileObject fs exprs →
      ∃ r, (compileBegin compileObject fs (.symbol "begin") (mkList exprs)).1 =
          .ret (some r) ∧
        lastResult compileObject fs exprs = some (.ret (some r)) ∧
        (compileBegin compileObject fs (.symbol "begin") (mkList exprs)).2.Insts =
          fs.Insts ++ codeOfForms compileObject fs exprs) := by
  refine ⟨compileObject_begin fs exprs, ?_, ?_⟩
  · rintro rfl
    rfl
  · intro hne hall
    obtain ⟨regs, h1, _, h3⟩ := compileObjects_of_allCompile compileObject exprs fs hall
    obtain ⟨r, hl⟩ := lastResult_isSome compileObject exprs fs hne hall
    rw [hl] at h3
    have hlast : regs.getLast? = some (some r) := by
      cases hg : regs.getLast? with
      | none => simp [hg] at h3
      | some r' =>
        simp only [hg, Option.map_some', Option.some.injEq, Outcome.ret.injEq] at h3
        rw [h3]
    have hlen : ¬ Len (Object.pair (.symbol "begin") (mkList exprs)) < 2 := by
      cases exprs with
      | nil => exact absurd rfl hne
      | cons x xs => simp [Len, mkList]
    have hb : compileBegin compileObject fs (.symbol "begin") (mkList exprs) =
        (.ret (some r), stateAfter compileObject fs exprs) := by
      cases exprs with
      | nil => exact absurd rfl hne
      | cons x xs =>
        have hS := Slice_mkList (x :: xs)
        simp only [mkList] at hS hlen
        simp only [compileBegin, mkList, hlen, if_false, hS]
        rw [h1]
        simp only [hlast]
    rw [hb]
    exact ⟨r, rfl, hl, stateAfter_Insts growsFn_compileObject exprs fs⟩

/-- Witness for C10: `(begin)` and `(begin 1 2)` at top level. -/
theorem compileBegin_spec_witness :
    compileBegin compileObject (newFuncState none) (.symbol "begin") (mkList []) =
      (.fail (.invalidBegin (mkList [.symbol "begin"])), newFuncState none) ∧
    (∃ r, (compileBegin compileObject (newFuncState none) (.symbol "begin")
          (mkList exprsOneTwo)).1 = .ret (some r) ∧
        lastResult compileObject (newFuncState none) exprsOneTwo = some (.ret (some r)) ∧
        (compileBegin compileObject (newFuncState none) (.symbol "begin")
          (mkList exprsOneTwo)).2.Insts =
          (newFuncState none).Insts ++
            codeOfForms compileObject (newFuncState none) exprsOneTwo) :=
  ⟨(compileBegin_spec (newFuncState none) []).2.1 rfl,
    (compileBegin_spec (newFuncState none) exprsOneTwo).2.2 (by simp [exprsOneTwo])
      ⟨⟨⟨0⟩, by decide⟩, ⟨⟨1⟩, by decide⟩, trivial⟩⟩

/-- C9 (counterexample): `(define a 1 2)`, a define form with three operands, is
not rejected: `compileDefine` returns the register of the value `1`, and so
does `compileObject` on the form. -/
theorem compileDefine_accepts_three_operands :
    (compileDefine compileObject (newFuncState none) (.symbol "define")
      (mkList [.symbol "a", .number num1, .number num2])).1 = .ret (some ⟨1⟩) ∧
    (compileObject (newFuncState none)
      (mkList [.symbol "define", .symbol "a", .number num1, .number num2])).1 =
        .ret (some ⟨1⟩) := by
  constructor <;> decide

/-- C9 (as amended): `compileDefine` returns an error, and leaves the function
state as it is, when the define form has fewer than two operands (`(define)`,
`(define a)`) or when its target is not a symbol; on a form with a symbol
target and two or more operands it does what it does on the form made of the
first two operands alone, the further operands being ignored, so that the form
is accepted as soon as its value compiles. -/
theorem compileDefine_spec (fs : funcState) (ops : List Object) :
    (ops.length < 2 →
      compileDefine compileObject fs (.symbol "define") (mkList ops) =
        (.fail .invalidDefine, fs)) ∧
    (∀ target value more, ops = target :: value :: more → (∀ name, target ≠ .symbol name) →
      compileDefine compileObject fs (.symbol "define") (mkList ops) =
        (.fail .defineTargetNotSymbol, fs)) ∧
    (∀ name value more, ops = .symbol name :: value :: more →
      compileDefine compileObject fs (.symbol "define") (mkList ops) =
        compileDefine compileObject fs (.symbol "define") (mkList [.symbol name, value]) ∧
      ∀ valueR fs4,
        compileObject ((fs.newReg.2.constIndex (.string name)).2.addABx .OP_LOADK fs.nreg
          (fs.newReg.2.constIndex (.string name)).1) value = (.ret (some valueR), fs4) →
        compileDefine compileObject fs (.symbol "define") (mkList ops) =
          (.ret (some valueR), fs4.addABx .OP_SETGLOBAL valueR.N fs.nreg)) := by
  refine ⟨?_, ?_, ?_⟩
  · intro hlen
    apply compileDefine_short
    intro target value more h
    cases ops with
    | nil => simp [mkList] at h
    | cons x xs =>
      cases xs with
      | nil => simp [mkList] at h
      | cons y ys =>
        simp only [List.length_cons] at hlen
        omega
  · rintro target value more rfl ht
    exact compileDefine_not_symbol _ fs _ target value (mkList more) ht
  · rintro name value more rfl
    simp only [mkList]
    rw [compileDefine_symbol, compileDefine_symbol]
    refine ⟨rfl, ?_⟩
    intro valueR fs4 h
    rw [h]

/-- Witness for C9 (as amended): `(define a)`, `(define 1 2)` and `(define a 1 2)` at
top level. -/
theorem compileDefine_spec_witness :
    compileDefine compileObject (newFuncState none) (.symbol "define") (mkList [.symbol "a"]) =
      (.fail .invalidDefine, newFuncState none) ∧
    compileDefine compileObject (newFuncState none) (.symbol "define")
        (mkList [.number num1, .number num2]) =
      (.fail .defineTargetNotSymbol, newFuncState none) ∧
    compileDefine compileObject (newFuncState none) (.symbol "define")
        (mkList [.symbol "a", .number num1, .number num2]) =
      compileDefine compileObject (newFuncState none) (.symbol "define")
        (mkList [.symbol "a", .number num1]) :=
  ⟨(compileDefine_spec (newFuncState none) [.symbol "a"]).1 (by decide),
    (compileDefine_spec (newFuncState none) [.number num1, .number num2]).2.1 _ _ _ rfl
      (by simp),
    ((compileDefine_spec (newFuncState none) [.symbol "a", .number num1, .number num2]).2.2
      _ _ _ rfl).1⟩

/-! ## Calls and lambdas at the inputs of the tests -/

/-- C1 (the code at the failing input): the call `(+ a 1)` in the body of
`(lambda (a) ...)`, where `a` is the local in register 0 and the callee `+`
gets register `R = 1`. The second instruction moves argument 1 into `R + 1 = 2`,
a register that `newReg` has not handed out yet; the third instruction, the
load of the constant `1` for argument 2, is given this very register 2 by
`newReg` and overwrites it; the fourth copies it on to `R + 2 = 3`. When the
call instruction is reached, register `R + 1` holds the constant `1` and not
the value of `a`. -/
theorem compileCall_overwrites_argument_register :
    compileObject fsLambdaA formPlusA1 =
      compileCall compileObject fsLambdaA (.symbol "+") (mkList [.symbol "a", .number num1]) ∧
    (compileObject fsLambdaA formPlusA1).1 = .ret (some ⟨1⟩) ∧
    (compileObject fsLambdaA formPlusA1).2.Insts =
      [.ABx .OP_GETGLOBAL 1 0, .ABC .OP_MOVE 2 0 0, .ABx .OP_LOADK 2 1,
        .ABC .OP_MOVE 3 2 0, .ABC .OP_CALL 1 3 2] ∧
    (compileObject fsLambdaA formPlusA1).2.Consts = [.string "+", .number num1] := by
  refine ⟨?_, by decide, by decide, by decide⟩
  rw [formPlusA1, mkList, compileObject_pair, compilePair]
  simp [Len, mkList, isSlicable]

/-- What is compiled of a lambda form does not depend on what follows the first
expression of its body. -/
theorem compileLambda_ignores_rest (co : CompileFn) (fs : funcState)
    (car params body more : Object) :
    (compileLambda co fs car (.pair params (.pair body more))).2 =
      (compileLambda co fs car (.pair params (.pair body .nil))).2 := by
  simp only [compileLambda, Len, Cdar, Cddr, Cdr, Car]
  have h1 : ¬ Len more + 1 + 1 + 1 < 3 := by omega
  simp only [h1, if_false]
  split
  · rfl
  · split
    · rfl
    · split
      · rfl
      · simp only [Nat.lt_irrefl, if_false]

/-- C2 (the code at the failing input): of the body of
`(lambda (a) (+ a 1) (+ a 2))` only the first expression is compiled. The child
prototype holds the code of `(+ a 1)` followed by a return of its register 1;
there is no code for `(+ a 2)` and the constant `2` is not in the child's pool.
In general, the state that `compileLambda` leaves is the one it leaves for
the lambda with the first body expression alone. -/
theorem compileLambda_compiles_first_body_expression_only :
    (compileObject (newFuncState none) formLambdaTwoBodies).1 = .ret (some ⟨0⟩) ∧
    (compileObject (newFuncState none) formLambdaTwoBodies).2.Proto.Protos.map
        ClosureProto.Insts =
      [[.ABx .OP_GETGLOBAL 1 0, .ABC .OP_MOVE 2 0 0, .ABx .OP_LOADK 2 1,
        .ABC .OP_MOVE 3 2 0, .ABC .OP_CALL 1 3 2, .ABC .OP_RETURN 1 2 0]] ∧
    (compileObject (newFuncState none) formLambdaTwoBodies).2.Proto.Protos.map
        ClosureProto.Consts = [[.string "+", .number num1]] ∧
    (compileObject (newFuncState none) formLambdaTwoBodies).2.Insts =
      [.ABx .OP_CLOSURE 0 0] ∧
    (∀ (co : CompileFn) (fs : funcState) (car params body more : Object),
      (compileLambda co fs car (.pair params (.pair body more))).2 =
        (compileLambda co fs car (.pair params (.pair body .nil))).2) :=
  ⟨by decide, by decide, by decide, by decide, compileLambda_ignores_rest⟩

/-- C8 (the code at the failing input): an object that is neither a number, a
symbol nor a pair yields an error at top level, under `begin` and as the value
of a `define`; as the argument of a call it makes `compileCall` read the field
`N` of the nil register that came with the error, and `Compile` panics. -/
theorem compileCall_panics_on_unknown_argument :
    (compileObject (newFuncState none) (.boolean true)).1 =
      .fail (.unknownObject (some (.boolean true))) ∧
    (compileObject (newFuncState none) (mkList [.symbol "begin", .boolean true])).1 =
      .fail (.unknownObject (some (.boolean true))) ∧
    (compileObject (newFuncState none)
      (mkList [.symbol "define", .symbol "a", .boolean true])).1 =
      .fail (.unknownObject (some (.boolean true))) ∧
    (compileObject (newFuncState none) formCallWithBoolean).1 = .crash ∧
    Compile [formCallWithBoolean] = .crash := by
  refine ⟨by decide, by decide, by decide, by decide, ?_⟩
  rfl

/-! ## Conditionals -/

/-- C11 (the code at the failing input, and in general): `compilePair` knows the
special forms `define`, `lambda` and `begin` only, so a form `(if test then
else)` is compiled by `compileCall` as the call of a procedure named `if`. For
`(if 1 1 2)` the code is: get the global `if`, load the test and both branches
into the three registers after it, call; there is no test and no skip, and
both branches are evaluated as arguments. On `(if #f 1 2)` of
`TestExecuteString` the compiler panics (the boolean is an argument of a
call). -/
theorem compilePair_if_is_a_call :
    (∀ (fs : funcState) (test thenE elseE : Object),
      compileObject fs (mkList [.symbol "if", test, thenE, elseE]) =
        compileCall compileObject fs (.symbol "if") (mkList [test, thenE, elseE])) ∧
    (compileObject (newFuncState none) formIfNumbers).1 = .ret (some ⟨0⟩) ∧
    (compileObject (newFuncState none) formIfNumbers).2.Insts =
      [.ABx .OP_GETGLOBAL 0 0, .ABx .OP_LOADK 1 1, .ABx .OP_LOADK 2 1, .ABx .OP_LOADK 3 2,
        .ABC .OP_CALL 0 4 2] ∧
    (compileObject (newFuncState none) formIfNumbers).2.Consts =
      [.string "if", .number num1, .number num2] ∧
    Compile [formIfFalse] = .crash := by
  refine ⟨?_, by decide, by decide, by decide, rfl⟩
  intro fs test thenE elseE
  rw [mkList, compileObject_pair, compilePair]
  simp [Len, mkList, isSlicable]

/-! ## The scanner -/

/-- The loop `for p(s.ch) { s.next() }` is run to its end by the bound on its
rounds: the character it stops at does not satisfy `p`. -/
theorem nextWhile_exit (p : Char → Bool) (hp : p eofCh = false) :
    ∀ (fuel : Nat) (s : Scanner), s.src.length - s.forward + 1 ≤ fuel →
      p (Scanner.nextWhile p fuel s).ch = false
  | 0, s, h => by omega
  | fuel + 1, s, h => by
    unfold Scanner.nextWhile
    by_cases hc : p s.ch = true
    · simp only [hc, if_true]
      by_cases hf : s.forward < s.src.length
      · apply nextWhile_exit p hp fuel
        simp only [Scanner.next, hf, if_true]
        omega
      · have hn : s.next.ch = eofCh := by simp [Scanner.next, hf]
        cases fuel with
        | zero => simp [Scanner.nextWhile, hn, hp]
        | succ n => simp [Scanner.nextWhile, hn, hp]
    · simp only [hc, if_false]
      simpa using hc

/-- C20 (the code at the failing inputs): on `(+ +1 -2 1.11 -1.11)` of `TestScan`
the scanner returns `+1`, `-2` and `-1.11` as identifiers (a sign is an
initial of an identifier and digits continue it) and `1.11` as the integer
`1` followed by the identifier `.11`; its number token is `INT`; and on the
string literal `"test"` it ends the process with `log.Fatalf`. On the sources
without sign, fraction or string the tokens are the expected ones, with `INT`
as the kind of a number. -/
theorem Scan_signed_numbers_and_strings :
    scanAll 20 (Scanner.Init srcSignedNumbers) =
      ([(.LPAREN, ""), (.IDENT, "+"), (.IDENT, "+1"), (.IDENT, "-2"), (.INT, "1"),
        (.IDENT, ".11"), (.IDENT, "-1.11"), (.RPAREN, ""), (.EOF, "")], true) ∧
    scanAll 20 (Scanner.Init srcStringLiteral) = ([], false) ∧
    scanAll 20 (Scanner.Init " 123 ".toList) = ([(.INT, "123"), (.EOF, "")], true) ∧
    scanAll 20 (Scanner.Init "set!".toList) = ([(.IDENT, "set!"), (.EOF, "")], true) ∧
    scanAll 20 (Scanner.Init "(+ 1 2)".toList) =
      ([(.LPAREN, ""), (.IDENT, "+"), (.INT, "1"), (.INT, "2"), (.RPAREN, ""),
        (.EOF, "")], true) := by
  refine ⟨by decide, by decide, by decide, by decide, by decide⟩

/-! ## The value stack -/

theorem Stack.Get_of_inRange (st : Stack) (i : Int) (h : 0 ≤ i ∧ i < st.Len) :
    ∃ v, st.Get i = some v := by
  have hlt : i.toNat < st.slots.length := by
    have := h.2
    simp only [Stack.Len] at this
    omega
  exact ⟨st.slots[i.toNat], by simp [Stack.Get, h, List.getElem?_eq_getElem hlt]⟩

theorem Stack.inRange_of_Get {st : Stack} {i : Int} {v : Value} (h : st.Get i = some v) :
    0 ≤ i ∧ i < st.Len := by
  unfold Stack.Get at h
  by_cases hr : 0 ≤ i ∧ i < st.Len
  · exact hr
  · simp [hr] at h

theorem Stack.Get_SetSp (st : Stack) (k j : Int) : (st.SetSp k).Get j = st.Get j := rfl

theorem Stack.Len_SetSp (st : Stack) (k : Int) : (st.SetSp k).Len = st.Len := rfl

theorem Stack.sp_SetSp (st : Stack) (k : Int) : (st.SetSp k).sp = k := rfl

theorem Stack.Set_of_inRange (st : Stack) (i : Int) (v : Value) (h : 0 ≤ i ∧ i < st.Len) :
    st.Set i v = some { st with slots := st.slots.set i.toNat v } := by
  simp [Stack.Set, h]

theorem Stack.inRange_of_Set {st st1 : Stack} {i : Int} {v : Value}
    (h : st.Set i v = some st1) : 0 ≤ i ∧ i < st.Len := by
  unfold Stack.Set at h
  by_cases hr : 0 ≤ i ∧ i < st.Len
  · exact hr
  · simp [hr] at h

/-- What `Set` leaves: the cursor and the capacity as they were, the value in the
slot written, every other slot as it was. -/
theorem Stack.Set_spec {st st1 : Stack} {i : Int} {v : Value} (h : st.Set i v = some st1) :
    st1.sp = st.sp ∧ st1.Len = st.Len ∧ st1.Get i = some v ∧
      ∀ j, j ≠ i → st1.Get j = st.Get j := by
  have hr := Stack.inRange_of_Set h
  rw [Stack.Set_of_inRange st i v hr] at h
  simp only [Option.some.injEq] at h
  subst h
  have hlen : i.toNat < st.slots.length := by
    have := hr.2
    simp only [Stack.Len] at this
    omega
  refine ⟨rfl, by simp [Stack.Len], ?_, ?_⟩
  · have hr2 : 0 ≤ i ∧ i < (↑st.slots.length : Int) := by
      simpa [Stack.Len] using hr
    simp [Stack.Get, Stack.Len, hr2, hlen]
  · intro j hj
    simp only [Stack.Get, Stack.Len, List.length_set]
    by_cases hjr : 0 ≤ j ∧ j < (↑st.slots.length : Int)
    · have hne : i.toNat ≠ j.toNat := by omega
      simp [hjr, List.getElem?_set_ne hne]
    · simp [hjr]

/-- What `Push` leaves: the cursor one up, the value in the new top slot, every
other slot as it was. -/
theorem Stack.Push_spec {st st1 : Stack} {v : Value} (h : st.Push v = some st1) :
    st1.sp = st.sp + 1 ∧ st1.Len = st.Len ∧ st1.Get (st.sp + 1) = some v ∧
      (∀ j, j ≠ st.sp + 1 → st1.Get j = st.Get j) ∧
      (0 ≤ st.sp + 1 ∧ st.sp + 1 < st.Len) := by
  unfold Stack.Push at h
  obtain ⟨h1, h2, h3, h4⟩ := Stack.Set_spec h
  have h5 := Stack.inRange_of_Set h
  exact ⟨h1, h2, h3, h4, h5⟩

theorem Stack.Push_of_inRange (st : Stack) (v : Value)
    (h : 0 ≤ st.sp + 1 ∧ st.sp + 1 < st.Len) : ∃ st1, st.Push v = some st1 :=
  ⟨_, Stack.Set_of_inRange (st.SetSp (st.sp + 1)) (st.sp + 1) v h⟩

/-- The top of a non-empty stack is what `Pop` returns, with the cursor one down and
every slot as it was. -/
theorem Stack.Pop_of_top {st : Stack} {v : Value} (hne : 0 ≤ st.sp)
    (h : st.Get st.sp = some v) : st.Pop = some (v, st.SetSp (st.sp - 1)) := by
  have : ¬ st.sp < 0 := by omega
  simp [Stack.Pop, this, h]

/-! ## Return from a call -/

/-- C17: in a state whose call-info stack is not empty, with top frame `ci`, for a
result index `r` and the frame's `FuncSp = f` both inside the value stack,
`postcall(r)` does not panic; it pops this one frame (the cursor of the
call-info stack goes down by one, the frames below stay), stores the value
that was in slot `r` into slot `f`, sets the stack pointer to `f` and leaves
every other slot of the value stack, so every slot below `f`, as it was. -/
theorem postcall_spec (s : State) (r : Int) (ci : CallInfo)
    (hne : 0 ≤ s.CallInfos.sp)
    (htop : s.CallInfos.Get s.CallInfos.sp = some (.callInfo ci))
    (hr : 0 ≤ r ∧ r < s.CallStack.Len)
    (hf : 0 ≤ ci.FuncSp ∧ ci.FuncSp < s.CallStack.Len) :
    ∃ s1 result, s.postcall r = some s1 ∧ s.CallStack.Get r = some result ∧
      s1.CallInfos.sp = s.CallInfos.sp - 1 ∧
      (∀ j, j < s.CallInfos.sp → s1.CallInfos.Get j = s.CallInfos.Get j) ∧
      s1.CallStack.Get ci.FuncSp = some result ∧
      s1.CallStack.sp = ci.FuncSp ∧
      (∀ j, j ≠ ci.FuncSp → s1.CallStack.Get j = s.CallStack.Get j) ∧
      s1.CallStack.Len = s.CallStack.Len ∧
      s1.uvhead = s.uvhead ∧ s1.Global = s.Global := by
  obtain ⟨result, hres⟩ := Stack.Get_of_inRange s.CallStack r hr
  have hset := Stack.Set_of_inRange s.CallStack ci.FuncSp result hf
  obtain ⟨h1, h2, h3, h4⟩ := Stack.Set_spec hset
  refine ⟨{ s with
      CallInfos := s.CallInfos.SetSp (s.CallInfos.sp - 1),
      CallStack := (Stack.mk (s.CallStack.slots.set ci.FuncSp.toNat result)
        s.CallStack.sp).SetSp ci.FuncSp }, result, ?_, hres, ?_⟩
  · unfold State.postcall
    rw [Stack.Pop_of_top hne htop]
    simp only [hres, hset]
  · exact ⟨rfl, fun j _ => rfl, h3, rfl, h4, h2, rfl, rfl⟩

/-! ## Arguments on the stack -/

/-- What `getRange` reads: it does not panic exactly when the slots
`start, ..., start + n - 1` are inside the stack, and then it returns their
values, lowest slot first. -/
theorem Stack.getRange_of_inRange (st : Stack) :
    ∀ (n : Nat) (start : Int), 0 ≤ start → start + n ≤ st.Len →
      ∃ vs, st.getRange start n = some vs ∧ vs.length = n ∧
        ∀ i : Nat, i < n → st.Get (start + i) = vs[i]?
  | 0, start, _, _ => ⟨[], rfl, rfl, fun i hi => absurd hi (Nat.not_lt_zero i)⟩
  | n + 1, start, h0, h1 => by
    obtain ⟨v, hv⟩ := st.Get_of_inRange start ⟨h0, by omega⟩
    obtain ⟨vs, hvs, hlen, hget⟩ := Stack.getRange_of_inRange st n (start + 1) (by omega)
      (by push_cast at h1; omega)
    refine ⟨v :: vs, by simp [Stack.getRange, hv, hvs], by simp [hlen], ?_⟩
    intro i hi
    cases i with
    | zero => simpa using hv
    | succ k =>
      have := hget k (by omega)
      simp only [List.getElem?_cons_succ]
      rw [← this]
      congr 1
      push_cast
      omega

theorem Stack.getRange_spec (st : Stack) :
    ∀ (n : Nat) (start : Int) (vs : List Value), st.getRange start n = some vs →
      vs.length = n ∧ (0 < n → 0 ≤ start ∧ start + n ≤ st.Len) ∧
        ∀ i : Nat, i < n → st.Get (start + i) = vs[i]?
  | 0, start, vs, h => by
    simp only [Stack.getRange, Option.some.injEq] at h
    subst h
    exact ⟨rfl, fun h => absurd h (Nat.lt_irrefl 0), fun i hi => absurd hi (Nat.not_lt_zero i)⟩
  | n + 1, start, vs, h => by
    unfold Stack.getRange at h
    cases hv : st.Get start with
    | none => simp [hv] at h
    | some v =>
      cases hr : st.getRange (start + 1) n with
      | none => simp [hv, hr] at h
      | some ws =>
        simp only [hv, hr, Option.some.injEq] at h
        subst h
        obtain ⟨hlen, hin, hget⟩ := Stack.getRange_spec st n (start + 1) ws hr
        have hs := Stack.inRange_of_Get hv
        refine ⟨by simp [hlen], fun _ => ⟨hs.1, ?_⟩, ?_⟩
        · cases n with
          | zero => push_cast; omega
          | succ m =>
            have := (hin (Nat.succ_pos m)).2
            push_cast at this ⊢
            omega
        · intro i hi
          cases i with
          | zero => simpa using hv
          | succ k =>
            have := hget k (by omega)
            simp only [List.getElem?_cons_succ]
            rw [← this]
            congr 1
            push_cast
            omega

/-- The method `popArgs` on arguments that are on the stack: the `nargs` values
below the top, lowest first, and the stack pointer moved down by `nargs`. -/
theorem popArgs_of_inRange (s : State) (nargs : Int) (h0 : 0 ≤ nargs)
    (h1 : nargs ≤ s.CallStack.sp + 1) (h2 : s.CallStack.sp < s.CallStack.Len) :
    ∃ args, s.popArgs nargs =
        some (args, { s with CallStack := s.CallStack.SetSp (s.CallStack.sp - nargs) }) ∧
      args.length = nargs.toNat ∧
      ∀ i : Nat, i < nargs.toNat →
        s.CallStack.Get (s.CallStack.sp - nargs + 1 + i) = args[i]? := by
  obtain ⟨vs, hvs, hlen, hget⟩ := s.CallStack.getRange_of_inRange nargs.toNat
    (s.CallStack.sp - nargs + 1) (by omega) (by omega)
  have hn : ¬ nargs < 0 := by omega
  have e : s.CallStack.Sp - nargs + 0 + 1 = s.CallStack.sp - nargs + 1 := by
    simp [Stack.Sp]
  refine ⟨vs, ?_, hlen, hget⟩
  simp only [State.popArgs, hn, if_false, e, hvs]
  rfl

theorem popArgs_spec {s s1 : State} {nargs : Int} {args : List Value}
    (h : s.popArgs nargs = some (args, s1)) :
    0 ≤ nargs ∧ s1 = { s with CallStack := s.CallStack.SetSp (s.CallStack.sp - nargs) } ∧
      args.length = nargs.toNat ∧
      (0 < nargs → 0 ≤ s.CallStack.sp - nargs + 1 ∧ s.CallStack.sp + 1 ≤ s.CallStack.Len) ∧
      ∀ i : Nat, i < nargs.toNat →
        s.CallStack.Get (s.CallStack.sp - nargs + 1 + i) = args[i]? := by
  unfold State.popArgs at h
  by_cases hn : nargs < 0
  · simp [hn] at h
  · have e : s.CallStack.Sp - nargs + 0 + 1 = s.CallStack.sp - nargs + 1 := by
      simp [Stack.Sp]
    simp only [hn, if_false, e] at h
    cases hr : s.CallStack.getRange (s.CallStack.sp - nargs + 1) nargs.toNat with
    | none => simp [hr] at h
    | some vs =>
      simp only [hr, Option.some.injEq, Prod.mk.injEq] at h
      obtain ⟨rfl, rfl⟩ := h
      obtain ⟨hlen, hin, hget⟩ := s.CallStack.getRange_spec _ _ _ hr
      refine ⟨by omega, rfl, hlen, ?_, hget⟩
      intro hpos
      have := hin (by omega)
      refine ⟨this.1, ?_⟩
      have h2 := this.2
      have : (nargs.toNat : Int) = nargs := Int.toNat_of_nonneg (by omega)
      omega

/-! ## Calls of native closures -/

/-- The check `checkArgNumber` passes exactly when `minArg <= nargs` and, for a
`maxArg` that is not negative, `nargs <= maxArg`; the error it returns
otherwise starts with the name of the procedure. -/
theorem checkArgNumber_spec (name : String) (nargs minArg maxArg : Int) :
    (checkArgNumber name nargs minArg maxArg = none ↔
      minArg ≤ nargs ∧ (maxArg < 0 ∨ nargs ≤ maxArg)) ∧
    ∀ err, checkArgNumber name nargs minArg maxArg = some err → err.procName = some name := by
  unfold checkArgNumber
  by_cases h1 : nargs < minArg
  · rw [if_pos h1]
    refine ⟨⟨fun h => by simp at h, fun h => by omega⟩, ?_⟩
    intro err h
    simp only [Option.some.injEq] at h
    subst h
    rfl
  · rw [if_neg h1]
    by_cases h2 : maxArg < 0
    · rw [if_pos h2]
      exact ⟨⟨fun _ => ⟨by omega, Or.inl h2⟩, fun _ => rfl⟩, fun err h => by simp at h⟩
    · rw [if_neg h2]
      by_cases h3 : nargs > maxArg
      · rw [if_pos h3]
        refine ⟨⟨fun h => by simp at h, fun h => by omega⟩, ?_⟩
        intro err h
        simp only [Option.some.injEq] at h
        subst h
        rfl
      · rw [if_neg h3]
        exact ⟨⟨fun _ => ⟨by omega, Or.inr (by omega)⟩, fun _ => rfl⟩,
          fun err h => by simp at h⟩

/-- The call of a native closure, up to the call of the host function: with the
closure on the stack at `c`, room for one call-info and the stack pointer not
below `c`, `precall` pushes the call-info, pops the arguments and checks their
number. -/
theorem precall_native_eq (host : Host) (s : State) (c : Int) (cl : Closure) (fn : Nat)
    (hcl : s.CallStack.Get c = some (.closure cl)) (hgo : cl.IsGo = true)
    (hfn : cl.Fn = some fn)
    (hroom : 0 ≤ s.CallInfos.sp + 1 ∧ s.CallInfos.sp + 1 < s.CallInfos.Len)
    (hsp : c ≤ s.CallStack.sp ∧ s.CallStack.sp < s.CallStack.Len) :
    ∃ infos args,
      s.CallInfos.Push (.callInfo ⟨cl, c + 1, c⟩) = some infos ∧
      args.length = (s.CallStack.sp - c).toNat ∧
      (∀ i : Nat, i < (s.CallStack.sp - c).toNat → s.CallStack.Get (c + 1 + i) = args[i]?) ∧
      s.precall host c =
        match checkArgNumber cl.FnName (s.CallStack.sp - c) cl.MinArg cl.MaxArg with
        | some err =>
          (.fail err, { s with CallInfos := infos, CallStack := s.CallStack.SetSp c }, [])
        | none =>
          match host fn { s with CallInfos := infos, CallStack := s.CallStack.SetSp c } args with
          | (.scmError msg, s3) => (.fail (.procedureError cl.FnName msg), s3, [(fn, args)])
          | (.otherError msg, s3) => (.fail (.hostError msg), s3, [(fn, args)])
          | (.ok retval, s3) =>
            match s3.CallStack.Push retval with
            | none => (.crash, s3, [(fn, args)])
            | some stack =>
              match ({ s3 with CallStack := stack } : State).postcall stack.Sp with
              | none => (.crash, { s3 with CallStack := stack }, [(fn, args)])
              | some s5 => (.ret ⟨cl, c + 1, c⟩, s5, [(fn, args)]) := by
  obtain ⟨infos, hinfos⟩ := Stack.Push_of_inRange s.CallInfos (.callInfo ⟨cl, c + 1, c⟩) hroom
  have hc0 := (Stack.inRange_of_Get hcl).1
  obtain ⟨args, hpop, hlen, hget⟩ := popArgs_of_inRange { s with CallInfos := infos }
    (s.CallStack.sp - c) (by omega) (by simp only; omega) hsp.2
  have e : s.CallStack.sp - (s.CallStack.sp - c) = c := by omega
  simp only [e] at hpop
  refine ⟨infos, args, hinfos, hlen, ?_, ?_⟩
  · intro i hi
    have := hget i hi
    simp only at this
    rw [← this]
    congr 1
    omega
  · simp only [State.precall, hcl, hgo, if_true, hinfos, hfn, Stack.Sp, hpop]

/-- C12: for a native closure on the stack at `c` (with room for one call-info and
the `nargs = Sp - c` arguments on the stack), `precall` calls the host function,
once, if and only if `MinArg <= nargs` and (`MaxArg < 0` or `nargs <= MaxArg`);
otherwise it makes no host call and returns an arity error that names the
procedure. A procedure registered by `RegisterFunc` with a negative `maxArg`
gets `MaxArg = -1`, and its check passes for every `nargs >= minArg`. -/
theorem precall_native_arity (host : Host) (s : State) (c : Int) (cl : Closure) (fn : Nat)
    (hcl : s.CallStack.Get c = some (.closure cl)) (hgo : cl.IsGo = true)
    (hfn : cl.Fn = some fn)
    (hroom : 0 ≤ s.CallInfos.sp + 1 ∧ s.CallInfos.sp + 1 < s.CallInfos.Len)
    (hsp : c ≤ s.CallStack.sp ∧ s.CallStack.sp < s.CallStack.Len) :
    ((cl.MinArg ≤ s.CallStack.sp - c ∧ (cl.MaxArg < 0 ∨ s.CallStack.sp - c ≤ cl.MaxArg)) →
      ∃ args, (s.precall host c).2.2 = [(fn, args)]) ∧
    (¬ (cl.MinArg ≤ s.CallStack.sp - c ∧ (cl.MaxArg < 0 ∨ s.CallStack.sp - c ≤ cl.MaxArg)) →
      (s.precall host c).2.2 = [] ∧
      ∃ err, (s.precall host c).1 = .fail err ∧ err.procName = some cl.FnName) ∧
    (∀ (st : State) (name : String) (minArg maxArg : Int) (f : Nat),
      0 ≤ minArg → maxArg < 0 →
      ∃ st1, st.RegisterFunc name minArg maxArg f = .ok st1 ∧
        st1.GetGlobal name = some (.closure (NewGoClosure name minArg (-1) f)) ∧
        ∀ n, minArg ≤ n → checkArgNumber name n minArg (-1) = none) := by
  obtain ⟨infos, args, _, _, _, heq⟩ := precall_native_eq host s c cl fn hcl hgo hfn hroom hsp
  obtain ⟨hiff, hname⟩ := checkArgNumber_spec cl.FnName (s.CallStack.sp - c) cl.MinArg cl.MaxArg
  refine ⟨?_, ?_, ?_⟩
  · intro hok
    rw [heq, hiff.mpr hok]
    simp only
    rcases host fn { s with CallInfos := infos, CallStack := s.CallStack.SetSp c } args
      with ⟨r, s3⟩
    cases r with
    | scmError msg => exact ⟨args, rfl⟩
    | otherError msg => exact ⟨args, rfl⟩
    | ok retval =>
      simp only
      cases s3.CallStack.Push retval with
      | none => exact ⟨args, rfl⟩
      | some stack =>
        simp only
        cases ({ s3 with CallStack := stack } : State).postcall stack.Sp with
        | none => exact ⟨args, rfl⟩
        | some s5 => exact ⟨args, rfl⟩
  · intro hbad
    cases hchk : checkArgNumber cl.FnName (s.CallStack.sp - c) cl.MinArg cl.MaxArg with
    | none => exact absurd (hiff.mp hchk) hbad
    | some err =>
      rw [heq, hchk]
      exact ⟨rfl, err, rfl, hname err hchk⟩
  · intro st name minArg maxArg f hmin hmax
    have h1 : ¬ minArg < 0 := by omega
    refine ⟨_, by simp only [State.RegisterFunc, h1, if_false, hmax, if_true]; rfl, ?_, ?_⟩
    · simp [State.GetGlobal, State.SetGlobal]
    · intro n hn
      exact (checkArgNumber_spec name n minArg (-1)).1.mpr ⟨hn, Or.inl (by omega)⟩

/-- A call of a native closure that returns normally had a host function to call,
room for one call-info, and its arguments on the stack. -/
theorem precall_native_inv (host : Host) (s : State) (c : Int) (cl : Closure) (ci : CallInfo)
    (hcl : s.CallStack.Get c = some (.closure cl)) (hgo : cl.IsGo = true)
    (hok : (s.precall host c).1 = .ret ci) :
    (∃ fn, cl.Fn = some fn) ∧
    (0 ≤ s.CallInfos.sp + 1 ∧ s.CallInfos.sp + 1 < s.CallInfos.Len) ∧
    (c ≤ s.CallStack.sp ∧ s.CallStack.sp < s.CallStack.Len) := by
  have hc := Stack.inRange_of_Get hcl
  simp only [State.precall, hcl, hgo, if_true] at hok
  cases hpush : s.CallInfos.Push (.callInfo ⟨cl, c + 1, c⟩) with
  | none => simp [hpush] at hok
  | some infos =>
    simp only [hpush] at hok
    cases hfn : cl.Fn with
    | none => simp [hfn] at hok
    | some fn =>
      simp only [hfn] at hok
      cases hpop : ({ s with CallInfos := infos } : State).popArgs (s.CallStack.Sp - c) with
      | none => simp [hpop] at hok
      | some r =>
        obtain ⟨args, s2⟩ := r
        obtain ⟨h0, _, _, hin, _⟩ := popArgs_spec hpop
        simp only [Stack.Sp] at h0 hin
        refine ⟨⟨fn, rfl⟩, (Stack.Push_spec hpush).2.2.2.2, by omega, ?_⟩
        by_cases hz : 0 < s.CallStack.sp - c
        · have := (hin hz).2
          simp only at this
          omega
        · have : s.CallStack.sp = c := by omega
          rw [this]
          exact hc.2

/-- The method `postcall` with the frame `ci` on top of the call-info stack. -/
theorem postcall_of_top (s : State) (r : Int) (ci : CallInfo) (hne : 0 ≤ s.CallInfos.sp)
    (htop : s.CallInfos.Get s.CallInfos.sp = some (.callInfo ci)) :
    s.postcall r =
      match s.CallStack.Get r with
      | some result =>
        match s.CallStack.Set ci.FuncSp result with
        | some stack =>
          some { s with CallInfos := s.CallInfos.SetSp (s.CallInfos.sp - 1),
                        CallStack := stack.SetSp ci.FuncSp }
        | none => none
      | none => none := by
  unfold State.postcall
  rw [Stack.Pop_of_top hne htop]

/-- C13: for every call of a native closure, on the stack at `c`, that returns
normally, with host functions that leave the call-info stack and the slots
below `c` as they find them and the stack pointer not below where they find
it: the host function was called once, when the
stack pointer was `c`, with the `n = Sp - c` values of the slots
`c + 1, ..., c + n` in this order, and returned a value; after `precall` slot
`c` holds this value, the stack pointer is `c`, every slot below `c` is as it
was, and the call-info stack has the cursor and the frames it had before. -/
theorem precall_native_spec (host : Host) (s : State) (c : Int) (cl : Closure)
    (ci : CallInfo)
    (hcl : s.CallStack.Get c = some (.closure cl)) (hgo : cl.IsGo = true)
    (hhost : ∀ fn st args, (host fn st args).2.CallInfos = st.CallInfos ∧
      st.CallStack.sp ≤ (host fn st args).2.CallStack.sp ∧
      ∀ j, j < c → (host fn st args).2.CallStack.Get j = st.CallStack.Get j)
    (hok : (s.precall host c).1 = .ret ci) :
    ∃ fn args retval st,
      cl.Fn = some fn ∧
      (s.precall host c).2.2 = [(fn, args)] ∧
      args.length = (s.CallStack.sp - c).toNat ∧
      (∀ i : Nat, i < (s.CallStack.sp - c).toNat → s.CallStack.Get (c + 1 + i) = args[i]?) ∧
      (host fn st args).1 = .ok retval ∧ st.CallStack = s.CallStack.SetSp c ∧
      (s.precall host c).2.1.CallStack.Get c = some retval ∧
      (s.precall host c).2.1.CallStack.sp = c ∧
      (∀ j, j < c → (s.precall host c).2.1.CallStack.Get j = s.CallStack.Get j) ∧
      (s.precall host c).2.1.CallInfos.sp = s.CallInfos.sp ∧
      (∀ j, j ≤ s.CallInfos.sp →
        (s.precall host c).2.1.CallInfos.Get j = s.CallInfos.Get j) ∧
      ci = ⟨cl, c + 1, c⟩ := by
  obtain ⟨⟨fn, hfn⟩, hroom, hsp⟩ := precall_native_inv host s c cl ci hcl hgo hok
  obtain ⟨infos, args, hinfos, hlen, hget, heq⟩ :=
    precall_native_eq host s c cl fn hcl hgo hfn hroom hsp
  obtain ⟨hi1, hi2, hi3, hi4, _⟩ := Stack.Push_spec hinfos
  rw [heq] at hok ⊢
  cases hchk : checkArgNumber cl.FnName (s.CallStack.sp - c) cl.MinArg cl.MaxArg with
  | some err => simp [hchk] at hok
  | none =>
    simp only [hchk] at hok ⊢
    obtain ⟨hq1, hq3, hq2⟩ :=
      hhost fn { s with CallInfos := infos, CallStack := s.CallStack.SetSp c } args
    rcases hh : host fn { s with CallInfos := infos, CallStack := s.CallStack.SetSp c } args
      with ⟨r, s3⟩
    rw [hh] at hq1 hq2 hq3 hok
    simp only [Stack.Get_SetSp, Stack.sp_SetSp] at hq1 hq2 hq3
    cases r with
    | scmError msg => simp at hok
    | otherError msg => simp at hok
    | ok retval =>
      simp only at hok ⊢
      cases hpush : s3.CallStack.Push retval with
      | none => simp [hpush] at hok
      | some stack =>
        simp only [hpush] at hok ⊢
        obtain ⟨hp1, hp2, hp3, hp4, hp5⟩ := Stack.Push_spec hpush
        have hpc := postcall_of_top ({ s3 with CallStack := stack } : State) stack.Sp
          ⟨cl, c + 1, c⟩ (by simp only [hq1]; omega)
          (by simp only [hq1]; rw [hi1]; exact hi3)
        simp only [Stack.Sp] at hpc hok ⊢
        rw [← hp1] at hp3
        rw [hp3] at hpc
        simp only at hpc
        cases hset : stack.Set c retval with
        | none =>
          rw [hset] at hpc
          simp [hpc] at hok
        | some stack2 =>
          rw [hset] at hpc
          simp only at hpc
          obtain ⟨hs1, _, hs3, hs4⟩ := Stack.Set_spec hset
          simp only [hpc, Run.ret.injEq] at hok ⊢
          refine ⟨fn, args, retval,
            { s with CallInfos := infos, CallStack := s.CallStack.SetSp c }, hfn, rfl, hlen,
            hget, by rw [hh], rfl, hs3, rfl, ?_, ?_, ?_, hok.symm⟩
          · intro j hj
            simp only [Stack.Get_SetSp]
            rw [hs4 j (by omega), hp4 j (by omega), hq2 j hj]
          · simp only [Stack.sp_SetSp, hq1]
            omega
          · intro j hj
            simp only [Stack.Get_SetSp, hq1]
            exact hi4 j (by omega)

/-! ## Calls of interpreted closures -/

/-- The last step of `precall` on an interpreted closure: the call-info is pushed. -/
theorem pushCallInfo_spec (s1 : State) (cl : Closure) (c : Int) {err : RuntimeError} :
    (match s1.CallInfos.Push (.callInfo ⟨cl, c + 1, c⟩) with
      | none => ((.crash, s1, []) : Run CallInfo × State × List HostCall)
      | some infos => (.ret ⟨cl, c + 1, c⟩, { s1 with CallInfos := infos }, [])).1 ≠
        .fail err := by
  cases s1.CallInfos.Push (.callInfo ⟨cl, c + 1, c⟩) <;> simp

/-- The call of an interpreted closure in Fixed mode. -/
theorem precall_fixed_eq (host : Host) (s : State) (c : Int) (cl : Closure)
    (hcl : s.CallStack.Get c = some (.closure cl)) (hgo : cl.IsGo = false)
    (hmode : cl.Proto.Mode = .FixedArgMode) :
    s.precall host c =
      if s.CallStack.sp - c ≠ cl.Proto.Args.length then
        (.fail .invalidNumberOfArguments, s, [])
      else
        match s.CallInfos.Push (.callInfo ⟨cl, c + 1, c⟩) with
        | none => (.crash, s, [])
        | some infos => (.ret ⟨cl, c + 1, c⟩, { s with CallInfos := infos }, []) := by
  simp only [State.precall, State.bindArgs, hcl, hgo, hmode, Stack.Sp]
  by_cases h : s.CallStack.sp - c = cl.Proto.Args.length
  · simp [h]
  · simp [h]

/-- C14: for an interpreted closure in Fixed mode, on the stack at `c` and called
with `nargs = Sp - c` arguments, `precall` returns an error if and only if
`nargs` differs from the number of formal parameters; it then leaves the whole
state as it was (no call-info pushed, value stack and stack pointer
unchanged). With the right number of arguments and room for one call-info it
returns the call-info it pushed and leaves the value stack as it was. -/
theorem precall_fixed_spec (host : Host) (s : State) (c : Int) (cl : Closure)
    (hcl : s.CallStack.Get c = some (.closure cl)) (hgo : cl.IsGo = false)
    (hmode : cl.Proto.Mode = .FixedArgMode) :
    ((∃ err, (s.precall host c).1 = .fail err) ↔
      s.CallStack.sp - c ≠ cl.Proto.Args.length) ∧
    (s.CallStack.sp - c ≠ cl.Proto.Args.length →
      s.precall host c = (.fail .invalidNumberOfArguments, s, [])) ∧
    (s.CallStack.sp - c = cl.Proto.Args.length →
      0 ≤ s.CallInfos.sp + 1 ∧ s.CallInfos.sp + 1 < s.CallInfos.Len →
      ∃ infos, s.CallInfos.Push (.callInfo ⟨cl, c + 1, c⟩) = some infos ∧
        s.precall host c = (.ret ⟨cl, c + 1, c⟩, { s with CallInfos := infos }, [])) := by
  have heq := precall_fixed_eq host s c cl hcl hgo hmode
  refine ⟨⟨?_, ?_⟩, ?_, ?_⟩
  · rintro ⟨err, herr⟩ hn
    rw [heq, if_neg (by simpa using hn)] at herr
    exact pushCallInfo_spec s cl c herr
  · intro hn
    rw [heq, if_pos hn]
    exact ⟨_, rfl⟩
  · intro hn
    rw [heq, if_pos hn]
  · intro hn hroom
    obtain ⟨infos, hinfos⟩ := Stack.Push_of_inRange s.CallInfos (.callInfo ⟨cl, c + 1, c⟩) hroom
    refine ⟨infos, hinfos, ?_⟩
    rw [heq, if_neg (by simpa using hn), hinfos]

/-- The call of an interpreted closure in Rest mode with fewer arguments than
formal parameters is refused. -/
theorem precall_rest_insufficient (host : Host) (s : State) (c : Int) (cl : Closure)
    (hcl : s.CallStack.Get c = some (.closure cl)) (hgo : cl.IsGo = false)
    (hmode : cl.Proto.Mode = .RestArgMode)
    (hn : s.CallStack.sp - c < cl.Proto.Args.length) :
    s.precall host c = (.fail .insufficientNumberOfArguments, s, []) := by
  simp [State.precall, State.bindArgs, hcl, hgo, hmode, Stack.Sp, hn]

/-- The closure of `stateCall` is in slot 0 and the stack pointer is the number of
arguments. -/
theorem stateCall_closure (cl : Closure) (args : List Value) :
    (stateCall cl args).CallStack.Get 0 = some (.closure cl) ∧
      (stateCall cl args).CallStack.sp = args.length := by
  simp [stateCall, Stack.Get, Stack.Len]
  omega

/-- C15 (the code at the failing inputs): a closure in Rest mode with `P = n + 1`
formal parameters, called with `nargs = n = P - 1` arguments, is refused with
the error "insufficient number of arguments" and the state is left as it was:
the guard of `precall` is `nargs < len(Args)`, so the least number of arguments
accepted is `P`, not `P - 1`, and the last formal is never bound to the empty
list. -/
theorem precall_rest_refuses_one_less :
    ∀ (host : Host) (n : Nat),
      (clRest (n + 1)).Proto.Mode = .RestArgMode ∧
      (clRest (n + 1)).Proto.Args.length = n + 1 ∧
      (stateCall (clRest (n + 1)) (List.replicate n val1)).CallStack.sp - 0 = n ∧
      (stateCall (clRest (n + 1)) (List.replicate n val1)).precall host 0 =
        (.fail .insufficientNumberOfArguments,
          stateCall (clRest (n + 1)) (List.replicate n val1), []) := by
  intro host n
  obtain ⟨h1, h2⟩ := stateCall_closure (clRest (n + 1)) (List.replicate n val1)
  have hlen : (clRest (n + 1)).Proto.Args.length = n + 1 := by
    simp [clRest, ClosureProto.Args]
  refine ⟨rfl, hlen, by rw [h2]; simp, ?_⟩
  apply precall_rest_insufficient host _ 0 _ h1 rfl rfl
  rw [h2, hlen]
  simp

/-- Arguments popped and pushed back as one list: the `k` values below the top are
read, lowest first, the stack pointer ends one above the slots that stay, the
list is in this slot, and every other slot is as it was. -/
theorem popArgs_Push_spec {s s1 : State} {k : Int} {args : List Value} {stack : Stack}
    (hpop : s.popArgs k = some (args, s1))
    (hpush : s1.CallStack.Push (mkValueList args) = some stack) :
    0 ≤ k ∧ args.length = k.toNat ∧
      (∀ i : Nat, i < k.toNat → s.CallStack.Get (s.CallStack.sp - k + 1 + i) = args[i]?) ∧
      stack.sp = s.CallStack.sp - k + 1 ∧
      stack.Get (s.CallStack.sp - k + 1) = some (mkValueList args) ∧
      (∀ j, j ≠ s.CallStack.sp - k + 1 → stack.Get j = s.CallStack.Get j) ∧
      s1.CallInfos = s.CallInfos := by
  obtain ⟨h0, rfl, hlen, _, hget⟩ := popArgs_spec hpop
  obtain ⟨hp1, _, hp3, hp4, _⟩ := Stack.Push_spec hpush
  simp only [Stack.sp_SetSp, Stack.Get_SetSp] at hp1 hp3 hp4
  exact ⟨h0, hlen, hget, hp1, hp3, hp4, rfl⟩

/-- C16: after every `precall` of an interpreted closure, on the stack at `c` and
called with `nargs = Sp - c` arguments, that returns normally: one call-info
has been pushed (the cursor of the call-info stack is one up, the new top is
the call-info returned, the frames below are as they were), with `Base = c + 1`
and `FuncSp = c`. In Fixed mode the value stack is unchanged. In Vararg mode
the stack pointer is `c + 1` and slot `c + 1` holds the list of the values of
the slots `c + 1, ..., c + nargs`, in this order. In Rest mode with `P` formal
parameters the stack pointer is `c + P` and slot `c + P` holds the list of the
values of the slots `c + P, ..., c + nargs`, in this order. In both modes every
other slot is as it was. -/
theorem precall_scm_spec (host : Host) (s : State) (c : Int) (cl : Closure) (ci : CallInfo)
    (hcl : s.CallStack.Get c = some (.closure cl)) (hgo : cl.IsGo = false)
    (hok : (s.precall host c).1 = .ret ci) :
    ci = ⟨cl, c + 1, c⟩ ∧ ci.Base = ci.FuncSp + 1 ∧
    (s.precall host c).2.1.CallInfos.sp = s.CallInfos.sp + 1 ∧
    (s.precall host c).2.1.CallInfos.Get (s.CallInfos.sp + 1) = some (.callInfo ci) ∧
    (∀ j, j ≠ s.CallInfos.sp + 1 →
      (s.precall host c).2.1.CallInfos.Get j = s.CallInfos.Get j) ∧
    (cl.Proto.Mode = .FixedArgMode →
      (s.precall host c).2.1.CallStack = s.CallStack ∧
      s.CallStack.sp - c = cl.Proto.Args.length) ∧
    (cl.Proto.Mode = .VArgMode →
      ∃ args, args.length = (s.CallStack.sp - c).toNat ∧
        (∀ i : Nat, i < (s.CallStack.sp - c).toNat →
          s.CallStack.Get (c + 1 + i) = args[i]?) ∧
        (s.precall host c).2.1.CallStack.sp = c + 1 ∧
        (s.precall host c).2.1.CallStack.Get (c + 1) = some (mkValueList args) ∧
        ∀ j, j ≠ c + 1 → (s.precall host c).2.1.CallStack.Get j = s.CallStack.Get j) ∧
    (cl.Proto.Mode = .RestArgMode →
      ∃ rest, rest.length = (s.CallStack.sp - c - cl.Proto.Args.length + 1).toNat ∧
        (∀ i : Nat, i < (s.CallStack.sp - c - cl.Proto.Args.length + 1).toNat →
          s.CallStack.Get (c + cl.Proto.Args.length + i) = rest[i]?) ∧
        (s.precall host c).2.1.CallStack.sp = c + cl.Proto.Args.length ∧
        (s.precall host c).2.1.CallStack.Get (c + cl.Proto.Args.length) =
          some (mkValueList rest) ∧
        ∀ j, j ≠ c + cl.Proto.Args.length →
          (s.precall host c).2.1.CallStack.Get j = s.CallStack.Get j) := by
  simp only [State.precall, hcl, hgo, Stack.Sp, Bool.false_eq_true, if_false] at hok ⊢
  rcases hb : s.bindArgs cl (s.CallStack.sp - c) with ⟨r, s1⟩
  rw [hb] at hok
  cases r with
  | fail err => simp at hok
  | crash => simp at hok
  | ret u =>
    simp only at hok ⊢
    cases hpush : s1.CallInfos.Push (.callInfo ⟨cl, c + 1, c⟩) with
    | none => simp [hpush] at hok
    | some infos =>
      simp only [hpush, Run.ret.injEq] at hok ⊢
      subst hok
      obtain ⟨hi1, _, hi3, hi4, _⟩ := Stack.Push_spec hpush
      have hmodes : s1.CallInfos = s.CallInfos ∧
          (cl.Proto.Mode = .FixedArgMode →
            s1.CallStack = s.CallStack ∧ s.CallStack.sp - c = cl.Proto.Args.length) ∧
          (cl.Proto.Mode = .VArgMode →
            ∃ args, args.length = (s.CallStack.sp - c).toNat ∧
              (∀ i : Nat, i < (s.CallStack.sp - c).toNat →
                s.CallStack.Get (c + 1 + i) = args[i]?) ∧
              s1.CallStack.sp = c + 1 ∧
              s1.CallStack.Get (c + 1) = some (mkValueList args) ∧
              ∀ j, j ≠ c + 1 → s1.CallStack.Get j = s.CallStack.Get j) ∧
          (cl.Proto.Mode = .RestArgMode →
            ∃ rest, rest.length = (s.CallStack.sp - c - cl.Proto.Args.length + 1).toNat ∧
              (∀ i : Nat, i < (s.CallStack.sp - c - cl.Proto.Args.length + 1).toNat →
                s.CallStack.Get (c + cl.Proto.Args.length + i) = rest[i]?) ∧
              s1.CallStack.sp = c + cl.Proto.Args.length ∧
              s1.CallStack.Get (c + cl.Proto.Args.length) = some (mkValueList rest) ∧
              ∀ j, j ≠ c + cl.Proto.Args.length →
                s1.CallStack.Get j = s.CallStack.Get j) := by
        unfold State.bindArgs at hb
        cases hm : cl.Proto.Mode with
        | FixedArgMode =>
          simp only [hm] at hb
          by_cases hn : s.CallStack.sp - c = cl.Proto.Args.length
          · simp only [hn, ne_eq, not_true_eq_false, if_false, Prod.mk.injEq, true_and] at hb
            subst hb
            exact ⟨rfl, fun _ => ⟨rfl, hn⟩, fun h => (by cases h), fun h => (by cases h)⟩
          · simp [hn] at hb
        | VArgMode =>
          simp only [hm] at hb
          cases hpop : s.popArgs (s.CallStack.sp - c) with
          | none => simp [hpop] at hb
          | some r =>
            obtain ⟨args, s2⟩ := r
            simp only [hpop] at hb
            cases hps : s2.CallStack.Push (mkValueList args) with
            | none => simp [hps] at hb
            | some stack =>
              simp only [hps, Prod.mk.injEq, true_and] at hb
              subst hb
              obtain ⟨_, q1, q2, q3, q4, q5, q6⟩ := popArgs_Push_spec hpop hps
              have e : s.CallStack.sp - (s.CallStack.sp - c) + 1 = c + 1 := by omega
              rw [e] at q3 q4 q5
              refine ⟨q6, fun h => (by cases h), fun _ => ⟨args, q1, ?_, q3, q4, q5⟩,
                fun h => (by cases h)⟩
              intro i hi
              rw [← q2 i hi, e]
        | RestArgMode =>
          simp only [hm] at hb
          by_cases hn : s.CallStack.sp - c < cl.Proto.Args.length
          · simp [hn] at hb
          · simp only [hn, if_false] at hb
            cases hpop : s.popArgs (s.CallStack.sp - c - cl.Proto.Args.length + 1) with
            | none => simp [hpop] at hb
            | some r =>
              obtain ⟨rest, s2⟩ := r
              simp only [hpop] at hb
              cases hps : s2.CallStack.Push (mkValueList rest) with
              | none => simp [hps] at hb
              | some stack =>
                simp only [hps, Prod.mk.injEq, true_and] at hb
                subst hb
                obtain ⟨_, q1, q2, q3, q4, q5, q6⟩ := popArgs_Push_spec hpop hps
                have e : s.CallStack.sp - (s.CallStack.sp - c - cl.Proto.Args.length + 1) + 1
                    = c + cl.Proto.Args.length := by omega
                rw [e] at q3 q4 q5
                refine ⟨q6, fun h => (by cases h), fun h => (by cases h),
                  fun _ => ⟨rest, q1, ?_, q3, q4, q5⟩⟩
                intro i hi
                rw [← q2 i hi, e]
      obtain ⟨hinf, hmF, hmV, hmR⟩ := hmodes
      rw [hinf] at hi1 hi3 hi4
      exact ⟨rfl, rfl, hi1, hi3, hi4, hmF, hmV, hmR⟩

/-! ## Open upvalues -/

/-- In a chain that is strictly ascending by index an index names one entry. -/
theorem upvalue_unique : ∀ (l : List UpValue),
    l.Pairwise (fun x y => x.Index < y.Index) →
    ∀ x ∈ l, ∀ y ∈ l, x.Index = y.Index → x = y
  | [], _, x, hx, _, _, _ => by cases hx
  | e :: l, h, x, hx, y, hy, hxy => by
    rw [List.pairwise_cons] at h
    rcases List.mem_cons.mp hx with hxe | hxl
    · rcases List.mem_cons.mp hy with hye | hyl
      · rw [hxe, hye]
      · have := h.1 y hyl
        rw [hxe] at hxy
        omega
    · rcases List.mem_cons.mp hy with hye | hyl
      · have := h.1 x hxl
        rw [hye] at hxy
        omega
      · exact upvalue_unique l h.2 x hxl y hyl hxy

/-- The walk of `findUpValue` over a chain: either it meets an entry with the index
looked for and leaves the chain as it is, or it links the new entry in after
the entries with a smaller index, before an entry with a greater one. -/
theorem findUpValueLoop_cases (level : Int) (uv : UpValue) :
    ∀ l : List UpValue,
      (∃ cur, findUpValueLoop level uv l = (some cur, l) ∧ cur ∈ l ∧ cur.Index = level) ∨
      (∃ pre post, l = pre ++ post ∧ findUpValueLoop level uv l = (none, pre ++ uv :: post) ∧
        (∀ e ∈ pre, e.Index < level) ∧ ∀ e, post.head? = some e → level < e.Index)
  | [] => Or.inr ⟨[], [], rfl, rfl, by simp, by simp⟩
  | cur :: rest => by
    unfold findUpValueLoop
    by_cases h1 : cur.Index = level
    · exact Or.inl ⟨cur, by simp [h1], List.mem_cons_self _ _, h1⟩
    · by_cases h2 : cur.Index > level
      · refine Or.inr ⟨[], cur :: rest, rfl, by simp [h1, h2], by simp, ?_⟩
        intro e he
        simp only [List.head?_cons, Option.some.injEq] at he
        subst he
        exact h2
      · rcases findUpValueLoop_cases level uv rest with ⟨c, hc, hmem, hidx⟩ |
          ⟨pre, post, hl, hc, hpre, hpost⟩
        · exact Or.inl ⟨c, by simp [h1, h2, hc], List.mem_cons_of_mem _ hmem, hidx⟩
        · refine Or.inr ⟨cur :: pre, post, by simp [hl], by simp [h1, h2, hc], ?_, hpost⟩
          intro e he
          rcases List.mem_cons.mp he with rfl | he
          · omega
          · exact hpre e he

/-- C18: for every chain of open upvalues that is strictly ascending by index and
every stack index `k`, `findUpValue(k)` returns an open entry with `Index = k`
that belongs to the resulting chain; the resulting chain is strictly ascending;
when an old entry has index `k` the state is left as it is, and otherwise the
chain holds exactly the old entries, in their order, and the one new entry (at
the address just allocated); and a second `findUpValue(k)` returns the very
same entry and leaves the state unchanged. -/
theorem findUpValue_spec (s : State) (k : Int)
    (hasc : s.uvhead.Pairwise (fun x y => x.Index < y.Index))
    (hopen : ∀ uv ∈ s.uvhead, uv.Closed = false) :
    (s.findUpValue k).1.Index = k ∧ (s.findUpValue k).1.Closed = false ∧
    (s.findUpValue k).1 ∈ (s.findUpValue k).2.uvhead ∧
    (s.findUpValue k).2.uvhead.Pairwise (fun x y => x.Index < y.Index) ∧
    ((∃ uv ∈ s.uvhead, uv.Index = k) → (s.findUpValue k).2 = s) ∧
    ((∀ uv ∈ s.uvhead, uv.Index ≠ k) →
      (s.findUpValue k).1.addr = s.nextAddr ∧
      s.uvhead.Sublist (s.findUpValue k).2.uvhead ∧
      ∀ uv, uv ∈ (s.findUpValue k).2.uvhead ↔ uv = (s.findUpValue k).1 ∨ uv ∈ s.uvhead) ∧
    (s.findUpValue k).2.findUpValue k = ((s.findUpValue k).1, (s.findUpValue k).2) := by
  have hfound : ∀ (st : State) (cur : UpValue),
      findUpValueLoop k ⟨st.nextAddr, k, false, .null⟩ st.uvhead = (some cur, st.uvhead) →
      st.findUpValue k = (cur, st) := by
    intro st cur h
    simp only [State.findUpValue, h]
  rcases findUpValueLoop_cases k ⟨s.nextAddr, k, false, .null⟩ s.uvhead with
    ⟨cur, hc, hmem, hidx⟩ | ⟨pre, post, hl, hc, hpre, hpost⟩
  · have e := hfound s cur hc
    rw [e]
    refine ⟨hidx, hopen cur hmem, hmem, hasc, fun _ => rfl, ?_, e⟩
    intro hno
    exact absurd hidx (hno cur hmem)
  · have hfu : s.findUpValue k = (⟨s.nextAddr, k, false, .null⟩,
        { s with uvhead := pre ++ ⟨s.nextAddr, k, false, .null⟩ :: post,
                 nextAddr := s.nextAddr + 1 }) := by
      simp only [State.findUpValue, hc]
    rw [hl, List.pairwise_append] at hasc
    obtain ⟨hp1, hp2, hp3⟩ := hasc
    have hpostgt : ∀ e ∈ post, k < e.Index := by
      intro e he
      cases post with
      | nil => cases he
      | cons p ps =>
        have hk := hpost p rfl
        rcases List.mem_cons.mp he with rfl | he
        · exact hk
        · have := (List.pairwise_cons.mp hp2).1 e he
          omega
    have hsorted : (pre ++ (⟨s.nextAddr, k, false, .null⟩ : UpValue) :: post).Pairwise
        (fun x y => x.Index < y.Index) := by
      rw [List.pairwise_append, List.pairwise_cons]
      refine ⟨hp1, ⟨fun e he => hpostgt e he, hp2⟩, ?_⟩
      intro a ha b hb
      rcases List.mem_cons.mp hb with rfl | hb
      · exact hpre a ha
      · exact hp3 a ha b hb
    rw [hfu]
    refine ⟨rfl, rfl, by simp, hsorted, ?_, ?_, ?_⟩
    · rintro ⟨uv, huv, hk⟩
      rw [hl] at huv
      rcases List.mem_append.mp huv with h | h
      · have := hpre uv h
        omega
      · have := hpostgt uv h
        omega
    · intro _
      refine ⟨rfl, ?_, ?_⟩
      · rw [hl]
        exact List.Sublist.append (List.Sublist.refl pre) (List.sublist_cons_self _ post)
      · intro uv
        simp only [hl, List.mem_append, List.mem_cons]
        tauto
    · rcases findUpValueLoop_cases k ⟨s.nextAddr + 1, k, false, .null⟩
          (pre ++ (⟨s.nextAddr, k, false, .null⟩ : UpValue) :: post) with
        ⟨cur, hc2, hmem2, hidx2⟩ | ⟨pre2, post2, hl2, _, hpre2, hpost2⟩
      · have hsame := upvalue_unique _ hsorted cur hmem2 ⟨s.nextAddr, k, false, .null⟩
          (by simp) hidx2
        rw [hsame] at hc2
        exact hfound { s with uvhead := pre ++ ⟨s.nextAddr, k, false, .null⟩ :: post,
                              nextAddr := s.nextAddr + 1 } _ hc2
      · exfalso
        have hin : (⟨s.nextAddr, k, false, .null⟩ : UpValue) ∈ pre2 ++ post2 := by
          rw [← hl2]
          simp
        rcases List.mem_append.mp hin with h | h
        · have := hpre2 _ h
          simp at this
        · cases post2 with
          | nil => cases h
          | cons p ps =>
            have hk := hpost2 p rfl
            rw [hl2, List.pairwise_append] at hsorted
            rcases List.mem_cons.mp h with rfl | h
            · simp at hk
            · have := (List.pairwise_cons.mp hsorted.2.1).1 _ h
              simp only at this
              omega

/-- The walk of `closeUpValues` after the cut, over entries that are all at or
above the base: nothing stays linked and every entry is closed, in order. -/
theorem closeUpValuesLoop_all (idx : Int) (stack : Stack) :
    ∀ (l : List UpValue) (attached : Bool),
      (∀ uv ∈ l, idx ≤ uv.Index ∧ 0 ≤ uv.Index ∧ uv.Index < stack.Len) →
      ∃ closed, closeUpValuesLoop idx stack l attached = some ([], closed) ∧
        closed.map some = l.map (fun uv => uv.Close stack)
  | [], _, _ => ⟨[], rfl, rfl⟩
  | uv :: rest, attached, h => by
    obtain ⟨hge, hr⟩ := h uv (List.mem_cons_self _ _)
    obtain ⟨closed, hc, hmap⟩ := closeUpValuesLoop_all idx stack rest false
      (fun x hx => h x (List.mem_cons_of_mem _ hx))
    obtain ⟨v, hv⟩ := stack.Get_of_inRange uv.Index hr
    have hclose : uv.Close stack = some { uv with Closed := true, Value := v } := by
      simp [UpValue.Close, hv]
    refine ⟨{ uv with Closed := true, Value := v } :: closed, ?_, ?_⟩
    · unfold closeUpValuesLoop
      have : uv.Index ≥ idx := hge
      simp only [this, if_true, hclose, hc]
    · simp [hclose, hmap]

/-- The walk of `closeUpValues` over an ascending chain, from its head: the entries
below the base stay, the others are closed, in order. -/
theorem closeUpValuesLoop_sorted (idx : Int) (stack : Stack) :
    ∀ l : List UpValue, l.Pairwise (fun x y => x.Index ≤ y.Index) →
      (∀ uv ∈ l, 0 ≤ uv.Index ∧ uv.Index < stack.Len) →
      ∃ closed, closeUpValuesLoop idx stack l true =
          some (l.filter (fun uv => decide (uv.Index < idx)), closed) ∧
        closed.map some =
          (l.filter (fun uv => decide (idx ≤ uv.Index))).map (fun uv => uv.Close stack)
  | [], _, _ => ⟨[], rfl, rfl⟩
  | uv :: rest, hs, h => by
    rw [List.pairwise_cons] at hs
    by_cases hge : uv.Index ≥ idx
    · have hall : ∀ x ∈ uv :: rest, idx ≤ x.Index ∧ 0 ≤ x.Index ∧ x.Index < stack.Len := by
        intro x hx
        refine ⟨?_, h x hx⟩
        rcases List.mem_cons.mp hx with rfl | hx
        · exact hge
        · have := hs.1 x hx
          omega
      obtain ⟨closed, hc, hmap⟩ := closeUpValuesLoop_all idx stack (uv :: rest) true hall
      refine ⟨closed, ?_, ?_⟩
      · rw [hc]
        have : (uv :: rest).filter (fun uv => decide (uv.Index < idx)) = [] := by
          rw [List.filter_eq_nil_iff]
          intro x hx
          have := (hall x hx).1
          simp only [decide_eq_true_eq]
          omega
        rw [this]
      · rw [hmap]
        have : (uv :: rest).filter (fun uv => decide (idx ≤ uv.Index)) = uv :: rest := by
          rw [List.filter_eq_self]
          intro x hx
          simpa using (hall x hx).1
        rw [this]
    · obtain ⟨closed, hc, hmap⟩ := closeUpValuesLoop_sorted idx stack rest hs.2
        (fun x hx => h x (List.mem_cons_of_mem _ hx))
      have hlt : uv.Index < idx := by omega
      have hnle : ¬ idx ≤ uv.Index := by omega
      refine ⟨closed, ?_, ?_⟩
      · unfold closeUpValuesLoop
        simp only [hge, if_false, hc, if_true]
        simp [List.filter_cons, hlt]
      · rw [hmap]
        simp [List.filter_cons, hnle]

/-- C19: for every chain of open upvalues that is ascending by index, with the
captured slots inside the stack, and every base index `b`, `closeUpValues(b)`
does not panic; afterwards the chain holds exactly the old entries with
`Index < b`, in their old order, and the entries closed by this call are the
old entries with `Index >= b`, each one once and in their old order, each one
closed by `Close` on the value stack (marked closed, its value copied from its
stack slot); the value stack is as it was. -/
theorem closeUpValues_spec (s : State) (b : Int)
    (hasc : s.uvhead.Pairwise (fun x y => x.Index ≤ y.Index))
    (hin : ∀ uv ∈ s.uvhead, 0 ≤ uv.Index ∧ uv.Index < s.CallStack.Len) :
    ∃ s1 closed, s.closeUpValues b = some s1 ∧
      s1.uvhead = s.uvhead.filter (fun uv => decide (uv.Index < b)) ∧
      s1.closedLog = s.closedLog ++ closed ∧
      closed.map some =
        (s.uvhead.filter (fun uv => decide (b ≤ uv.Index))).map
          (fun uv => uv.Close s.CallStack) ∧
      (∀ uv v, uv ∈ s.uvhead → s.CallStack.Get uv.Index = some v →
        uv.Close s.CallStack = some { uv with Closed := true, Value := v }) ∧
      s1.CallStack = s.CallStack ∧ s1.CallInfos = s.CallInfos := by
  obtain ⟨closed, hc, hmap⟩ := closeUpValuesLoop_sorted b s.CallStack s.uvhead hasc hin
  refine ⟨{ s with uvhead := s.uvhead.filter (fun uv => decide (uv.Index < b)),
                   closedLog := s.closedLog ++ closed }, closed,
    by simp only [State.closeUpValues, hc], rfl, rfl, hmap, ?_, rfl, rfl⟩
  intro uv v _ hv
  simp [UpValue.Close, hv]

/-! ## The theorems at sample states -/

/-- Witness for C12: the native procedure `f`, of one or two arguments, is called
with one argument and refused without any. -/
theorem precall_native_arity_witness :
    (∃ args, ((stateCall clNative [val1]).precall hostFirst 0).2.2 = [(0, args)]) ∧
    (((stateCall clNative []).precall hostFirst 0).2.2 = [] ∧
      ∃ err, ((stateCall clNative []).precall hostFirst 0).1 = .fail err ∧
        err.procName = some clNative.FnName) :=
  ⟨(precall_native_arity hostFirst (stateCall clNative [val1]) 0 clNative 0
      (stateCall_closure _ _).1 rfl rfl (by decide) (by decide)).1 (by decide),
    (precall_native_arity hostFirst (stateCall clNative []) 0 clNative 0
      (stateCall_closure _ _).1 rfl rfl (by decide) (by decide)).2.1 (by decide)⟩

/-- Witness for C13: the native procedure `f` called with the argument `1`, its host
function returning its first argument. -/
theorem precall_native_spec_witness :
    ∃ fn args retval st,
      clNative.Fn = some fn ∧
      ((stateCall clNative [val1]).precall hostFirst 0).2.2 = [(fn, args)] ∧
      args.length = ((stateCall clNative [val1]).CallStack.sp - 0).toNat ∧
      (∀ i : Nat, i < ((stateCall clNative [val1]).CallStack.sp - 0).toNat →
        (stateCall clNative [val1]).CallStack.Get (0 + 1 + i) = args[i]?) ∧
      (hostFirst fn st args).1 = .ok retval ∧
      st.CallStack = (stateCall clNative [val1]).CallStack.SetSp 0 ∧
      ((stateCall clNative [val1]).precall hostFirst 0).2.1.CallStack.Get 0 = some retval ∧
      ((stateCall clNative [val1]).precall hostFirst 0).2.1.CallStack.sp = 0 ∧
      (∀ j, j < 0 → ((stateCall clNative [val1]).precall hostFirst 0).2.1.CallStack.Get j =
        (stateCall clNative [val1]).CallStack.Get j) ∧
      ((stateCall clNative [val1]).precall hostFirst 0).2.1.CallInfos.sp =
        (stateCall clNative [val1]).CallInfos.sp ∧
      (∀ j, j ≤ (stateCall clNative [val1]).CallInfos.sp →
        ((stateCall clNative [val1]).precall hostFirst 0).2.1.CallInfos.Get j =
          (stateCall clNative [val1]).CallInfos.Get j) ∧
      (⟨clNative, 1, 0⟩ : CallInfo) = ⟨clNative, 0 + 1, 0⟩ :=
  precall_native_spec hostFirst (stateCall clNative [val1]) 0 clNative ⟨clNative, 1, 0⟩
    (stateCall_closure _ _).1 rfl (fun _ st _ => ⟨rfl, Int.le_refl st.CallStack.sp,
      fun _ _ => rfl⟩) rfl

/-- Witness for C14: the closure of two formal parameters is refused with one
argument and accepted with two. -/
theorem precall_fixed_spec_witness :
    (stateCall clFixed2 [val1]).precall hostFirst 0 =
      (.fail .invalidNumberOfArguments, stateCall clFixed2 [val1], []) ∧
    ∃ infos, (stateCall clFixed2 [val1, val2]).CallInfos.Push
        (.callInfo ⟨clFixed2, 0 + 1, 0⟩) = some infos ∧
      (stateCall clFixed2 [val1, val2]).precall hostFirst 0 =
        (.ret ⟨clFixed2, 0 + 1, 0⟩,
          { stateCall clFixed2 [val1, val2] with CallInfos := infos }, []) :=
  ⟨(precall_fixed_spec hostFirst (stateCall clFixed2 [val1]) 0 clFixed2
      (stateCall_closure _ _).1 rfl rfl).2.1 (by decide),
    (precall_fixed_spec hostFirst (stateCall clFixed2 [val1, val2]) 0 clFixed2
      (stateCall_closure _ _).1 rfl rfl).2.2 (by decide) (by decide)⟩

/-- Witness for C16: the Vararg closure called with the arguments `1` and `2`. -/
theorem precall_scm_spec_witness :
    ((stateCall clVArg [val1, val2]).precall hostFirst 0).2.1.CallInfos.sp =
      (stateCall clVArg [val1, val2]).CallInfos.sp + 1 ∧
    ∃ args, args.length = ((stateCall clVArg [val1, val2]).CallStack.sp - 0).toNat ∧
      (∀ i : Nat, i < ((stateCall clVArg [val1, val2]).CallStack.sp - 0).toNat →
        (stateCall clVArg [val1, val2]).CallStack.Get (0 + 1 + i) = args[i]?) ∧
      ((stateCall clVArg [val1, val2]).precall hostFirst 0).2.1.CallStack.sp = 0 + 1 ∧
      ((stateCall clVArg [val1, val2]).precall hostFirst 0).2.1.CallStack.Get (0 + 1) =
        some (mkValueList args) ∧
      ∀ j, j ≠ 0 + 1 →
        ((stateCall clVArg [val1, val2]).precall hostFirst 0).2.1.CallStack.Get j =
          (stateCall clVArg [val1, val2]).CallStack.Get j :=
  ⟨(precall_scm_spec hostFirst (stateCall clVArg [val1, val2]) 0 clVArg ⟨clVArg, 1, 0⟩
      (stateCall_closure _ _).1 rfl rfl).2.2.1,
    (precall_scm_spec hostFirst (stateCall clVArg [val1, val2]) 0 clVArg ⟨clVArg, 1, 0⟩
      (stateCall_closure _ _).1 rfl rfl).2.2.2.2.2.2.1 rfl⟩

/-- Witness for C17: the return of the value in slot 2 from the frame whose
closure is in slot 0. -/
theorem postcall_spec_witness :
    ∃ s1 result, stateFrame.postcall 2 = some s1 ∧
      stateFrame.CallStack.Get 2 = some result ∧
      s1.CallInfos.sp = stateFrame.CallInfos.sp - 1 ∧
      (∀ j, j < stateFrame.CallInfos.sp → s1.CallInfos.Get j = stateFrame.CallInfos.Get j) ∧
      s1.CallStack.Get 0 = some result ∧
      s1.CallStack.sp = 0 ∧
      (∀ j, j ≠ 0 → s1.CallStack.Get j = stateFrame.CallStack.Get j) ∧
      s1.CallStack.Len = stateFrame.CallStack.Len ∧
      s1.uvhead = stateFrame.uvhead ∧ s1.Global = stateFrame.Global :=
  postcall_spec stateFrame 2 ⟨clFixed2, 1, 0⟩ (by decide) rfl (by decide) (by decide)

/-- Witness for C18: the capture of slot 2 between the open upvalues of the slots
1 and 3. -/
theorem findUpValue_spec_witness :
    (stateUpValues.findUpValue 2).1.Index = 2 ∧
    (stateUpValues.findUpValue 2).1 ∈ (stateUpValues.findUpValue 2).2.uvhead ∧
    (stateUpValues.findUpValue 2).2.uvhead.Pairwise (fun x y => x.Index < y.Index) ∧
    (stateUpValues.findUpValue 2).2.findUpValue 2 =
      ((stateUpValues.findUpValue 2).1, (stateUpValues.findUpValue 2).2) :=
  have h := findUpValue_spec stateUpValues 2
    (by simp [stateUpValues]) (by simp [stateUpValues])
  ⟨h.1, h.2.2.1, h.2.2.2.1, h.2.2.2.2.2.2⟩

/-- Witness for C19: the frame with base 2 unwinds under the open upvalues of the
slots 1 and 3. -/
theorem closeUpValues_spec_witness :
    ∃ s1 closed, stateUpValues.closeUpValues 2 = some s1 ∧
      s1.uvhead = stateUpValues.uvhead.filter (fun uv => decide (uv.Index < 2)) ∧
      s1.closedLog = stateUpValues.closedLog ++ closed ∧
      closed.map some =
        (stateUpValues.uvhead.filter (fun uv => decide (2 ≤ uv.Index))).map
          (fun uv => uv.Close stateUpValues.CallStack) ∧
      (∀ uv v, uv ∈ stateUpValues.uvhead → stateUpValues.CallStack.Get uv.Index = some v →
        uv.Close stateUpValues.CallStack = some { uv with Closed := true, Value := v }) ∧
      s1.CallStack = stateUpValues.CallStack ∧ s1.CallInfos = stateUpValues.CallInfos :=
  closeUpValues_spec stateUpValues 2 (by simp [stateUpValues])
    (by simp [stateUpValues, Stack.Len])

/-! ## The empty program, and the state after a refused native call -/

/-- C22 (the code at the failing input): for the empty list of top-level forms
`compileObjects` returns the empty list of registers and no error, and `Compile`
then reads `regs[len(regs)-1]`, the index `-1` of an empty slice: it panics,
and returns neither a closure nor an error. (`compileBegin`, which ends with the
same expression, refuses the empty `begin` before it gets there.) -/
theorem Compile_empty_panics :
    (compileObjects compileObject (newFuncState none) []).1 = .ret [] ∧
    Compile [] = .crash ∧
    (compileBegin compileObject (newFuncState none) (.symbol "begin") .nil).1 =
      .fail (.invalidBegin (mkList [.symbol "begin"])) := by
  refine ⟨by decide, rfl, by decide⟩

/-- C23 (the code at the failing inputs): the native procedure `f`, of one or two
arguments, is called with three arguments, and with none. In both calls
`precall` returns the arity error without calling the host function, and the
state it leaves is not the state it was given: the call-info pushed before the
check is still on the call-info stack (cursor 0 where it was -1), and in the
first call `popArgs`, also run before the check, has moved the stack pointer
from 3 down to 0. -/
theorem precall_arity_error_leaves_frame :
    (stateCall clNative [val1, val1, val1]).CallInfos.sp = -1 ∧
    (stateCall clNative [val1, val1, val1]).CallStack.sp = 3 ∧
    (∀ host : Host,
      ((stateCall clNative [val1, val1, val1]).precall host 0).1 =
        .fail (.tooManyArguments "f" 2 3) ∧
      ((stateCall clNative [val1, val1, val1]).precall host 0).2.2 = [] ∧
      ((stateCall clNative [val1, val1, val1]).precall host 0).2.1.CallInfos.sp = 0 ∧
      ((stateCall clNative [val1, val1, val1]).precall host 0).2.1.CallInfos.Get 0 =
        some (.callInfo ⟨clNative, 1, 0⟩) ∧
      ((stateCall clNative [val1, val1, val1]).precall host 0).2.1.CallStack.sp = 0) ∧
    (∀ host : Host,
      ((stateCall clNative []).precall host 0).1 = .fail (.tooFewArguments "f" 1 0) ∧
      (stateCall clNative []).CallInfos.sp = -1 ∧
      ((stateCall clNative []).precall host 0).2.1.CallInfos.sp = 0) := by
  refine ⟨rfl, rfl, fun host => ⟨rfl, rfl, rfl, rfl, rfl⟩, fun host => ⟨rfl, rfl, rfl⟩⟩

/-! ## The parameters of a lambda -/

theorem bindLocVar_findLocVar_ne (fs : funcState) (sym k : String) (h : k ≠ sym) :
    (fs.bindLocVar sym).findLocVar k = fs.findLocVar k := by
  cases fs
  simp [funcState.bindLocVar, funcState.findLocVar, funcState.locVars, h]

theorem bindLocVar_Proto (fs : funcState) (sym : String) :
    (fs.bindLocVar sym).Proto = fs.Proto := by
  cases fs; rfl

theorem bindLocVar_prev (fs : funcState) (sym : String) :
    (fs.bindLocVar sym).prev = fs.prev := by
  cases fs; rfl

/-- A local is compiled to its register, with nothing emitted. -/
theorem compileSymbol_local (fs : funcState) (sym : String) (loc : locVar)
    (h : fs.findLocVar sym = some loc) :
    compileSymbol fs sym = (.ret (some ⟨loc.Index⟩), fs) := by
  unfold compileSymbol
  rw [getVarType_eq, h]

/-- The loop `for _, arg := range child.Proto.Args { child.bindLocVar(arg) }`: the
counter grows by the number of parameters, prototype and enclosing state stay,
names that are not parameters keep their binding, and pairwise distinct
parameters are bound, in order, to the registers from the old counter on. -/
theorem foldl_bindLocVar_spec : ∀ (ps : List String) (st : funcState),
    (ps.foldl (fun child arg => child.bindLocVar arg) st).nreg = st.nreg + ps.length ∧
    (ps.foldl (fun child arg => child.bindLocVar arg) st).Proto = st.Proto ∧
    (ps.foldl (fun child arg => child.bindLocVar arg) st).prev = st.prev ∧
    (∀ k, k ∉ ps →
      (ps.foldl (fun child arg => child.bindLocVar arg) st).findLocVar k = st.findLocVar k) ∧
    (ps.Nodup → ∀ (i : Nat) (h : i < ps.length),
      (ps.foldl (fun child arg => child.bindLocVar arg) st).findLocVar (ps.get ⟨i, h⟩) =
        some ⟨ps.get ⟨i, h⟩, st.nreg + i⟩)
  | [], st => ⟨rfl, rfl, rfl, fun _ _ => rfl, fun _ i h => absurd h (Nat.not_lt_zero i)⟩
  | p :: ps, st => by
    obtain ⟨h1, h2, h3, h4, h5⟩ := foldl_bindLocVar_spec ps (st.bindLocVar p)
    simp only [List.foldl_cons]
    refine ⟨?_, ?_, ?_, ?_, ?_⟩
    · rw [h1, bindLocVar_nreg, List.length_cons]
      omega
    · rw [h2, bindLocVar_Proto]
    · rw [h3, bindLocVar_prev]
    · intro k hk
      rw [List.mem_cons, not_or] at hk
      rw [h4 k hk.2, bindLocVar_findLocVar_ne st p k hk.1]
    · intro hnd i h
      rw [List.nodup_cons] at hnd
      cases i with
      | zero =>
        simp only [List.get_eq_getElem, List.getElem_cons_zero]
        rw [h4 p hnd.1, bindLocVar_findLocVar]
        rfl
      | succ j =>
        have hj : j < ps.length := by
          simp only [List.length_cons] at h
          omega
        have := h5 hnd.2 j hj
        simp only [List.get_eq_getElem, List.getElem_cons_succ] at this ⊢
        rw [this, bindLocVar_nreg]
        congr 2
        omega

theorem setArgs_fields (fs : funcState) (args : List String) :
    (fs.setArgs args).nreg = fs.nreg ∧ (fs.setArgs args).prev = fs.prev ∧
    (fs.setArgs args).Insts = fs.Insts ∧ (fs.setArgs args).Proto.Args = args ∧
    (fs.setArgs args).Proto.Protos = fs.Proto.Protos ∧
    (fs.setArgs args).Consts = fs.Consts ∧
    ∀ k, (fs.setArgs args).findLocVar k = fs.findLocVar k := by
  obtain ⟨⟨_, _, _, _, _⟩, _, _, _, _, _⟩ := fs
  exact ⟨rfl, rfl, rfl, rfl, rfl, rfl, fun _ => rfl⟩

theorem symbolNames_map : ∀ ps : List String, symbolNames (ps.map Object.symbol) = some ps
  | [] => rfl
  | p :: ps => by simp [symbolNames, symbolNames_map ps]

theorem isSlicable_mkList (xs : List Object) : isSlicable (mkList xs) = true := by
  cases xs <;> rfl

/-- The method `compileLambda` on a lambda form with a list of parameter symbols
and a body: the first body expression is compiled in the child state and the
closure is made in the enclosing state. -/
theorem compileLambda_form (co : CompileFn) (fs : funcState) (params : List String)
    (body : Object) (more : List Object) :
    compileLambda co fs (.symbol "lambda")
        (mkList (mkList (params.map Object.symbol) :: body :: more)) =
      match co (lambdaChild fs params) body with
      | (.ret (some resultR), child1) =>
        (.ret (some ⟨fs.nreg⟩),
          (fs.appendProto (child1.addABC .OP_RETURN resultR.N 2 0).Proto).newReg.2.addABx
            .OP_CLOSURE fs.nreg fs.Proto.Protos.length)
      | (.ret none, _) => (.crash, fs)
      | (.fail e, _) => (.fail e, fs)
      | (.crash, _) => (.crash, fs)
      | (.outOfFuel, _) => (.outOfFuel, fs) := by
  have hlen : ¬ Len (Object.pair (.symbol "lambda")
      (Object.pair (mkList (params.map Object.symbol)) (Object.pair body (mkList more)))) < 3 := by
    simp only [Len]
    omega
  simp only [mkList, compileLambda, hlen, if_false, Cdar, Cddr, Cdr, Car,
    isSlicable_mkList, Slice_mkList, symbolNames_map, Bool.not_true, Bool.false_eq_true,
    newReg_fst, appendProto_nreg]

/-- The form `(lambda (p0 ... p(n-1)) body ...)` is compiled by `compileLambda`. -/
theorem compileObject_lambda (fs : funcState) (rest : List Object) :
    compileObject fs (mkList (.symbol "lambda" :: rest)) =
      compileLambda compileObject fs (.symbol "lambda") (mkList rest) := by
  rw [mkList, compileObject_pair, compilePair]
  have h1 : ¬ Len (Object.pair (.symbol "lambda") (mkList rest)) = 0 := by simp [Len]
  simp [h1, isSlicable_mkList]

/-- C21: for every lambda form whose parameter list is `p0 ... p(n-1)` with pairwise
distinct names: the child function state, in which the body is compiled, binds
`pi` to register `i`; a reference to `pi`, in this state and in every state
that compiling in it leads to, is compiled to register `i` with the state left
as it is (no instruction); the counter of the child is `n`, so the first
register the body is given is `n`; and when the body compiles, the enclosing
function is returned its next register, gains exactly one nested prototype,
the child's, at the end of its list, and exactly one instruction, the
make-closure into this register whose wide operand is the index of this
prototype. -/
theorem compileLambda_spec (fs : funcState) (params : List String) (body : Object)
    (more : List Object) (hd : params.Nodup) :
    compileObject fs
        (mkList (.symbol "lambda" :: mkList (params.map Object.symbol) :: body :: more)) =
      compileLambda compileObject fs (.symbol "lambda")
        (mkList (mkList (params.map Object.symbol) :: body :: more)) ∧
    (∀ (i : Nat) (h : i < params.length),
      (lambdaChild fs params).findLocVar (params.get ⟨i, h⟩) =
        some ⟨params.get ⟨i, h⟩, i⟩ ∧
      ∀ child, Grows (lambdaChild fs params) child →
        compileSymbol child (params.get ⟨i, h⟩) = (.ret (some ⟨i⟩), child)) ∧
    (lambdaChild fs params).nreg = params.length ∧
    (lambdaChild fs params).newReg.1 = ⟨params.length⟩ ∧
    (lambdaChild fs params).Insts = [] ∧
    (lambdaChild fs params).prev = some fs ∧
    (lambdaChild fs params).Proto.Args = params ∧
    (∀ resultR child1,
      compileObject (lambdaChild fs params) body = (.ret (some resultR), child1) →
      ∃ fs1, compileLambda compileObject fs (.symbol "lambda")
          (mkList (mkList (params.map Object.symbol) :: body :: more)) =
            (.ret (some ⟨fs.nreg⟩), fs1) ∧
        fs1.Proto.Protos =
          fs.Proto.Protos ++ [(child1.addABC .OP_RETURN resultR.N 2 0).Proto] ∧
        fs1.Insts = fs.Insts ++ [.ABx .OP_CLOSURE fs.nreg fs.Proto.Protos.length] ∧
        fs1.nreg = fs.nreg + 1 ∧ fs1.handed = fs.handed ++ [fs.nreg]) := by
  obtain ⟨s1, s2, s3, s4, _, _, s7⟩ := setArgs_fields (newFuncState (some fs)) params
  obtain ⟨h1, h2, h3, h4, h5⟩ :=
    foldl_bindLocVar_spec params ((newFuncState (some fs)).setArgs params)
  have hnreg : (lambdaChild fs params).nreg = params.length := by
    unfold lambdaChild
    rw [h1, s1]
    simp [newFuncState, funcState.nreg]
  have hbind : ∀ (i : Nat) (h : i < params.length),
      (lambdaChild fs params).findLocVar (params.get ⟨i, h⟩) =
        some ⟨params.get ⟨i, h⟩, i⟩ := by
    intro i h
    unfold lambdaChild
    rw [h5 hd i h, s1]
    simp [newFuncState, funcState.nreg]
  refine ⟨compileObject_lambda fs _, ?_, hnreg, ?_, ?_, ?_, ?_, ?_⟩
  · intro i h
    refine ⟨hbind i h, ?_⟩
    intro child hg
    have hloc : child.findLocVar (params.get ⟨i, h⟩) = some ⟨params.get ⟨i, h⟩, i⟩ := by
      unfold funcState.findLocVar
      rw [hg.locVars]
      exact hbind i h
    exact compileSymbol_local child _ _ hloc
  · rw [newReg_fst, hnreg]
  · unfold lambdaChild funcState.Insts
    rw [h2]
    exact s3
  · unfold lambdaChild
    rw [h3, s2]
    rfl
  · unfold lambdaChild
    rw [h2, s4]
  · intro resultR child1 hbody
    rw [compileLambda_form, hbody]
    refine ⟨_, rfl, ?_, ?_, ?_, ?_⟩
    · simp [funcState.addABx]
    · simp [funcState.addABx, CreateABx]
    · simp [funcState.addABx]
    · simp [funcState.addABx]

/-- Witness for C21: the form `(lambda (a b) b a)` at top level. -/
theorem compileLambda_spec_witness :
    (lambdaChild (newFuncState none) ["a", "b"]).findLocVar "b" = some ⟨"b", 1⟩ ∧
    (lambdaChild (newFuncState none) ["a", "b"]).nreg = 2 ∧
    ∃ fs1, compileLambda compileObject (newFuncState none) (.symbol "lambda")
        (mkList (mkList (["a", "b"].map Object.symbol) :: .symbol "b" :: [.symbol "a"])) =
          (.ret (some ⟨(newFuncState none).nreg⟩), fs1) ∧
      fs1.Proto.Protos = (newFuncState none).Proto.Protos ++
        [((lambdaChild (newFuncState none) ["a", "b"]).addABC .OP_RETURN 1 2 0).Proto] ∧
      fs1.Insts = (newFuncState none).Insts ++
        [.ABx .OP_CLOSURE (newFuncState none).nreg (newFuncState none).Proto.Protos.length] ∧
      fs1.nreg = (newFuncState none).nreg + 1 ∧
      fs1.handed = (newFuncState none).handed ++ [(newFuncState none).nreg] :=
  have h := compileLambda_spec (newFuncState none) ["a", "b"] (.symbol "b") [.symbol "a"]
    (by decide)
  ⟨(h.2.1 1 (by decide)).1, h.2.2.1,
    h.2.2.2.2.2.2.2 ⟨1⟩ (lambdaChild (newFuncState none) ["a", "b"])
      ((h.2.1 1 (by decide)).2 _ (Grows.refl _))⟩

/-! ## Compile on a form that fails to compile -/

/-- C7 (the code at the failing input): the top-level form `(f #t)` fails to
compile: its argument `#t` is refused by `compileObject` with an error in every
function state, and `compileObject` returns no register for the form. `Compile`
does not return that error: on `(f #t)` alone, on `(f #t)` followed by `#t`, and
on `1` followed by `(f #t)` it panics, so that neither an error nor a closure is
returned. With the failing form `#t` at top level, `Compile` does return the
error. -/
theorem Compile_panics_when_a_form_fails :
    (∀ fs, compileObject fs (.boolean true) =
      (.fail (.unknownObject (some (.boolean true))), fs)) ∧
    (compileObject (newFuncState none) formCallWithBoolean).1 = .crash ∧
    Compile [formCallWithBoolean] = .crash ∧
    Compile [formCallWithBoolean, .boolean true] = .crash ∧
    Compile [.number num1, formCallWithBoolean] = .crash ∧
    Compile [.boolean true] = .fail (.unknownObject (some (.boolean true))) :=
  ⟨fun _ => rfl, by decide, rfl, rfl, rfl, rfl⟩

end Tama
